import Mathlib

/-!
Verification of the `paprika_to_apple_notes.py` converter.

Python strings are embedded as `List Char` (abbreviated `Str`), and every
text-processing function of the source is translated into an executable Lean
function over `Str`.  External library calls (BeautifulSoup, `unicodedata`,
`html.unescape`) are modelled by explicit Lean functions; each such model is
marked in its doc comment.
-/

set_option maxHeartbeats 2000000

set_option maxRecDepth 8000

abbrev Str := List Char

/-- Coerce a Lean string literal to the `List Char` representation. -/
def str (s : String) : Str := s.data

/-- Characters treated as whitespace by Python's `\s` / `str.strip()`
(ASCII whitespace plus NBSP; model of the full Unicode whitespace set,
restricted to the characters that occur in this development). -/
def isPyWs (c : Char) : Bool :=
  c == ' ' || c == '\t' || c == '\n' || c == '\r' || c == '\x0b' || c == '\x0c' || c == '\u00A0'

/-- Python `str.replace(c, rep)` for a single-character pattern. -/
def pyReplaceChar (c : Char) (rep : Str) : Str → Str
  | [] => []
  | x :: t => (if x = c then rep else [x]) ++ pyReplaceChar c rep t

/-- `Recipe._escape_html`: the five sequential `str.replace` calls of the
source (`&` first, then `<`, `>`, `"`, `'`). -/
def escapeHtml (s : Str) : Str :=
  pyReplaceChar '\'' (str "&#x27;")
    (pyReplaceChar '"' (str "&quot;")
      (pyReplaceChar '>' (str "&gt;")
        (pyReplaceChar '<' (str "&lt;")
          (pyReplaceChar '&' (str "&amp;") s))))

/-- One of the four characters that must never appear raw in escaped output. -/
def isEscSpecial (c : Char) : Bool :=
  c == '<' || c == '>' || c == '"' || c == '\''

/-- After a `&`, the following characters must spell one of the five entities
emitted by `Recipe._escape_html`. -/
def entityOK (rest : Str) : Bool :=
  (str "amp;").isPrefixOf rest || (str "lt;").isPrefixOf rest ||
  (str "gt;").isPrefixOf rest || (str "quot;").isPrefixOf rest ||
  (str "#x27;").isPrefixOf rest

/-- A string is properly escaped when it contains no raw `<`, `>`, `"`, `'`
and every `&` in it starts one of the five escape entities. -/
def escOK : Str → Bool
  | [] => true
  | c :: t =>
    if isEscSpecial c then false
    else if c = '&' then entityOK t && escOK t
    else escOK t

/-- Character-wise view of `escapeHtml`. -/
def escChar (c : Char) : Str :=
  if c = '&' then str "&amp;"
  else if c = '<' then str "&lt;"
  else if c = '>' then str "&gt;"
  else if c = '"' then str "&quot;"
  else if c = '\'' then str "&#x27;"
  else [c]

/-- No raw `<` occurs in a string (used for tag-counting arguments). -/
def noLt (s : Str) : Bool := s.all (fun c => !(c == '<'))

/-- The structured record built by `Recipe.__init__` (field defaults as in the
Python constructor; `source_file` is the input path). -/
structure Recipe where
  source_file : Str := []
  title : Str := []
  categories : List Str := []
  prep_time : Str := []
  cook_time : Str := []
  servings : Str := []
  source_url : Str := []
  source_name : Str := []
  ingredients : List Str := []
  instructions : List Str := []
  notes : List Str := []
  nutrition : List Str := []
  image_path : Str := []
deriving DecidableEq

/-- Python `'sep'.join(parts)`. -/
def pyJoin (sep : Str) : List Str → Str
  | [] => []
  | [x] => x
  | x :: y :: t => x ++ sep ++ pyJoin sep (y :: t)

/-- The fixed head of the per-recipe document: lines appended before the
metadata section in `Recipe.to_clean_html` (DOCTYPE, head, embedded style,
`<h1>`). -/
def headParts (r : Recipe) : List Str :=
  [str "<!DOCTYPE html>",
   str "<html><head><meta charset=\"UTF-8\">",
   str "<title>" ++ escapeHtml r.title ++ str "</title>",
   str "<style>",
   str "body \x7b font-family: -apple-system, BlinkMacSystemFont, \"Segoe UI\", sans-serif; margin: 20px; line-height: 1.6; color: #1d1d1f; \x7d",
   str "h1 \x7b color: #1d1d1f; border-bottom: 3px solid #007aff; padding-bottom: 12px; margin-bottom: 20px; font-size: 28px; \x7d",
   str "h2 \x7b color: #007aff; margin-top: 30px; margin-bottom: 15px; font-size: 20px; font-weight: 600; \x7d",
   str ".metadata \x7b background: linear-gradient(135deg, #f5f5f7 0%, #e8e8ea 100%); padding: 20px; border-radius: 12px; margin: 20px 0; border-left: 4px solid #007aff; \x7d",
   str ".metadata p \x7b margin: 8px 0; \x7d",
   str ".metadata strong \x7b color: #1d1d1f; \x7d",
   str ".ingredients \x7b background: linear-gradient(135deg, #f0f9ff 0%, #e0f2fe 100%); padding: 20px; border-radius: 12px; margin: 20px 0; border-left: 4px solid #0ea5e9; \x7d",
   str ".instructions \x7b margin: 20px 0; \x7d",
   str ".instructions ol \x7b padding-left: 0; counter-reset: step-counter; \x7d",
   str ".instructions li \x7b list-style: none; counter-increment: step-counter; margin-bottom: 15px; padding: 15px; background-color: #fafafa; border-radius: 8px; border-left: 4px solid #10b981; position: relative; \x7d",
   str ".instructions li::before \x7b content: counter(step-counter); position: absolute; left: -25px; top: 15px; background: #10b981; color: white; width: 20px; height: 20px; border-radius: 50%; display: flex; align-items: center; justify-content: center; font-size: 12px; font-weight: bold; \x7d",
   str ".notes \x7b background: linear-gradient(135deg, #fffbf0 0%, #fef3c7 100%); padding: 20px; border-radius: 12px; margin: 20px 0; border-left: 4px solid #f59e0b; \x7d",
   str ".nutrition \x7b background: linear-gradient(135deg, #f0fdf4 0%, #dcfce7 100%); padding: 20px; border-radius: 12px; margin: 20px 0; border-left: 4px solid #22c55e; \x7d",
   str "ul \x7b padding-left: 20px; \x7d",
   str "li \x7b margin-bottom: 8px; \x7d",
   str "a \x7b color: #007aff; text-decoration: none; \x7d",
   str "a:hover \x7b text-decoration: underline; \x7d",
   str ".source \x7b margin: 25px 0; padding: 15px; background-color: #f8f9fa; border-radius: 8px; border-left: 4px solid #6c757d; \x7d",
   str "</style>",
   str "</head><body>",
   str "<h1>" ++ escapeHtml r.title ++ str "</h1>"]

/-- Metadata section of `Recipe.to_clean_html` (rendered only when at least
one of prep/cook/servings/categories is non-empty). -/
def metadataParts (r : Recipe) : List Str :=
  if r.prep_time ≠ [] ∨ r.cook_time ≠ [] ∨ r.servings ≠ [] ∨ r.categories ≠ [] then
    [str "<div class=\"metadata\">"] ++
    (if r.prep_time ≠ [] then
      [str "<p><strong>Prep Time:</strong> " ++ escapeHtml r.prep_time ++ str "</p>"] else []) ++
    (if r.cook_time ≠ [] then
      [str "<p><strong>Cook Time:</strong> " ++ escapeHtml r.cook_time ++ str "</p>"] else []) ++
    (if r.servings ≠ [] then
      [str "<p><strong>Servings:</strong> " ++ escapeHtml r.servings ++ str "</p>"] else []) ++
    (if r.categories ≠ [] then
      [str "<p><strong>Categories:</strong> " ++
        pyJoin (str ", ") (r.categories.map escapeHtml) ++ str "</p>"] else []) ++
    [str "</div>"]
  else []

/-- Ingredients section of `Recipe.to_clean_html`. -/
def ingredientsParts (r : Recipe) : List Str :=
  if r.ingredients ≠ [] then
    [str "<div class=\"ingredients\">", str "<h2>Ingredients</h2>", str "<ul>"] ++
    r.ingredients.map (fun i => str "<li>" ++ escapeHtml i ++ str "</li>") ++
    [str "</ul>", str "</div>"]
  else []

/-- Instructions section of `Recipe.to_clean_html`. -/
def instructionsParts (r : Recipe) : List Str :=
  if r.instructions ≠ [] then
    [str "<h2>Instructions</h2>", str "<div class=\"instructions\">", str "<ol>"] ++
    r.instructions.map (fun s => str "<li>" ++ escapeHtml s ++ str "</li>") ++
    [str "</ol>", str "</div>"]
  else []

/-- Notes section of `Recipe.to_clean_html`. -/
def notesParts (r : Recipe) : List Str :=
  if r.notes ≠ [] then
    [str "<div class=\"notes\">", str "<h2>Notes</h2>"] ++
    r.notes.map (fun n => str "<p>" ++ escapeHtml n ++ str "</p>") ++
    [str "</div>"]
  else []

/-- Source section of `Recipe.to_clean_html` (link preferred when a URL
exists; `source_text = self.source_name or self.source_url`). -/
def sourceParts (r : Recipe) : List Str :=
  if r.source_name ≠ [] ∨ r.source_url ≠ [] then
    [str "<div class=\"source\">", str "<h2>Source</h2>"] ++
    (if r.source_url ≠ [] then
      [str "<p><a href=\"" ++ escapeHtml r.source_url ++ str "\" target=\"_blank\">" ++
        escapeHtml (if r.source_name ≠ [] then r.source_name else r.source_url) ++
        str "</a></p>"]
     else [str "<p>" ++ escapeHtml r.source_name ++ str "</p>"]) ++
    [str "</div>"]
  else []

/-- Nutrition section of `Recipe.to_clean_html`. -/
def nutritionParts (r : Recipe) : List Str :=
  if r.nutrition ≠ [] then
    [str "<div class=\"nutrition\">", str "<h2>Nutrition Information</h2>"] ++
    r.nutrition.map (fun n => str "<p>" ++ escapeHtml n ++ str "</p>") ++
    [str "</div>"]
  else []

/-- The `html_parts` list built by `Recipe.to_clean_html`. -/
def htmlParts (r : Recipe) : List Str :=
  headParts r ++ metadataParts r ++ ingredientsParts r ++ instructionsParts r ++
  notesParts r ++ sourceParts r ++ nutritionParts r ++ [str "</body></html>"]

/-- `Recipe.to_clean_html`: the parts joined with newlines. -/
def toCleanHtml (r : Recipe) : Str := pyJoin (str "\n") (htmlParts r)

/-- `t` occurs contiguously inside `s`. -/
def within (t s : Str) : Prop := ∃ u v, s = u ++ t ++ v

/-- The domain-text insertions performed by `Recipe.to_clean_html`, each
escaped with `Recipe._escape_html` exactly as in the source: title (twice:
`<title>` and `<h1>`), prep/cook/servings when present, each category, each
ingredient, each instruction step, each note, the source URL and source text,
and each nutrition item. -/
def escapedInsertions (r : Recipe) : List Str :=
  [escapeHtml r.title, escapeHtml r.title] ++
  (if r.prep_time ≠ [] then [escapeHtml r.prep_time] else []) ++
  (if r.cook_time ≠ [] then [escapeHtml r.cook_time] else []) ++
  (if r.servings ≠ [] then [escapeHtml r.servings] else []) ++
  r.categories.map escapeHtml ++
  r.ingredients.map escapeHtml ++
  r.instructions.map escapeHtml ++
  r.notes.map escapeHtml ++
  (if r.source_url ≠ [] then
    [escapeHtml r.source_url,
     escapeHtml (if r.source_name ≠ [] then r.source_name else r.source_url)]
   else if r.source_name ≠ [] then [escapeHtml r.source_name] else []) ++
  r.nutrition.map escapeHtml

/-- Model of Python `unicodedata.normalize('NFKC', ·)` restricted to the
compatibility characters relevant here (NBSP and the vulgar fractions, which
NFKC rewrites to digit + FRACTION SLASH sequences); identity on every other
character.  True NFKC is not character-wise in general, but no claim in this
development depends on behaviour outside this set. -/
def nfkcChar (c : Char) : Str :=
  if c = ' ' then str " "
  else if c = '½' then str "1⁄2"
  else if c = '⅓' then str "1⁄3"
  else if c = '⅔' then str "2⁄3"
  else if c = '¼' then str "1⁄4"
  else if c = '¾' then str "3⁄4"
  else if c = '⅕' then str "1⁄5"
  else if c = '⅖' then str "2⁄5"
  else if c = '⅗' then str "3⁄5"
  else if c = '⅘' then str "4⁄5"
  else if c = '⅙' then str "1⁄6"
  else if c = '⅚' then str "5⁄6"
  else if c = '⅛' then str "1⁄8"
  else if c = '⅜' then str "3⁄8"
  else if c = '⅝' then str "5⁄8"
  else if c = '⅞' then str "7⁄8"
  else [c]

def nfkc (s : Str) : Str := s.flatMap nfkcChar

/-- Model of Python `html.unescape` restricted to the named/numeric entities
that matter for this development; all other text is copied verbatim
(fuel-driven so that the kernel can evaluate it; the fuel never runs out
because every step consumes at least one character). -/
def htmlUnescapeF : Nat → Str → Str
  | 0, s => s
  | _ + 1, [] => []
  | fuel + 1, c :: rest =>
    if c = '&' then
      if (str "amp;").isPrefixOf rest then '&' :: htmlUnescapeF fuel (rest.drop 4)
      else if (str "lt;").isPrefixOf rest then '<' :: htmlUnescapeF fuel (rest.drop 3)
      else if (str "gt;").isPrefixOf rest then '>' :: htmlUnescapeF fuel (rest.drop 3)
      else if (str "quot;").isPrefixOf rest then '"' :: htmlUnescapeF fuel (rest.drop 5)
      else if (str "#x27;").isPrefixOf rest then '\'' :: htmlUnescapeF fuel (rest.drop 5)
      else if (str "#39;").isPrefixOf rest then '\'' :: htmlUnescapeF fuel (rest.drop 4)
      else if (str "apos;").isPrefixOf rest then '\'' :: htmlUnescapeF fuel (rest.drop 5)
      else if (str "nbsp;").isPrefixOf rest then ' ' :: htmlUnescapeF fuel (rest.drop 5)
      else '&' :: htmlUnescapeF fuel rest
    else c :: htmlUnescapeF fuel rest

def htmlUnescape (s : Str) : Str := htmlUnescapeF s.length s

/-- Worker for `re.sub(r'\s+', u, ·)`: the flag records whether we are inside
a whitespace run whose replacement has already been emitted. -/
def collapseGo (u : Char) : Bool → Str → Str
  | _, [] => []
  | inRun, c :: t =>
    if isPyWs c then
      if inRun then collapseGo u true t else u :: collapseGo u true t
    else c :: collapseGo u false t

/-- `re.sub(r'\s+', u, ·)`: every maximal whitespace run becomes the single
character `u`. -/
def collapseRunsWith (u : Char) (s : Str) : Str := collapseGo u false s

def pyStripLeft (s : Str) : Str := s.dropWhile isPyWs

def pyStripRight (s : Str) : Str := (s.reverse.dropWhile isPyWs).reverse

/-- Python `str.strip()` (no argument). -/
def pyStrip (s : Str) : Str := pyStripRight (pyStripLeft s)

/-- `Recipe._clean_text`: NFKC normalization, HTML-entity decoding, then
whitespace collapsing and stripping. -/
def cleanText (s : Str) : Str :=
  if s = [] then []
  else pyStrip (collapseRunsWith ' ' (htmlUnescape (nfkc s)))

def isAsciiUpper (c : Char) : Bool := 65 ≤ c.toNat && c.toNat ≤ 90

def isAsciiLower (c : Char) : Bool := 97 ≤ c.toNat && c.toNat ≤ 122

def isAsciiAlpha (c : Char) : Bool := isAsciiUpper c || isAsciiLower c

/-- ASCII model of Python `str.lower()` on one character. -/
def pyLowerChar : Char → Char
  | 'A' => 'a' | 'B' => 'b' | 'C' => 'c' | 'D' => 'd' | 'E' => 'e' | 'F' => 'f'
  | 'G' => 'g' | 'H' => 'h' | 'I' => 'i' | 'J' => 'j' | 'K' => 'k' | 'L' => 'l'
  | 'M' => 'm' | 'N' => 'n' | 'O' => 'o' | 'P' => 'p' | 'Q' => 'q' | 'R' => 'r'
  | 'S' => 's' | 'T' => 't' | 'U' => 'u' | 'V' => 'v' | 'W' => 'w' | 'X' => 'x'
  | 'Y' => 'y' | 'Z' => 'z' | c => c

/-- ASCII model of Python `str.upper()` on one character. -/
def pyUpperChar : Char → Char
  | 'a' => 'A' | 'b' => 'B' | 'c' => 'C' | 'd' => 'D' | 'e' => 'E' | 'f' => 'F'
  | 'g' => 'G' | 'h' => 'H' | 'i' => 'I' | 'j' => 'J' | 'k' => 'K' | 'l' => 'L'
  | 'm' => 'M' | 'n' => 'N' | 'o' => 'O' | 'p' => 'P' | 'q' => 'Q' | 'r' => 'R'
  | 's' => 'S' | 't' => 'T' | 'u' => 'U' | 'v' => 'V' | 'w' => 'W' | 'x' => 'X'
  | 'y' => 'Y' | 'z' => 'Z' | c => c

def toLowerStr (s : Str) : Str := s.map pyLowerChar

/-- ASCII model of Python `str.title()`: a letter is upper-cased when the
previous character is not a letter, lower-cased otherwise. -/
def pyTitleGo : Bool → Str → Str
  | _, [] => []
  | prevAlpha, c :: t =>
    if isAsciiAlpha c then
      (if prevAlpha then pyLowerChar c else pyUpperChar c) :: pyTitleGo true t
    else c :: pyTitleGo false t

def pyTitle (s : Str) : Str := pyTitleGo false s

/-- `re.sub(r'^\d+\.\s*', '', ·)`: strip one leading run of digits followed
by a dot and optional whitespace. -/
def stripNumDot (s : Str) : Str :=
  let ds := s.takeWhile Char.isDigit
  if ds ≠ [] ∧ (s.drop ds.length).head? = some '.' then
    (s.drop (ds.length + 1)).dropWhile isPyWs
  else s

/-- `re.sub(r'^(Recipe:\s*|RECIPE:\s*)', '', ·, flags=IGNORECASE)`. -/
def stripRecipePrefix (s : Str) : Str :=
  if (str "recipe:").isPrefixOf (toLowerStr s) then (s.drop 7).dropWhile isPyWs
  else s

/-- The connector-word alternatives of the title-case heuristic, in the
source's alternation order. -/
def connectorWords : List Str :=
  [str "with", str "and", str "&", str "in", str "on", str "for", str "or"]

/-- Length of a match of `\s+(?:with|and|&|in|on|for|or)\s+` (IGNORECASE)
anchored at the start of `s`, if any. -/
def sepMatchLen (s : Str) : Option Nat :=
  let w := s.takeWhile isPyWs
  if w.isEmpty then none
  else
    let t := s.drop w.length
    match connectorWords.find? (fun a =>
      toLowerStr (t.take a.length) == a &&
      !((t.drop a.length).takeWhile isPyWs).isEmpty) with
    | some a => some (w.length + a.length + ((t.drop a.length).takeWhile isPyWs).length)
    | none => none

/-- `re.split` with the connector separator pattern captured: returns the
interleaved list of text pieces and separator matches. -/
def splitSepsGo : Nat → Str → Str → List Str
  | 0, acc, s => [acc.reverse ++ s]
  | fuel + 1, acc, s =>
    match sepMatchLen s with
    | some n => acc.reverse :: s.take n :: splitSepsGo fuel [] (s.drop n)
    | none =>
      match s with
      | [] => [acc.reverse]
      | c :: t => splitSepsGo fuel (c :: acc) t

def splitSeps (s : Str) : List Str := splitSepsGo (s.length + 1) [] s

/-- The all-caps reformatting branch of `Recipe._clean_title`: split on
connector separators, lower-case the separators, title-case the rest,
rejoin. -/
def titleCaseSplit (t : Str) : Str :=
  pyJoin (str "")
    ((splitSeps t).map (fun part =>
      if (sepMatchLen part).isSome then toLowerStr part else pyTitle part))

/-- `Recipe._clean_title`.  The float comparison
`len(uppercase) > len(title) * 0.7` is modelled rationally as
`10 * len(uppercase) > 7 * len(title)`. -/
def cleanTitle (t0 : Str) : Str :=
  let t := cleanText t0
  if t = [] then str "Untitled Recipe"
  else
    let t1 := stripNumDot t
    let t2 := stripRecipePrefix t1
    let t3 :=
      if 7 * t2.length < 10 * (t2.filter isAsciiUpper).length ∧ 3 < t2.length then
        titleCaseSplit t2
      else t2
    pyStrip (collapseRunsWith ' ' t3)

/-- Substring containment (Python `in` on strings). -/
def isSubstr (p : Str) : Str → Bool
  | [] => p.isPrefixOf []
  | c :: t => p.isPrefixOf (c :: t) || isSubstr p t

/-- The `category_mapping` dict of `Recipe._clean_category`, in insertion
order. -/
def categoryMapping : List (Str × Str) :=
  [(str "air fryer", str "Air Fryer"),
   (str "crockpot", str "Crockpot"),
   (str "slow cooker", str "Slow Cooker"),
   (str "instant pot", str "Instant Pot"),
   (str "pressure cooker", str "Pressure Cooker"),
   (str "oven", str "Oven"),
   (str "stove", str "Stovetop"),
   (str "grill", str "Grilled"),
   (str "no bake", str "No Bake"),
   (str "vegetarian", str "Vegetarian"),
   (str "vegan", str "Vegan"),
   (str "keto", str "Keto"),
   (str "low carb", str "Low Carb"),
   (str "gluten free", str "Gluten Free"),
   (str "dairy free", str "Dairy Free")]

/-- `Recipe._clean_category`: first synonym whose key occurs in the lowered
cleaned token wins (dict iteration order); otherwise generic title-casing. -/
def cleanCategory (c0 : Str) : Str :=
  let c := cleanText c0
  match categoryMapping.find? (fun kv => isSubstr kv.1 (toLowerStr c)) with
  | some kv => kv.2
  | none => pyTitle c

/-- ASCII model of the regex word character class `\w`. -/
def isWordChar (c : Char) : Bool := isAsciiAlpha c || c.isDigit || c == '_'

/-- A `\b` word boundary holds between the end of a word and `s`. -/
def boundaryAfter (s : Str) : Bool :=
  match s with
  | [] => true
  | c :: _ => !isWordChar c

/-- Fuel-driven engine for `re.sub` with a matcher that reports match length
and replacement; scanning continues after each match on the original text. -/
def subScanF (matchAt : Str → Option (Nat × Str)) : Nat → Str → Str
  | 0, s => s
  | _ + 1, [] => []
  | fuel + 1, c :: t =>
    match matchAt (c :: t) with
    | some (n, rep) => rep ++ subScanF matchAt fuel ((c :: t).drop (max n 1))
    | none => c :: subScanF matchAt fuel t

def subScan (matchAt : Str → Option (Nat × Str)) (s : Str) : Str :=
  subScanF matchAt s.length s

/-- Matcher for `(\d+)\s*W s?\b` (IGNORECASE) anchored at the start, where
`W` is a lowercase word; the replacement is built from the digit group. -/
def matchNumWordOptS (w : Str) (mkRep : Str → Str) (s : Str) : Option (Nat × Str) :=
  let ds := s.takeWhile Char.isDigit
  if ds.isEmpty then none
  else
    let t1 := s.drop ds.length
    let sp := t1.takeWhile isPyWs
    let t2 := t1.drop sp.length
    if toLowerStr (t2.take w.length) == w then
      let rest := t2.drop w.length
      match rest with
      | c :: rest2 =>
        if pyLowerChar c = 's' then
          if boundaryAfter rest2 then
            some (ds.length + sp.length + w.length + 1, mkRep ds)
          else none
        else if boundaryAfter rest then
          some (ds.length + sp.length + w.length, mkRep ds)
        else none
      | [] => some (ds.length + sp.length + w.length, mkRep ds)
    else none

/-- Matcher for `(\d+)\s*h\s*(\d+)\s*m\b` (IGNORECASE). -/
def matchHM (s : Str) : Option (Nat × Str) :=
  let d1 := s.takeWhile Char.isDigit
  if d1.isEmpty then none
  else
    let t1 := s.drop d1.length
    let w1 := t1.takeWhile isPyWs
    let t2 := t1.drop w1.length
    match t2 with
    | c :: t3 =>
      if pyLowerChar c = 'h' then
        let w2 := t3.takeWhile isPyWs
        let t4 := t3.drop w2.length
        let d2 := t4.takeWhile Char.isDigit
        if d2.isEmpty then none
        else
          let t5 := t4.drop d2.length
          let w3 := t5.takeWhile isPyWs
          let t6 := t5.drop w3.length
          match t6 with
          | m :: t7 =>
            if pyLowerChar m = 'm' ∧ boundaryAfter t7 then
              some (d1.length + w1.length + 1 + w2.length + d2.length + w3.length + 1,
                    d1 ++ str " hours " ++ d2 ++ str " minutes")
            else none
          | [] => none
      else none
    | [] => none

/-- Matcher for `(\d+)\s+W` (IGNORECASE, no trailing boundary), used by the
duplication fix-ups of `Recipe._clean_time`. -/
def matchNumWordFix (w : Str) (mkRep : Str → Str) (s : Str) : Option (Nat × Str) :=
  let ds := s.takeWhile Char.isDigit
  if ds.isEmpty then none
  else
    let t1 := s.drop ds.length
    let sp := t1.takeWhile isPyWs
    if sp.isEmpty then none
    else
      let t2 := t1.drop sp.length
      if toLowerStr (t2.take w.length) == w then
        some (ds.length + sp.length + w.length, mkRep ds)
      else none

/-- `Recipe._clean_time`: the five sequential regex substitutions of the
source applied to the cleaned text. -/
def cleanTime (t0 : Str) : Str :=
  let t := cleanText t0
  if t = [] then []
  else
    let t1 := subScan (matchNumWordOptS (str "min") (fun ds => ds ++ str " minutes")) t
    let t2 := subScan (matchNumWordOptS (str "hr") (fun ds => ds ++ str " hours")) t1
    let t3 := subScan matchHM t2
    let t4 := subScan (matchNumWordFix (str "minutesutes") (fun ds => ds ++ str " minutes")) t3
    subScan (matchNumWordFix (str "hoursours") (fun ds => ds ++ str " hours")) t4

/-- `Recipe._clean_servings`: clean, then strip one `Yield:`/`Serves:` prefix
(IGNORECASE, `\s*` absorbed). -/
def cleanServings (s0 : Str) : Str :=
  let s := cleanText s0
  if (str "yield:").isPrefixOf (toLowerStr s) then (s.drop 6).dropWhile isPyWs
  else if (str "serves:").isPrefixOf (toLowerStr s) then (s.drop 7).dropWhile isPyWs
  else s

/-- The `fraction_map` of `Recipe._clean_ingredient`, in insertion order. -/
def fractionPairs : List (Char × Str) :=
  [('½', str "1/2"), ('⅓', str "1/3"), ('⅔', str "2/3"), ('¼', str "1/4"),
   ('¾', str "3/4"), ('⅕', str "1/5"), ('⅖', str "2/5"), ('⅗', str "3/5"),
   ('⅘', str "4/5"), ('⅙', str "1/6"), ('⅚', str "5/6"), ('⅛', str "1/8"),
   ('⅜', str "3/8"), ('⅝', str "5/8"), ('⅞', str "7/8")]

/-- Fuel-driven `re.sub` engine that tracks the previous original character,
for patterns with a leading `\b`. -/
def subScanBF (matchAt : Option Char → Str → Option (Nat × Str)) :
    Nat → Option Char → Str → Str
  | 0, _, s => s
  | _ + 1, _, [] => []
  | fuel + 1, prev, c :: t =>
    match matchAt prev (c :: t) with
    | some (n, rep) =>
      rep ++ subScanBF matchAt fuel (((c :: t).take (max n 1)).getLast?) ((c :: t).drop (max n 1))
    | none => c :: subScanBF matchAt fuel (some c) t

def subScanB (matchAt : Option Char → Str → Option (Nat × Str)) (s : Str) : Str :=
  subScanBF matchAt s.length none s

/-- Matcher for `\bW s?\b` (IGNORECASE): `w` is the lowered key, `optS`
whether the pattern carries an optional trailing `s`. -/
def matchWordB (w : Str) (optS : Bool) (rep : Str) (prev : Option Char) (s : Str) :
    Option (Nat × Str) :=
  let okLeft := match prev with | none => true | some p => !isWordChar p
  if okLeft && (toLowerStr (s.take w.length) == w) then
    let rest := s.drop w.length
    if optS then
      match rest with
      | c :: rest2 =>
        if pyLowerChar c = 's' then
          if boundaryAfter rest2 then some (w.length + 1, rep) else none
        else if boundaryAfter rest then some (w.length, rep) else none
      | [] => some (w.length, rep)
    else
      if boundaryAfter rest then some (w.length, rep) else none
  else none

/-- The `abbrev_map` of `Recipe._clean_ingredient` in insertion order, with
keys lowered (all patterns carry IGNORECASE, so `\bT\b` and `\bc\b`/`\bC\b`
match both cases; the duplicate `c` entry mirrors the dict's two keys). -/
def abbrevPatterns : List (Str × Bool × Str) :=
  [(str "t", false, str "tbsp"), (str "tsp", false, str "tsp"),
   (str "tbsp", false, str "tbsp"), (str "c", false, str "cup"),
   (str "c", false, str "cup"), (str "cup", true, str "cup"),
   (str "lb", false, str "lb"), (str "lbs", false, str "lb"),
   (str "pound", true, str "lb"), (str "oz", false, str "oz"),
   (str "ounce", true, str "oz"), (str "pkg", false, str "package"),
   (str "pkgs", false, str "package")]

/-- `Recipe._clean_ingredient`: clean, substitute vulgar fractions, then the
unit-abbreviation substitutions. -/
def cleanIngredient (i0 : Str) : Str :=
  let i := cleanText i0
  if i = [] then []
  else
    let i1 := fractionPairs.foldl (fun s kv => pyReplaceChar kv.1 kv.2 s) i
    abbrevPatterns.foldl (fun s kv => subScanB (matchWordB kv.1 kv.2.1 kv.2.2) s) i1

/-- Matcher for `<br\s*/?>` (IGNORECASE) anchored at the start. -/
def brMatchLen (s : Str) : Option Nat :=
  match s with
  | '<' :: c1 :: c2 :: rest =>
    if pyLowerChar c1 = 'b' ∧ pyLowerChar c2 = 'r' then
      let w := rest.takeWhile isPyWs
      let rest2 := rest.drop w.length
      match rest2 with
      | '/' :: '>' :: _ => some (3 + w.length + 2)
      | '>' :: _ => some (3 + w.length + 1)
      | _ => none
    else none
  | _ => none

/-- Fuel-driven `re.split` engine: pieces between matches (empties kept,
matches dropped). -/
def splitOnScan (matchAt : Str → Option Nat) : Nat → Str → Str → List Str
  | 0, acc, s => [acc.reverse ++ s]
  | fuel + 1, acc, s =>
    match matchAt s with
    | some n => acc.reverse :: splitOnScan matchAt fuel [] (s.drop (max n 1))
    | none =>
      match s with
      | [] => [acc.reverse]
      | c :: t => splitOnScan matchAt fuel (c :: acc) t

def splitBrTags (s : Str) : List Str := splitOnScan brMatchLen (s.length + 1) [] s

/-- Model of BeautifulSoup `get_text()` tag removal for flat markup: drop
each `<`…`>` span, keep the text between tags (fuel-driven). -/
def stripTagsF : Nat → Str → Str
  | 0, s => s
  | _ + 1, [] => []
  | fuel + 1, '<' :: t => stripTagsF fuel ((t.dropWhile (fun c => !(c == '>'))).drop 1)
  | fuel + 1, c :: t => c :: stripTagsF fuel t

def stripTags (s : Str) : Str := stripTagsF s.length s

/-- Model of BeautifulSoup `get_text()`: tags removed, entities decoded. -/
def getText (s : Str) : Str := htmlUnescape (stripTags s)

/-- Fuel-driven splitter for `(?<=[.!?])\s+(?=[A-Z])`: split at a whitespace
run preceded by sentence punctuation and followed by an ASCII capital. -/
def sentSplitGo : Nat → Option Char → Str → Str → List Str
  | 0, _, acc, s => [acc.reverse ++ s]
  | fuel + 1, prev, acc, s =>
    match s with
    | [] => [acc.reverse]
    | c :: t =>
      if isPyWs c ∧ (prev = some '.' ∨ prev = some '!' ∨ prev = some '?') then
        match t.dropWhile isPyWs with
        | r :: rest =>
          if isAsciiUpper r then acc.reverse :: sentSplitGo fuel none [] (r :: rest)
          else sentSplitGo fuel (some c) (c :: acc) t
        | [] => sentSplitGo fuel (some c) (c :: acc) t
      else sentSplitGo fuel (some c) (c :: acc) t

def splitSentences (s : Str) : List Str := sentSplitGo (s.length + 1) none [] s

/-- The cooking-action alternation of `Recipe._clean_instructions`, in
source order. -/
def actionWords : List Str :=
  [str "heat", str "cook", str "add", str "mix", str "stir", str "combine",
   str "bake", str "fry", str "grill", str "roast", str "simmer", str "boil",
   str "sauté", str "season", str "serve", str "remove", str "place",
   str "put", str "set", str "preheat", str "prepare", str "cut", str "chop",
   str "slice", str "dice", str "mince"]

/-- `re.match(action_words, sentence, IGNORECASE)`: prefix match at the
start of the sentence. -/
def startsWithAction (s : Str) : Bool :=
  actionWords.any (fun w => w.isPrefixOf (toLowerStr s))

/-- The greedy sentence-merging loop of `Recipe._clean_instructions`
(mode (b)). -/
def mergeStepsGo : Str → List Str → List Str
  | current, [] => if current ≠ [] then [pyStrip current] else []
  | current, sen :: rest =>
    let s := pyStrip sen
    if s = [] then mergeStepsGo current rest
    else if startsWithAction s ∧ current ≠ [] then
      pyStrip current :: mergeStepsGo s rest
    else if current ≠ [] then mergeStepsGo (current ++ ' ' :: s) rest
    else mergeStepsGo s rest

def mergeSteps (sens : List Str) : List Str := mergeStepsGo [] sens

/-- The final clean-up loop of `Recipe._clean_instructions`: strip, drop
empties, remove a leading step number, ensure terminal punctuation (the
number-stripping can leave an empty step, which is still appended, exactly
as in the source). -/
def stepCleanup (steps : List Str) : List Str :=
  steps.foldr (fun step acc =>
    let s := pyStrip step
    if s = [] then acc
    else
      let s2 := stripNumDot s
      let s3 :=
        if s2 ≠ [] ∧ ¬(s2.getLast? = some '.' ∨ s2.getLast? = some '!' ∨ s2.getLast? = some '?')
        then s2 ++ ['.'] else s2
      s3 :: acc) []

/-- `Recipe._clean_instructions`: split on `<br>` tags when the raw markup
contains the literal `<br/>` (after lowering), otherwise sentence-split the
flattened text and merge on cooking verbs; then the clean-up loop. -/
def cleanInstructions (h : Str) : List Str :=
  if h = [] then []
  else
    let steps :=
      if isSubstr (str "<br/>") (toLowerStr h) then
        ((splitBrTags h).map (fun st => cleanText (getText st))).filter (fun s => !s.isEmpty)
      else
        mergeSteps (splitSentences (cleanText (getText h)))
    stepCleanup steps

/-- Matcher for an opening `<p ...>` tag at the start (model of how
BeautifulSoup recognizes a `p` element): `<p` followed by `>` or whitespace,
then up to the closing `>`; returns the tag length. -/
def pOpenLen (s : Str) : Option Nat :=
  match s with
  | '<' :: c :: rest =>
    if pyLowerChar c = 'p' then
      match rest with
      | d :: _ =>
        if d = '>' ∨ isPyWs d then
          some (2 + (rest.takeWhile (fun x => !(x == '>'))).length + 1)
        else none
      | [] => none
    else none
  | _ => none

/-- Collect characters up to a closing `</p>` (case-insensitive); returns the
inner text and the remainder after the closing tag. -/
def takeUntilPClose : Nat → Str → (Str × Str)
  | 0, s => (s, [])
  | fuel + 1, s =>
    match s with
    | [] => ([], [])
    | c :: t =>
      if toLowerStr (s.take 4) == str "</p>" then ([], s.drop 4)
      else
        let pr := takeUntilPClose fuel t
        (c :: pr.1, pr.2)

/-- Model of BeautifulSoup `find_all('p')` on flat markup: the `get_text()`
of each `<p ...>`…`</p>` element. -/
def extractPGo : Nat → Str → List Str
  | 0, _ => []
  | _ + 1, [] => []
  | fuel + 1, c :: t =>
    match pOpenLen (c :: t) with
    | some n =>
      let pr := takeUntilPClose fuel ((c :: t).drop (max n 1))
      getText pr.1 :: extractPGo fuel pr.2
    | none => extractPGo fuel t

def extractPTexts (s : Str) : List Str := extractPGo (s.length + 1) s

/-- Matcher for `\n\s*\n|\. {2,}` anchored at the start (the fallback
paragraph separators of `Recipe._clean_notes`). -/
def notesSepLen (s : Str) : Option Nat :=
  match s with
  | '\n' :: t =>
    let w := t.takeWhile isPyWs
    let k := (w.reverse.takeWhile (fun c => !(c == '\n'))).length
    if k < w.length then some (1 + (w.length - k)) else none
  | '.' :: t =>
    let sp := t.takeWhile (fun c => c == ' ')
    if 2 ≤ sp.length then some (1 + sp.length) else none
  | _ => none

/-- `Recipe._clean_notes`: paragraph elements when present, otherwise split
the flattened text on blank-line runs / double-space-after-period. -/
def cleanNotes (h : Str) : List Str :=
  if h = [] then []
  else
    let ps := extractPTexts h
    if ps ≠ [] then
      (ps.map cleanText).filter (fun n => !n.isEmpty)
    else
      let text := cleanText (getText h)
      if text ≠ [] then
        ((splitOnScan notesSepLen (text.length + 1) [] text).map cleanText).filter
          (fun n => !n.isEmpty)
      else []

/-- `text.split(':', 1)`: the part before the first colon and the part after
it. -/
def splitFirstColon (s : Str) : Str × Str :=
  let pre := s.takeWhile (fun c => !(c == ':'))
  (pre, s.drop (pre.length + 1))

/-- `Recipe._clean_nutrition`: split the raw markup on `<br>` tags, falling
back to `[,;]|\n` on the flattened text; keep items containing a colon,
reformatted as `Label: value`. -/
def cleanNutrition (h : Str) : List Str :=
  if h = [] then []
  else
    let text := cleanText (getText h)
    if text = [] then []
    else
      let items0 := splitBrTags h
      let items :=
        if items0.length = 1 then
          splitOnScan
            (fun s => match s with
              | c :: _ => if c = ',' ∨ c = ';' ∨ c = '\n' then some 1 else none
              | [] => none)
            (text.length + 1) [] text
        else items0
      items.foldr (fun item acc =>
        let itemText := if item.contains '<' then getText item else item
        let itemText := cleanText itemText
        if itemText ≠ [] ∧ itemText.contains ':' then
          let pr := splitFirstColon itemText
          (pyTitle (pyStrip pr.1) ++ str ": " ++ pyStrip pr.2) :: acc
        else acc) []

/-- The raw per-field query results that BeautifulSoup hands to
`Recipe._parse_html` (each `find` result's text, or the raw inner HTML for
the block fields). -/
structure RawFields where
  titleText : Option Str := none
  categoriesText : Option Str := none
  prepText : Option Str := none
  cookText : Option Str := none
  servingsText : Option Str := none
  source : Option (Str × Option Str) := none
  ingredientTexts : List Str := []
  instructionsHtml : Option Str := none
  notesHtml : Option Str := none
  nutritionHtml : Option Str := none
  imgSrc : Option Str := none
deriving DecidableEq

/-- `str.split(',')`. -/
def splitCommas (s : Str) : List Str :=
  splitOnScan
    (fun s => match s with
      | c :: _ => if c = ',' then some 1 else none
      | [] => none)
    (s.length + 1) [] s

/-- One extraction step of `Recipe._parse_html`, in source order (0 = title,
1 = categories, 2 = prep, 3 = cook, 4 = servings, 5 = source, 6 =
ingredients, 7 = instructions, 8 = notes, 9 = nutrition, 10 = image). -/
def parseStep (raw : RawFields) (i : Nat) (r : Recipe) : Recipe :=
  match i with
  | 0 =>
    match raw.titleText with
    | some t => { r with title := cleanTitle (pyStrip t) }
    | none => r
  | 1 =>
    match raw.categoriesText with
    | some ct =>
      { r with categories :=
          (((splitCommas (pyStrip ct)).filter (fun c => !(pyStrip c).isEmpty)).map
            (fun c => cleanCategory (pyStrip c))) }
    | none => r
  | 2 =>
    match raw.prepText with
    | some t => { r with prep_time := cleanTime (pyStrip t) }
    | none => r
  | 3 =>
    match raw.cookText with
    | some t => { r with cook_time := cleanTime (pyStrip t) }
    | none => r
  | 4 =>
    match raw.servingsText with
    | some t => { r with servings := cleanServings (pyStrip t) }
    | none => r
  | 5 =>
    match raw.source with
    | some (href, author) =>
      let r1 := { r with source_url := pyStrip href }
      match author with
      | some a => { r1 with source_name := cleanText (pyStrip a) }
      | none => r1
    | none => r
  | 6 =>
    { r with ingredients :=
        ((raw.ingredientTexts.map (fun e => cleanIngredient (pyStrip e))).filter
          (fun s => !s.isEmpty)) }
  | 7 =>
    match raw.instructionsHtml with
    | some ih => { r with instructions := cleanInstructions ih }
    | none => r
  | 8 =>
    match raw.notesHtml with
    | some nh => { r with notes := cleanNotes nh }
    | none => r
  | 9 =>
    match raw.nutritionHtml with
    | some nh => { r with nutrition := cleanNutrition nh }
    | none => r
  | 10 =>
    match raw.imgSrc with
    | some src => { r with image_path := src }
    | none => r
  | _ => r

/-- `Recipe._parse_html` run up to (excluding) step `k`: the `try`/`except`
inside `_parse_html` swallows an exception raised during step `k`, keeping
the fields set by the earlier steps (steps past 10 do not exist and are
identities). -/
def parseHtmlSteps (raw : RawFields) : Nat → Recipe
  | 0 => {}
  | k + 1 => parseStep raw k (parseHtmlSteps raw k)

/-- A complete, exception-free `Recipe.__init__`. -/
def parseRecipe (raw : RawFields) : Recipe := parseHtmlSteps raw 11

/-- One candidate file as seen by `_find_recipes`: construction either raises
outside `_parse_html` (`crashed`, caught by the outer `except`), or yields a
record whose parse may have been interrupted at step `failAt`. -/
inductive ParseFile where
  | crashed : ParseFile
  | file (raw : RawFields) (failAt : Option Nat) : ParseFile
deriving DecidableEq

def parsedRecipe : ParseFile → Option Recipe
  | ParseFile.crashed => none
  | ParseFile.file raw failAt => some (parseHtmlSteps raw (failAt.getD 11))

/-- `_find_recipes` loop: per-file `try`/`except`, keep records with a
non-empty title. -/
def findRecipes : List ParseFile → List Recipe
  | [] => []
  | f :: fs =>
    match parsedRecipe f with
    | some r => if r.title ≠ [] then r :: findRecipes fs else findRecipes fs
    | none => findRecipes fs

/-- `_make_safe_filename`. -/
def badFileChars : List Char := ['<', '>', ':', '"', '/', '\\', '|', '?', '*']

def safeFilename (title : Str) : Str :=
  let s1 := title.filter (fun c => !badFileChars.contains c)
  let s2 := pyReplaceChar '&' (str "and") s1
  let s3 := collapseRunsWith '_' (pyStrip s2)
  let s4 := if 100 < s3.length then s3.take 100 else s3
  if s4 = [] then str "untitled_recipe" else s4

/-- `_convert_recipes` loop: per-record `try`/`except` around the file write;
a failed write (`writeOk r = false`) only drops that record's output. -/
def convertRecipes (writeOk : Recipe → Bool) : List Recipe → List (Str × Str)
  | [] => []
  | r :: rs =>
    if writeOk r then
      (safeFilename r.title ++ str ".html", toCleanHtml r) :: convertRecipes writeOk rs
    else convertRecipes writeOk rs

/-- `recipe.title[0].upper() if recipe.title else '#'` as a one-character
string. -/
def firstLetterStr (r : Recipe) : Str :=
  match r.title with
  | [] => str "#"
  | c :: _ => [pyUpperChar c]

/-- Lexicographic `≤` on code points (Python string comparison). -/
def lexLe : Str → Str → Bool
  | [], _ => true
  | _ :: _, [] => false
  | a :: as, b :: bs => if a = b then lexLe as bs else decide (a < b)

def titleKeyLe (r1 r2 : Recipe) : Bool :=
  lexLe (toLowerStr r1.title) (toLowerStr r2.title)

def insertSorted (x : Recipe) : List Recipe → List Recipe
  | [] => [x]
  | y :: ys => if titleKeyLe x y then x :: y :: ys else y :: insertSorted x ys

/-- Stable insertion sort by lower-cased title.  A stable sort by a fixed key
is unique, so this agrees with Python's
`sorted(self.recipes, key=lambda r: r.title.lower())`. -/
def sortedRecipes : List Recipe → List Recipe
  | [] => []
  | r :: rs => insertSorted r (sortedRecipes rs)

/-- The decimal digit characters (Python's `str` renders base-10 digits). -/
def digitCh (n : Nat) : Char :=
  if n = 0 then '0' else if n = 1 then '1' else if n = 2 then '2' else if n = 3 then '3'
  else if n = 4 then '4' else if n = 5 then '5' else if n = 6 then '6' else if n = 7 then '7'
  else if n = 8 then '8' else '9'

/-- Decimal rendering of a natural number (Python `str(n)` in an f-string;
fuel-driven, with fuel `n + 1` which always suffices). -/
def natToCharsF : Nat → Nat → Str
  | 0, _ => []
  | fuel + 1, n =>
    if n < 10 then [digitCh n]
    else natToCharsF fuel (n / 10) ++ [digitCh (n % 10)]

def natToChars (n : Nat) : Str := natToCharsF (n + 1) n

/-- The `meta_parts` list for one table-of-contents entry (categories,
prep, cook — unescaped, as in the source). -/
def tocMetaParts (r : Recipe) : List Str :=
  (if r.categories ≠ [] then [str "Categories: " ++ pyJoin (str ", ") r.categories] else []) ++
  (if r.prep_time ≠ [] then [str "Prep: " ++ r.prep_time] else []) ++
  (if r.cook_time ≠ [] then [str "Cook: " ++ r.cook_time] else [])

/-- One `recipe-item` entry of the table of contents. -/
def tocEntryParts (r : Recipe) : List Str :=
  [str "<div class=\"recipe-item\">",
   str "<div class=\"recipe-title\">" ++ escapeHtml r.title ++ str "</div>"] ++
  (if tocMetaParts r ≠ [] then
     [str "<div class=\"recipe-meta\">" ++ pyJoin (str " • ") (tocMetaParts r) ++ str "</div>"]
   else []) ++
  [str "</div>"]

/-- The letter-grouping loop of `_create_table_of_contents`, carrying
`current_letter`. -/
def tocLoop : Str → List Recipe → List Str
  | _, [] => []
  | cur, r :: rs =>
    let fl := firstLetterStr r
    (if fl ≠ cur then
      (if cur ≠ [] then [str "</div>"] else []) ++ [str "<h2>" ++ fl ++ str "</h2>"]
     else []) ++
    tocEntryParts r ++ tocLoop (if fl ≠ cur then fl else cur) rs

/-- The fixed head of the table-of-contents document (lines appended before
the statistics block). -/
def tocHeadParts : List Str :=
  [str "<!DOCTYPE html>",
   str "<html><head><meta charset=\"UTF-8\">",
   str "<title>Recipe Collection - Table of Contents</title>",
   str "<style>",
   str "body \x7b font-family: -apple-system, BlinkMacSystemFont, sans-serif; margin: 20px; \x7d",
   str "h1 \x7b color: #1d1d1f; border-bottom: 2px solid #007aff; padding-bottom: 10px; \x7d",
   str "h2 \x7b color: #007aff; margin-top: 25px; \x7d",
   str ".recipe-list \x7b columns: 2; column-gap: 30px; \x7d",
   str ".recipe-item \x7b break-inside: avoid; margin-bottom: 15px; padding: 10px; background-color: #f5f5f7; border-radius: 8px; \x7d",
   str ".recipe-title \x7b font-weight: bold; font-size: 16px; margin-bottom: 5px; \x7d",
   str ".recipe-meta \x7b font-size: 14px; color: #666; \x7d",
   str ".stats \x7b background-color: #e8f4fd; padding: 15px; border-radius: 8px; margin: 20px 0; \x7d",
   str "</style>",
   str "</head><body>",
   str "<h1>Recipe Collection</h1>"]

/-- The `html_parts` list built by `_create_table_of_contents`: head,
statistics (total count and distinct-category count), then the letter-grouped
entries. -/
def tocParts (rs : List Recipe) : List Str :=
  let sorted := sortedRecipes rs
  let catCount := ((sorted.flatMap (fun r => r.categories)).dedup).length
  tocHeadParts ++
  [str "<div class=\"stats\">",
   str "<p><strong>Total Recipes:</strong> " ++ natToChars sorted.length ++ str "</p>",
   str "<p><strong>Categories:</strong> " ++ natToChars catCount ++ str "</p>",
   str "</div>",
   str "<div class=\"recipe-list\">"] ++
  tocLoop [] sorted ++
  [str "</div>", str "</body></html>"]

/-- `_create_table_of_contents`: the summary document text. -/
def tocHtml (rs : List Recipe) : Str := pyJoin (str "\n") (tocParts rs)

/-- The environment of one CLI invocation: whether the source directory
exists, whether the output-directory creation succeeds, the per-file parse
outcomes, which per-record writes succeed, and whether the summary-file
write succeeds. -/
structure RunInput where
  sourceExists : Bool
  mkdirOk : Bool
  files : List ParseFile
  writeOk : Recipe → Bool
  tocWriteOk : Bool

/-- `main` + `PaprikaToAppleNotesConverter.convert`: exit code, the written
per-record documents, and the summary document.  A missing source directory
returns 1 before anything runs.  `convert` then calls `mkdir`, the per-file
parse loop, the per-record write loop, and the summary write, in that order;
the per-item loops catch their exceptions, but `mkdir` and the summary write
(lines 633-635) have no `try`/`except`, so their failure propagates out of
`main` and the interpreter exits with status 1 — after the per-record files
were already written, in the summary-write case. -/
def mainRun (inp : RunInput) : Nat × List (Str × Str) × Option Str :=
  if inp.sourceExists then
    if inp.mkdirOk then
      let rs := findRecipes inp.files
      let written := convertRecipes inp.writeOk rs
      if inp.tocWriteOk then (0, written, some (tocHtml rs))
      else (1, written, none)
    else (1, [], none)
  else (1, [], none)

/-- A record with escapable characters in its fields, for the C1 witness. -/
def c1rec : Recipe :=
  { title := str "Tom & Jerry", prep_time := str "5 minutes" }

/-- Whether the markup contains any `<br\s*/?>` line-break marker (the token
class the instruction splitter splits on). -/
def hasBrTag : Str → Bool
  | [] => false
  | c :: t => (brMatchLen (c :: t)).isSome || hasBrTag t

/-- The raw fields of a file whose parse raises after the title step, for the
C7 counterexample. -/
def c7raw : RawFields :=
  { titleText := some (str "Cake"), categoriesText := some (str "Dinner") }

/-- Python `str.split()` with no argument: whitespace-delimited words. -/
def wsWords : Str → List Str
  | [] => []
  | c :: t =>
    if isPyWs c then wsWords t
    else (c :: t.takeWhile (fun x => !isPyWs x)) :: wsWords (t.dropWhile (fun x => !isPyWs x))
termination_by s => s.length
decreasing_by
  · simp only [List.length_cons]; omega
  · have := (List.dropWhile_sublist (l := t) (fun x => !isPyWs x)).length_le
    simp only [List.length_cons]; omega

/-- The filename derivation exactly as claim C6 words it: the whitespace
collapse is applied without first trimming, so leading/trailing whitespace
becomes leading/trailing underscores. -/
def safeFilenameClaim (title : Str) : Str :=
  let s1 := title.filter (fun c => !badFileChars.contains c)
  let s2 := pyReplaceChar '&' (str "and") s1
  let s3 := collapseRunsWith '_' s2
  let s4 := if 100 < s3.length then s3.take 100 else s3
  if s4 = [] then str "untitled_recipe" else s4

/-- The filename derivation as amended: remove the reserved characters,
replace `&` by "and", split into whitespace-delimited words joined by single
underscores (leading/trailing whitespace is discarded, interior runs become
one underscore each), truncate to 100 characters, fall back to
`untitled_recipe` when empty. -/
def safeFilenameAmended (title : Str) : Str :=
  let s1 := title.filter (fun c => !badFileChars.contains c)
  let s2 := pyReplaceChar '&' (str "and") s1
  let s3 := pyJoin (str "_") (wsWords s2)
  let s4 := if 100 < s3.length then s3.take 100 else s3
  if s4 = [] then str "untitled_recipe" else s4

/-- No two adjacent whitespace characters (i.e., the string's whitespace has
been collapsed). -/
def noWsRun : Str → Bool
  | [] => true
  | [_] => true
  | a :: b :: t => !(isPyWs a && isPyWs b) && noWsRun (b :: t)

/-- Replacement-string safety for the `re.sub` engines: non-empty, itself
free of whitespace runs, and with non-whitespace first and last characters —
substituting such a replacement can never create a whitespace run. -/
def RepOK (rep : Str) : Prop :=
  rep ≠ [] ∧ noWsRun rep = true ∧
  (∀ x, rep.head? = some x → isPyWs x = false) ∧
  (∀ x, rep.getLast? = some x → isPyWs x = false)

/-- The character transformation performed by one step of `pyTitleGo`. -/
def titleChar (b : Bool) (c : Char) : Char :=
  if isAsciiAlpha c then (if b then pyLowerChar c else pyUpperChar c) else c

/-- A raw source anchor whose href contains an uncollapsed double space, for
the C3 counterexample. -/
def c3raw : RawFields :=
  { titleText := some (str "Cake"),
    source := some (str "http://x.com/a  b", some (str "Alice")) }

def c8run : RunInput :=
  { sourceExists := true,
    mkdirOk := true,
    files := [ParseFile.file { titleText := some (str "Cake") } none],
    writeOk := fun _ => true,
    tocWriteOk := true }

/-- A run whose summary-file write fails, for the C7 counterexample. -/
def c7run : RunInput :=
  { sourceExists := true,
    mkdirOk := true,
    files := [ParseFile.file { titleText := some (str "Cake") } none],
    writeOk := fun _ => true,
    tocWriteOk := false }

/-- A record with HTML-sensitive characters in its title and prep time, for
claim C10. -/
def c10rec : Recipe :=
  { title := str "A<B", prep_time := str "1<2", categories := [str "Lunch"] }

/-- Number of positions at which `p` occurs in `s`. -/
def countSubstr (p : Str) : Str → Nat
  | [] => 0
  | c :: t => (if p.isPrefixOf (c :: t) then 1 else 0) + countSubstr p t

/-- No non-trivial proper prefix of the pattern is a suffix of `A` (so no
occurrence of the pattern can straddle the boundary of `A ++ ·`). -/
def tailFreeOK (p A : Str) : Bool :=
  (List.range p.length).all (fun k => (k == 0) || !((p.take k).isSuffixOf A))

/-- The fields of a record that the table of contents interpolates without
escaping contain no raw `<`. -/
def recipeLtFree (r : Recipe) : Bool :=
  noLt r.title && r.categories.all noLt && noLt r.prep_time && noLt r.cook_time

def recipesLtFree (rs : List Recipe) : Bool := rs.all recipeLtFree

/-- Number of letter-group transitions the TOC loop performs from the given
`current_letter` (each transition with a nonempty current letter emits one
unmatched closing tag). -/
def tocTransitions : Str → List Recipe → Nat
  | _, [] => 0
  | cur, r :: rs =>
    if firstLetterStr r ≠ cur then
      (if cur ≠ [] then 1 else 0) + tocTransitions (firstLetterStr r) rs
    else tocTransitions cur rs

/-- Number of distinct letter groups the TOC loop opens, starting from the
given `current_letter`. -/
def groupsGo : Str → List Recipe → Nat
  | _, [] => 0
  | cur, r :: rs =>
    if firstLetterStr r ≠ cur then 1 + groupsGo (firstLetterStr r) rs
    else groupsGo cur rs

/-- Number of letter groups of the sorted record list (as in the TOC loop). -/
def numLetterGroups (rs : List Recipe) : Nat := groupsGo [] (sortedRecipes rs)

/-- Two records spanning two letter groups, one of whose (unescaped) category
strings contains a literal `</div>`. -/
def c9bad : List Recipe :=
  [{ title := str "Apple", categories := [str "x </div> y"] },
   { title := str "Banana" }]

/-- Two plain records spanning the letter groups A and B. -/
def c9ok : List Recipe :=
  [{ title := str "Apple" }, { title := str "Banana" }]

theorem pyReplaceChar_append (c : Char) (rep a b : Str) :
    pyReplaceChar c rep (a ++ b) = pyReplaceChar c rep a ++ pyReplaceChar c rep b := by
  induction a with
  | nil => rfl
  | cons x t ih => simp [pyReplaceChar, ih]

theorem escapeHtml_append (a b : Str) :
    escapeHtml (a ++ b) = escapeHtml a ++ escapeHtml b := by
  simp [escapeHtml, pyReplaceChar_append]

theorem escapeHtml_cons (c : Char) (s : Str) :
    escapeHtml (c :: s) = escChar c ++ escapeHtml s := by
  have h : (c :: s) = [c] ++ s := rfl
  rw [h, escapeHtml_append]
  congr 1
  by_cases h1 : c = '&'
  · subst h1; rfl
  · by_cases h2 : c = '<'
    · subst h2; rfl
    · by_cases h3 : c = '>'
      · subst h3; rfl
      · by_cases h4 : c = '"'
        · subst h4; rfl
        · by_cases h5 : c = '\''
          · subst h5; rfl
          · simp [escapeHtml, escChar, pyReplaceChar, h1, h2, h3, h4, h5]

theorem escapeHtml_eq_flatMap (s : Str) : escapeHtml s = s.flatMap escChar := by
  induction s with
  | nil => rfl
  | cons c t ih => rw [escapeHtml_cons, ih]; rfl

theorem escOK_escapeHtml (s : Str) : escOK (escapeHtml s) = true := by
  rw [escapeHtml_eq_flatMap]
  induction s with
  | nil => rfl
  | cons c t ih =>
    rw [List.flatMap_cons]
    by_cases h1 : c = '&'
    · subst h1
      simp only [escChar, if_pos rfl]
      simp [escOK, entityOK, isEscSpecial, str, List.isPrefixOf, ih]
    · by_cases h2 : c = '<'
      · subst h2
        simp only [escChar]
        simp [escOK, entityOK, isEscSpecial, str, List.isPrefixOf, ih]
      · by_cases h3 : c = '>'
        · subst h3
          simp only [escChar]
          simp [escOK, entityOK, isEscSpecial, str, List.isPrefixOf, ih]
        · by_cases h4 : c = '"'
          · subst h4
            simp only [escChar]
            simp [escOK, entityOK, isEscSpecial, str, List.isPrefixOf, ih]
          · by_cases h5 : c = '\''
            · subst h5
              simp only [escChar]
              simp [escOK, entityOK, isEscSpecial, str, List.isPrefixOf, ih]
            · simp only [escChar, if_neg h1, if_neg h2, if_neg h3, if_neg h4, if_neg h5]
              simp only [List.singleton_append, escOK]
              have hs : isEscSpecial c = false := by
                simp [isEscSpecial, h2, h3, h4, h5]
              rw [hs]
              simp [h1, ih]

theorem noLt_escapeHtml (s : Str) : noLt (escapeHtml s) = true := by
  rw [escapeHtml_eq_flatMap]
  induction s with
  | nil => rfl
  | cons c t ih =>
    rw [List.flatMap_cons]
    simp only [noLt, List.all_append] at *
    rw [ih]
    simp only [Bool.and_true]
    by_cases h1 : c = '&'
    · subst h1; rfl
    · by_cases h2 : c = '<'
      · subst h2; rfl
      · by_cases h3 : c = '>'
        · subst h3; rfl
        · by_cases h4 : c = '"'
          · subst h4; rfl
          · by_cases h5 : c = '\''
            · subst h5; rfl
            · simp only [escChar, if_neg h1, if_neg h2, if_neg h3, if_neg h4, if_neg h5]
              simp [h2]

theorem within_self (t : Str) : within t t := ⟨[], [], by simp⟩

theorem within_cat_left (a : Str) {t s : Str} (h : within t s) : within t (a ++ s) := by
  obtain ⟨u, v, rfl⟩ := h
  exact ⟨a ++ u, v, by simp⟩

theorem within_cat_right (b : Str) {t s : Str} (h : within t s) : within t (s ++ b) := by
  obtain ⟨u, v, rfl⟩ := h
  exact ⟨u, v ++ b, by simp⟩

theorem within_trans {a b c : Str} (h1 : within a b) (h2 : within b c) : within a c := by
  obtain ⟨u1, v1, rfl⟩ := h1
  obtain ⟨u2, v2, rfl⟩ := h2
  exact ⟨u2 ++ u1, v1 ++ v2, by simp⟩

theorem within_mid (u v t : Str) : within t (u ++ t ++ v) := ⟨u, v, rfl⟩

theorem within_pyJoin (sep : Str) {x : Str} {xs : List Str} (h : x ∈ xs) :
    within x (pyJoin sep xs) := by
  induction xs with
  | nil => cases h
  | cons y t ih =>
    rcases List.mem_cons.mp h with h | h
    · subst h
      cases t with
      | nil => exact within_self x
      | cons z zs =>
        show within x (x ++ sep ++ pyJoin sep (z :: zs))
        exact within_cat_right _ (within_cat_right _ (within_self x))
    · cases t with
      | nil => cases h
      | cons z zs =>
        show within x (y ++ sep ++ pyJoin sep (z :: zs))
        rw [List.append_assoc]
        exact within_cat_left _ (within_cat_left _ (ih h))

theorem within_toCleanHtml_of_mem_part {p : Str} {r : Recipe} (h : p ∈ htmlParts r) :
    within p (toCleanHtml r) :=
  within_pyJoin _ h

theorem mem_of_ite_nil {P : Prop} [Decidable P] {l : List Str} {x : Str}
    (h : x ∈ (if P then l else [])) : P ∧ x ∈ l := by
  by_cases hP : P
  · rw [if_pos hP] at h; exact ⟨hP, h⟩
  · rw [if_neg hP] at h; cases h

/-- Claim C1: every domain text value interpolated into the per-record
rendered document (title, prep/cook time, servings, categories, ingredients,
instruction steps, notes, source name/URL, nutrition items) is escaped for the
five characters `&` `<` `>` `"` `'` immediately before insertion, so each such
inserted fragment of `to_clean_html`'s output is properly escaped (`escOK`)
and occurs verbatim in the output. -/
theorem c1_per_record_escaping (r : Recipe) (t : Str)
    (h : t ∈ escapedInsertions r) :
    escOK t = true ∧ within t (toCleanHtml r) := by
  simp only [escapedInsertions] at h
  rcases List.mem_append.mp h with h | h
  rotate_left
  · -- nutrition items
    obtain ⟨n, hn, rfl⟩ := List.mem_map.mp h
    have hne : r.nutrition ≠ [] := List.ne_nil_of_mem hn
    refine ⟨escOK_escapeHtml n, within_trans (within_mid (str "<p>") (str "</p>") _) ?_⟩
    apply within_toCleanHtml_of_mem_part
    have hx : (str "<p>" ++ escapeHtml n ++ str "</p>") ∈
        r.nutrition.map (fun n => str "<p>" ++ escapeHtml n ++ str "</p>") :=
      List.mem_map.mpr ⟨n, hn, rfl⟩
    simp only [htmlParts, nutritionParts, if_pos hne, List.mem_append]
    tauto
  rcases List.mem_append.mp h with h | h
  rotate_left
  · -- source block
    by_cases hurl : r.source_url ≠ []
    · rw [if_pos hurl] at h
      have hpartmem :
          (str "<p><a href=\"" ++ escapeHtml r.source_url ++ str "\" target=\"_blank\">" ++
            escapeHtml (if r.source_name ≠ [] then r.source_name else r.source_url) ++
            str "</a></p>") ∈ htmlParts r := by
        simp only [htmlParts, sourceParts, if_pos (Or.inr hurl), if_pos hurl,
          List.mem_append, List.mem_cons]
        simp
      rcases List.mem_cons.mp h with rfl | h
      · refine ⟨escOK_escapeHtml _, within_trans ?_ (within_toCleanHtml_of_mem_part hpartmem)⟩
        exact within_cat_right _ (within_cat_right _ (within_cat_right _
          (within_cat_left _ (within_self _))))
      · rcases List.mem_cons.mp h with rfl | h
        · refine ⟨escOK_escapeHtml _, within_trans ?_ (within_toCleanHtml_of_mem_part hpartmem)⟩
          exact within_cat_right _ (within_cat_left _ (within_self _))
        · cases h
    · rw [if_neg hurl] at h
      obtain ⟨hname, h⟩ := mem_of_ite_nil h
      rcases List.mem_cons.mp h with rfl | h
      · refine ⟨escOK_escapeHtml _, within_trans (within_mid (str "<p>") (str "</p>") _) ?_⟩
        apply within_toCleanHtml_of_mem_part
        simp only [htmlParts, sourceParts, if_pos (Or.inl hname), if_neg hurl,
          List.mem_append, List.mem_cons]
        simp
      · cases h
  rcases List.mem_append.mp h with h | h
  rotate_left
  · -- notes
    obtain ⟨n, hn, rfl⟩ := List.mem_map.mp h
    have hne : r.notes ≠ [] := List.ne_nil_of_mem hn
    refine ⟨escOK_escapeHtml n, within_trans (within_mid (str "<p>") (str "</p>") _) ?_⟩
    apply within_toCleanHtml_of_mem_part
    have hx : (str "<p>" ++ escapeHtml n ++ str "</p>") ∈
        r.notes.map (fun n => str "<p>" ++ escapeHtml n ++ str "</p>") :=
      List.mem_map.mpr ⟨n, hn, rfl⟩
    simp only [htmlParts, notesParts, if_pos hne, List.mem_append]
    tauto
  rcases List.mem_append.mp h with h | h
  rotate_left
  · -- instruction steps
    obtain ⟨st, hs, rfl⟩ := List.mem_map.mp h
    have hne : r.instructions ≠ [] := List.ne_nil_of_mem hs
    refine ⟨escOK_escapeHtml st, within_trans (within_mid (str "<li>") (str "</li>") _) ?_⟩
    apply within_toCleanHtml_of_mem_part
    have hx : (str "<li>" ++ escapeHtml st ++ str "</li>") ∈
        r.instructions.map (fun s => str "<li>" ++ escapeHtml s ++ str "</li>") :=
      List.mem_map.mpr ⟨st, hs, rfl⟩
    simp only [htmlParts, instructionsParts, if_pos hne, List.mem_append]
    tauto
  rcases List.mem_append.mp h with h | h
  rotate_left
  · -- ingredients
    obtain ⟨i, hi, rfl⟩ := List.mem_map.mp h
    have hne : r.ingredients ≠ [] := List.ne_nil_of_mem hi
    refine ⟨escOK_escapeHtml i, within_trans (within_mid (str "<li>") (str "</li>") _) ?_⟩
    apply within_toCleanHtml_of_mem_part
    have hx : (str "<li>" ++ escapeHtml i ++ str "</li>") ∈
        r.ingredients.map (fun i => str "<li>" ++ escapeHtml i ++ str "</li>") :=
      List.mem_map.mpr ⟨i, hi, rfl⟩
    simp only [htmlParts, ingredientsParts, if_pos hne, List.mem_append]
    tauto
  rcases List.mem_append.mp h with h | h
  rotate_left
  · -- categories
    obtain ⟨c, hc, rfl⟩ := List.mem_map.mp h
    have hne : r.categories ≠ [] := List.ne_nil_of_mem hc
    have hwpart : within (escapeHtml c)
        (str "<p><strong>Categories:</strong> " ++
          pyJoin (str ", ") (r.categories.map escapeHtml) ++ str "</p>") :=
      within_cat_right (str "</p>")
        (within_cat_left (str "<p><strong>Categories:</strong> ")
          (within_pyJoin (str ", ") (List.mem_map.mpr ⟨c, hc, rfl⟩)))
    refine ⟨escOK_escapeHtml c, within_trans hwpart ?_⟩
    apply within_toCleanHtml_of_mem_part
    simp only [htmlParts, metadataParts,
      if_pos (Or.inr (Or.inr (Or.inr hne))), if_pos hne, List.mem_append, List.mem_cons]
    simp
  rcases List.mem_append.mp h with h | h
  rotate_left
  · -- servings
    obtain ⟨hne, h⟩ := mem_of_ite_nil h
    rcases List.mem_cons.mp h with rfl | h
    · refine ⟨escOK_escapeHtml _,
        within_trans (within_mid (str "<p><strong>Servings:</strong> ") (str "</p>") _) ?_⟩
      apply within_toCleanHtml_of_mem_part
      simp only [htmlParts, metadataParts,
        if_pos (Or.inr (Or.inr (Or.inl hne))), if_pos hne, List.mem_append, List.mem_cons]
      simp
    · cases h
  rcases List.mem_append.mp h with h | h
  rotate_left
  · -- cook time
    obtain ⟨hne, h⟩ := mem_of_ite_nil h
    rcases List.mem_cons.mp h with rfl | h
    · refine ⟨escOK_escapeHtml _,
        within_trans (within_mid (str "<p><strong>Cook Time:</strong> ") (str "</p>") _) ?_⟩
      apply within_toCleanHtml_of_mem_part
      simp only [htmlParts, metadataParts,
        if_pos (Or.inr (Or.inl hne)), if_pos hne, List.mem_append, List.mem_cons]
      simp
    · cases h
  rcases List.mem_append.mp h with h | h
  rotate_left
  · -- prep time
    obtain ⟨hne, h⟩ := mem_of_ite_nil h
    rcases List.mem_cons.mp h with rfl | h
    · refine ⟨escOK_escapeHtml _,
        within_trans (within_mid (str "<p><strong>Prep Time:</strong> ") (str "</p>") _) ?_⟩
      apply within_toCleanHtml_of_mem_part
      simp only [htmlParts, metadataParts,
        if_pos (Or.inl hne), if_pos hne, List.mem_append, List.mem_cons]
      simp
    · cases h
  · -- the two title insertions
    rcases List.mem_cons.mp h with rfl | h
    · refine ⟨escOK_escapeHtml _,
        within_trans (within_mid (str "<title>") (str "</title>") _) ?_⟩
      apply within_toCleanHtml_of_mem_part
      simp [htmlParts, headParts]
    · rcases List.mem_cons.mp h with rfl | h
      · refine ⟨escOK_escapeHtml _,
          within_trans (within_mid (str "<h1>") (str "</h1>") _) ?_⟩
        apply within_toCleanHtml_of_mem_part
        simp [htmlParts, headParts]
      · cases h

theorem c1_per_record_escaping_witness :
    escOK (escapeHtml (str "Tom & Jerry")) = true ∧
    within (escapeHtml (str "Tom & Jerry")) (toCleanHtml c1rec) :=
  c1_per_record_escaping c1rec (escapeHtml (str "Tom & Jerry")) (by decide)

/-- Claim C2 counterexample.  First, title cleaning can produce an empty
result: the numeral-dot stripping runs *after* the placeholder check, so
"12." cleans to the empty string, not to the placeholder.  Second, a stored
title need not be free of a leading numeral-dot prefix: the numeral strip
(line 136) runs *before* the "Recipe:" strip (line 139), each exactly once,
so the record parsed from the title "Recipe: 12. Cake" stores the title
"12. Cake", which still begins with the numeral-dot prefix "12." . -/
theorem c2_counterexample :
    cleanTitle (str "12.") = [] ∧
    (findRecipes
        [ParseFile.file { titleText := some (str "Recipe: 12. Cake") } none]).map
      Recipe.title = [str "12. Cake"] ∧
    (str "12.").isPrefixOf (str "12. Cake") = true ∧
    stripNumDot (str "12. Cake") ≠ str "12. Cake" := by
  refine ⟨by decide, by decide, by decide, by decide⟩

/-- Claim C2 (amended): the placeholder "Untitled Recipe" is substituted
when the cleaned text is empty; otherwise the title is derived by stripping
one leading numeral-dot prefix and then one leading case-insensitive
"Recipe:" prefix, in that order and each at most once (possibly re-cased by
the uppercase heuristic afterwards) — so the result may be empty or may
still begin with such a prefix (see the counterexample).  `_find_recipes`
drops records whose title is empty, so every *stored* record's title is
non-empty. -/
theorem c2_amended_title_nonempty :
    (∀ t : Str, cleanText t = [] → cleanTitle t = str "Untitled Recipe") ∧
    (∀ fs : List ParseFile, ∀ r ∈ findRecipes fs, r.title ≠ []) ∧
    (∀ t : Str, cleanText t ≠ [] →
      ∃ u, cleanTitle t = pyStrip (collapseRunsWith ' ' u) ∧
        (u = stripRecipePrefix (stripNumDot (cleanText t)) ∨
         u = titleCaseSplit (stripRecipePrefix (stripNumDot (cleanText t))))) := by
  refine ⟨?_, ?_, ?_⟩
  · intro t ht
    simp [cleanTitle, ht]
  · intro fs r hr
    induction fs with
    | nil => cases hr
    | cons f fs ih =>
      cases hpf : parsedRecipe f with
      | none => simp only [findRecipes, hpf] at hr; exact ih hr
      | some r0 =>
        simp only [findRecipes, hpf] at hr
        by_cases ht : r0.title = []
        · rw [if_neg (not_not_intro ht)] at hr
          exact ih hr
        · rw [if_pos ht] at hr
          rcases List.mem_cons.mp hr with rfl | hr
          · exact ht
          · exact ih hr
  · intro t ht
    unfold cleanTitle
    simp only []
    rw [if_neg ht]
    by_cases hh : 7 * (stripRecipePrefix (stripNumDot (cleanText t))).length <
        10 * ((stripRecipePrefix (stripNumDot (cleanText t))).filter isAsciiUpper).length ∧
        3 < (stripRecipePrefix (stripNumDot (cleanText t))).length
    · exact ⟨titleCaseSplit (stripRecipePrefix (stripNumDot (cleanText t))),
        by rw [if_pos hh], Or.inr rfl⟩
    · exact ⟨stripRecipePrefix (stripNumDot (cleanText t)),
        by rw [if_neg hh], Or.inl rfl⟩

theorem c2_amended_title_nonempty_witness :
    cleanTitle [] = str "Untitled Recipe" ∧
    (parseRecipe { titleText := some (str "Cake") }).title ≠ [] ∧
    (∃ u, cleanTitle (str "Recipe: 12. Cake") = pyStrip (collapseRunsWith ' ' u) ∧
      (u = stripRecipePrefix (stripNumDot (cleanText (str "Recipe: 12. Cake"))) ∨
       u = titleCaseSplit (stripRecipePrefix (stripNumDot
         (cleanText (str "Recipe: 12. Cake")))))) :=
  ⟨c2_amended_title_nonempty.1 [] (by decide),
   c2_amended_title_nonempty.2.1
     [ParseFile.file { titleText := some (str "Cake") } none]
     (parseRecipe { titleText := some (str "Cake") }) (by decide),
   c2_amended_title_nonempty.2.2 (str "Recipe: 12. Cake") (by decide)⟩

/-- Claim C4 counterexample: a token containing "crockpot" maps to the label
"Crockpot", not to the single canonical label "Slow Cooker". -/
theorem c4_counterexample :
    cleanCategory (str "crockpot") = str "Crockpot" ∧
    cleanCategory (str "crockpot") ≠ str "Slow Cooker" := by decide

/-- Claim C4 (amended): category cleaning maps through the fixed table in
declared order with first match winning; a token containing "crockpot" (and
not an earlier key) maps to "Crockpot", one containing "slow cooker" (and no
earlier key) maps to "Slow Cooker", and tokens matching no key fall back to
generic title-casing. -/
theorem c4_amended_category_mapping (c : Str) :
    (isSubstr (str "air fryer") (toLowerStr (cleanText c)) = false →
      isSubstr (str "crockpot") (toLowerStr (cleanText c)) = true →
      cleanCategory c = str "Crockpot") ∧
    (isSubstr (str "air fryer") (toLowerStr (cleanText c)) = false →
      isSubstr (str "crockpot") (toLowerStr (cleanText c)) = false →
      isSubstr (str "slow cooker") (toLowerStr (cleanText c)) = true →
      cleanCategory c = str "Slow Cooker") ∧
    ((∀ kv ∈ categoryMapping, isSubstr kv.1 (toLowerStr (cleanText c)) = false) →
      cleanCategory c = pyTitle (cleanText c)) := by
  refine ⟨?_, ?_, ?_⟩
  · intro h1 h2
    simp only [cleanCategory, categoryMapping]
    rw [List.find?_cons_of_neg _ (by simp [h1]), List.find?_cons_of_pos _ (by simp [h2])]
  · intro h1 h2 h3
    simp only [cleanCategory, categoryMapping]
    rw [List.find?_cons_of_neg _ (by simp [h1]), List.find?_cons_of_neg _ (by simp [h2]),
      List.find?_cons_of_pos _ (by simp [h3])]
  · intro hall
    have hnone : categoryMapping.find?
        (fun kv => isSubstr kv.1 (toLowerStr (cleanText c))) = none :=
      List.find?_eq_none.mpr (fun kv hkv => by simp [hall kv hkv])
    simp [cleanCategory, hnone]

theorem c4_amended_category_mapping_witness :
    cleanCategory (str "crockpot") = str "Crockpot" ∧
    cleanCategory (str "my slow cooker stew") = str "Slow Cooker" ∧
    cleanCategory (str "weird thing") = pyTitle (cleanText (str "weird thing")) :=
  ⟨(c4_amended_category_mapping (str "crockpot")).1 (by decide) (by decide),
   (c4_amended_category_mapping (str "my slow cooker stew")).2.1
     (by decide) (by decide) (by decide),
   (c4_amended_category_mapping (str "weird thing")).2.2 (by decide)⟩

/-- Claim C5 counterexample: the markup "Mix flour<br>Bake well" contains an
explicit line-break marker (`<br>`), yet instruction extraction does not
split on it — the branch is only taken when the literal substring `<br/>`
occurs — and instead produces the single sentence-mode step. -/
theorem c5_counterexample :
    hasBrTag (str "Mix flour<br>Bake well") = true ∧
    cleanInstructions (str "Mix flour<br>Bake well") = [str "Mix flourBake well."] ∧
    (((splitBrTags (str "Mix flour<br>Bake well")).map
        (fun st => cleanText (getText st))).filter (fun s => !s.isEmpty) =
      [str "Mix flour", str "Bake well"]) ∧
    cleanInstructions (str "Mix flour<br>Bake well") ≠
      (((splitBrTags (str "Mix flour<br>Bake well")).map
        (fun st => cleanText (getText st))).filter (fun s => !s.isEmpty)) := by
  refine ⟨by decide, by decide, by decide, by decide⟩

/-- Claim C5 (amended): when the raw markup contains the literal substring
`<br/>` (case-insensitively) — not merely any line-break marker — instruction
extraction splits on `<br\s*/?>` markers, cleans each fragment, keeps the
non-empty ones, and then applies the step clean-up (number stripping and
terminal punctuation). -/
theorem c5_amended_br_split (h : Str)
    (hbr : isSubstr (str "<br/>") (toLowerStr h) = true) :
    cleanInstructions h =
      stepCleanup (((splitBrTags h).map (fun st => cleanText (getText st))).filter
        (fun s => !s.isEmpty)) := by
  have hne : h ≠ [] := by
    intro he
    subst he
    exact absurd hbr (by decide)
  simp [cleanInstructions, hne, hbr]

theorem c5_amended_br_split_witness :
    cleanInstructions (str "Mix flour<br/>Bake well") =
      stepCleanup (((splitBrTags (str "Mix flour<br/>Bake well")).map
        (fun st => cleanText (getText st))).filter (fun s => !s.isEmpty)) :=
  c5_amended_br_split (str "Mix flour<br/>Bake well") (by decide)

/-- Claim C7 counterexample.  First, a file whose parsing raises an
exception after the title has been extracted (`failAt = some 1`) is *not*
dropped — the exception is swallowed inside `_parse_html` and the partially
parsed record (title set, categories lost) is kept by `_find_recipes`.
Second, a missing source directory is not the only abort: a run whose
summary-file write fails (the write at lines 633-635 has no `try`/`except`)
exits 1, not 0, even though its source directory exists. -/
theorem c7_counterexample :
    (findRecipes [ParseFile.file c7raw (some 1)]).map Recipe.title = [str "Cake"] ∧
    (findRecipes [ParseFile.file c7raw (some 1)]).map Recipe.categories = [[]] ∧
    (findRecipes [ParseFile.file c7raw none]).map Recipe.categories = [[str "Dinner"]] ∧
    c7run.sourceExists = true ∧ (mainRun c7run).1 = 1 := by
  refine ⟨by decide, by decide, by decide, rfl, by decide⟩

theorem dropWhile_head_not {p : Char → Bool} :
    ∀ (l : Str) (e : Char) (t2 : Str), l.dropWhile p = e :: t2 → p e = false := by
  intro l
  induction l with
  | nil => intro e t2 h; cases h
  | cons c l' ih =>
    intro e t2 h
    by_cases hp : p c = true
    · rw [List.dropWhile_cons_of_pos hp] at h; exact ih e t2 h
    · rw [List.dropWhile_cons_of_neg hp] at h
      cases h
      simpa using hp

theorem dropWhile_append_all {p : Char → Bool} :
    ∀ (v b : Str), (∀ c ∈ v, p c = true) → (v ++ b).dropWhile p = b.dropWhile p := by
  intro v
  induction v with
  | nil => intro b _; rfl
  | cons c v' ih =>
    intro b hv
    rw [List.cons_append, List.dropWhile_cons_of_pos (hv c (by simp))]
    exact ih b (fun x hx => hv x (by simp [hx]))

theorem dropWhile_append_of_ne_nil {p : Char → Bool} :
    ∀ (v b : Str), v.dropWhile p ≠ [] → (v ++ b).dropWhile p = v.dropWhile p ++ b := by
  intro v
  induction v with
  | nil => intro b h; exact absurd rfl h
  | cons c v' ih =>
    intro b h
    by_cases hp : p c = true
    · rw [List.dropWhile_cons_of_pos hp] at h ⊢
      rw [List.cons_append, List.dropWhile_cons_of_pos hp]
      exact ih b h
    · rw [List.cons_append, List.dropWhile_cons_of_neg hp,
        List.dropWhile_cons_of_neg hp, List.cons_append]

theorem dropWhile_append_single {p : Char → Bool} {c : Char} (hc : p c = false) :
    ∀ (a : Str), (a ++ [c]).dropWhile p = a.dropWhile p ++ [c] := by
  intro a
  induction a with
  | nil => simp [List.dropWhile, hc]
  | cons x a' ih =>
    by_cases hp : p x = true
    · rw [List.cons_append, List.dropWhile_cons_of_pos hp,
        List.dropWhile_cons_of_pos hp, ih]
    · rw [List.cons_append, List.dropWhile_cons_of_neg hp,
        List.dropWhile_cons_of_neg hp, List.cons_append]

theorem rstrip_cons_keep {hd : Char} (h : isPyWs hd = false) (tl : Str) :
    pyStripRight (hd :: tl) = hd :: pyStripRight tl := by
  unfold pyStripRight
  rw [List.reverse_cons, dropWhile_append_single h, List.reverse_append]
  rfl

theorem rstrip_allnonws {w : Str} (hw : ∀ c ∈ w, isPyWs c = false) :
    pyStripRight w = w := by
  induction w with
  | nil => rfl
  | cons c w' ih =>
    rw [rstrip_cons_keep (hw c (by simp)) w',
      ih (fun x hx => hw x (by simp [hx]))]

theorem rstrip_append_allws {x : Str} (hx : ∀ c ∈ x, isPyWs c = true) (a : Str) :
    pyStripRight (a ++ x) = pyStripRight a := by
  unfold pyStripRight
  rw [List.reverse_append, dropWhile_append_all _ _ (by simpa using hx)]

theorem rstrip_ne_nil_of_cons {hd : Char} (h : isPyWs hd = false) (tl : Str) :
    pyStripRight (hd :: tl) ≠ [] := by
  rw [rstrip_cons_keep h tl]; simp

theorem rstrip_append_keep {x : Str} (hx : pyStripRight x ≠ []) (a : Str) :
    pyStripRight (a ++ x) = a ++ pyStripRight x := by
  unfold pyStripRight at *
  have hx' : x.reverse.dropWhile isPyWs ≠ [] := by
    intro h; rw [h] at hx; exact hx rfl
  rw [List.reverse_append, dropWhile_append_of_ne_nil _ _ hx', List.reverse_append,
    List.reverse_reverse]

theorem strip_cons_ws {c : Char} (h : isPyWs c = true) (t : Str) :
    pyStrip (c :: t) = pyStrip t := by
  unfold pyStrip pyStripLeft
  rw [List.dropWhile_cons_of_pos h]

theorem strip_cons_nonws {c : Char} (h : isPyWs c = false) (t : Str) :
    pyStrip (c :: t) = c :: pyStripRight t := by
  unfold pyStrip pyStripLeft
  rw [List.dropWhile_cons_of_neg (by simp [h]), rstrip_cons_keep h t]

theorem collapse_app_nonws (u : Char) {w : Str} (hw : ∀ c ∈ w, isPyWs c = false)
    (x : Str) : collapseGo u false (w ++ x) = w ++ collapseGo u false x := by
  induction w with
  | nil => rfl
  | cons c w' ih =>
    rw [List.cons_append]
    show collapseGo u false (c :: (w' ++ x)) = _
    rw [show collapseGo u false (c :: (w' ++ x)) =
        if isPyWs c then (if false then collapseGo u true (w' ++ x)
          else u :: collapseGo u true (w' ++ x))
        else c :: collapseGo u false (w' ++ x) from rfl]
    rw [if_neg (by simp [hw c (by simp)])]
    rw [ih (fun y hy => hw y (by simp [hy]))]
    rfl

theorem collapse_allnonws (u : Char) {w : Str} (hw : ∀ c ∈ w, isPyWs c = false) :
    collapseGo u false w = w := by
  have := collapse_app_nonws u hw []
  rw [List.append_nil] at this
  rw [this]
  show w ++ collapseGo u false [] = w
  simp [collapseGo]

theorem collapse_true_skip (u : Char) {v : Str} (hv : ∀ c ∈ v, isPyWs c = true)
    {x : Str} (hx : x = [] ∨ ∃ hd tl, x = hd :: tl ∧ isPyWs hd = false) :
    collapseGo u true (v ++ x) = collapseGo u false x := by
  induction v with
  | nil =>
    rcases hx with rfl | ⟨hd, tl, rfl, hhd⟩
    · rfl
    · show collapseGo u true (hd :: tl) = collapseGo u false (hd :: tl)
      simp [collapseGo, hhd]
  | cons d v' ih =>
    rw [List.cons_append]
    show collapseGo u true (d :: (v' ++ x)) = _
    simp only [collapseGo, hv d (by simp), if_true, if_pos]
    exact ih (fun y hy => hv y (by simp [hy]))

theorem collapse_ws_run (u : Char) {v : Str} (hvne : v ≠ [])
    (hv : ∀ c ∈ v, isPyWs c = true) {x : Str}
    (hx : x = [] ∨ ∃ hd tl, x = hd :: tl ∧ isPyWs hd = false) :
    collapseGo u false (v ++ x) = u :: collapseGo u false x := by
  cases v with
  | nil => exact absurd rfl hvne
  | cons c v' =>
    rw [List.cons_append]
    show collapseGo u false (c :: (v' ++ x)) = _
    simp only [collapseGo, hv c (by simp), if_true, if_pos, Bool.false_eq_true, if_false]
    rw [collapse_true_skip u (fun y hy => hv y (by simp [hy])) hx]

theorem wsWords_allws_skip {v : Str} (hv : ∀ c ∈ v, isPyWs c = true) (x : Str) :
    wsWords (v ++ x) = wsWords x := by
  induction v with
  | nil => rfl
  | cons c v' ih =>
    rw [List.cons_append]
    rw [show wsWords (c :: (v' ++ x)) =
        if isPyWs c then wsWords (v' ++ x)
        else (c :: (v' ++ x).takeWhile (fun y => !isPyWs y)) ::
          wsWords ((v' ++ x).dropWhile (fun y => !isPyWs y)) from by rw [wsWords]]
    rw [if_pos (hv c (by simp))]
    exact ih (fun y hy => hv y (by simp [hy]))

theorem wsWords_nil_of_allws {s : Str} (hs : ∀ c ∈ s, isPyWs c = true) :
    wsWords s = [] := by
  have := wsWords_allws_skip hs []
  rw [List.append_nil] at this
  rw [this]
  simp [wsWords]

theorem collapse_strip_eq_words (u : Char) :
    ∀ (n : Nat) (s : Str), s.length ≤ n →
      collapseRunsWith u (pyStrip s) = pyJoin [u] (wsWords s) := by
  intro n
  induction n with
  | zero =>
    intro s hs
    have : s = [] := List.eq_nil_of_length_eq_zero (Nat.le_zero.mp hs)
    subst this
    simp [pyStrip, pyStripLeft, pyStripRight, collapseRunsWith, collapseGo, wsWords, pyJoin]
  | succ n ih =>
    intro s hs
    cases s with
    | nil =>
      simp [pyStrip, pyStripLeft, pyStripRight, collapseRunsWith, collapseGo, wsWords, pyJoin]
    | cons c t =>
      by_cases hc : isPyWs c = true
      · rw [show wsWords (c :: t) =
            if isPyWs c then wsWords t
            else (c :: t.takeWhile (fun y => !isPyWs y)) ::
              wsWords (t.dropWhile (fun y => !isPyWs y)) from by rw [wsWords]]
        rw [if_pos hc]
        unfold collapseRunsWith
        rw [show pyStrip (c :: t) = pyStrip t from strip_cons_ws hc t]
        exact ih t (by simpa using Nat.le_of_succ_le_succ (by simpa using hs))
      · have hc' : isPyWs c = false := by simpa using hc
        set w := t.takeWhile (fun y => !isPyWs y) with hw_def
        set rest := t.dropWhile (fun y => !isPyWs y) with hrest_def
        have ht : w ++ rest = t := List.takeWhile_append_dropWhile _ t
        have hw : ∀ x ∈ w, isPyWs x = false := by
          intro x hx
          have := List.mem_takeWhile_imp hx
          simpa using this
        have hwords : wsWords (c :: t) = (c :: w) :: wsWords rest := by
          rw [show wsWords (c :: t) =
              if isPyWs c then wsWords t
              else (c :: t.takeWhile (fun y => !isPyWs y)) ::
                wsWords (t.dropWhile (fun y => !isPyWs y)) from by rw [wsWords]]
          rw [if_neg hc]
        have htlen : t.length ≤ n := by
          simpa using Nat.le_of_succ_le_succ (by simpa using hs)
        by_cases hall : ∀ x ∈ rest, isPyWs x = true
        · have h1 : pyStripRight t = w := by
            rw [← ht, rstrip_append_allws hall w, rstrip_allnonws hw]
          rw [hwords, wsWords_nil_of_allws hall]
          unfold collapseRunsWith
          rw [strip_cons_nonws hc' t, h1]
          rw [show collapseGo u false (c :: w) = collapseGo u false ((c :: w) ++ []) from
            by rw [List.append_nil]]
          rw [collapse_app_nonws u (by
            intro y hy
            rcases List.mem_cons.mp hy with rfl | hy
            · exact hc'
            · exact hw y hy) []]
          show (c :: w) ++ collapseGo u false [] = pyJoin [u] [c :: w]
          simp [collapseGo, pyJoin]
        · set v := rest.takeWhile isPyWs with hv_def
          set rest2 := rest.dropWhile isPyWs with hrest2_def
          have hrest : v ++ rest2 = rest := List.takeWhile_append_dropWhile _ rest
          have hva : ∀ x ∈ v, isPyWs x = true := fun x hx => List.mem_takeWhile_imp hx
          have hrest2ne : rest2 ≠ [] := by
            intro h2
            exact hall (by
              intro x hx
              exact List.dropWhile_eq_nil_iff.mp h2 x hx)
          obtain ⟨hd, tl, hhd⟩ : ∃ hd tl, rest2 = hd :: tl := by
            cases h2 : rest2 with
            | nil => exact absurd h2 hrest2ne
            | cons a b => exact ⟨a, b, rfl⟩
          have hhdnw : isPyWs hd = false :=
            dropWhile_head_not rest hd tl (by rw [← hrest2_def, hhd])
          have hvne : v ≠ [] := by
            intro hv0
            have h3 : rest = rest2 := by rw [← hrest, hv0]; rfl
            cases h4 : rest with
            | nil =>
              exact hall (by intro x hx; rw [h4] at hx; cases hx)
            | cons e es =>
              have hews : isPyWs e = true := by
                have h5 : isPyWs e = false → False := by
                  intro h6
                  have := dropWhile_head_not (p := fun y => !isPyWs y) t e es
                    (by rw [← hrest_def, h4])
                  simp [h6] at this
                by_cases h7 : isPyWs e = true
                · exact h7
                · exact absurd (by simpa using h7) h5
              have : v = e :: (es.takeWhile isPyWs) := by
                rw [hv_def, h4, List.takeWhile_cons_of_pos hews]
              rw [this] at hv0
              cases hv0
          -- right-strip of t decomposes around the interior whitespace run
          have hR2 : pyStripRight rest2 = hd :: pyStripRight tl := by
            rw [hhd]; exact rstrip_cons_keep hhdnw tl
          have hR2ne : pyStripRight rest2 ≠ [] := by rw [hR2]; simp
          have hRrest : pyStripRight rest = v ++ pyStripRight rest2 := by
            rw [← hrest]; exact rstrip_append_keep hR2ne v
          have hRrestne : pyStripRight rest ≠ [] := by
            rw [hRrest, hR2]
            simp
          have hRt : pyStripRight t = w ++ (v ++ pyStripRight rest2) := by
            rw [← ht, rstrip_append_keep hRrestne w, hRrest]
          have hstrip2 : pyStrip rest2 = pyStripRight rest2 := by
            unfold pyStrip pyStripLeft
            rw [hhd, List.dropWhile_cons_of_neg (by simp [hhdnw]), ← hhd]
          have hr2len : rest2.length ≤ n := by
            have l1 := (List.dropWhile_sublist (l := rest) isPyWs).length_le
            have l2 := (List.dropWhile_sublist (l := t) (fun y => !isPyWs y)).length_le
            rw [← hrest2_def] at l1
            rw [← hrest_def] at l2
            omega
          have hIH := ih rest2 hr2len
          rw [hstrip2] at hIH
          have hwr2 : ∃ q qs, wsWords rest2 = q :: qs := by
            rw [hhd]
            rw [show wsWords (hd :: tl) =
                if isPyWs hd then wsWords tl
                else (hd :: tl.takeWhile (fun y => !isPyWs y)) ::
                  wsWords (tl.dropWhile (fun y => !isPyWs y)) from by rw [wsWords]]
            rw [if_neg (by simp [hhdnw])]
            exact ⟨_, _, rfl⟩
          obtain ⟨q, qs, hqs⟩ := hwr2
          have hwrest : wsWords rest = wsWords rest2 := by
            rw [← hrest]; exact wsWords_allws_skip hva rest2
          -- assemble
          unfold collapseRunsWith at *
          rw [strip_cons_nonws hc' t, hRt]
          rw [show (c :: (w ++ (v ++ pyStripRight rest2))) =
              (c :: w) ++ (v ++ pyStripRight rest2) from rfl]
          rw [collapse_app_nonws u (by
            intro y hy
            rcases List.mem_cons.mp hy with rfl | hy
            · exact hc'
            · exact hw y hy) _]
          rw [collapse_ws_run u hvne hva (Or.inr ⟨hd, pyStripRight tl, hR2, hhdnw⟩)]
          rw [hIH, hwords, hwrest, hqs]
          show (c :: w) ++ u :: pyJoin [u] (q :: qs) =
            (c :: w) ++ [u] ++ pyJoin [u] (q :: qs)
          simp

theorem collapse_strip_words (u : Char) (s : Str) :
    collapseRunsWith u (pyStrip s) = pyJoin [u] (wsWords s) :=
  collapse_strip_eq_words u s.length s (Nat.le_refl _)

/-- Claim C6 counterexample: for the title " a " the code first strips the
surrounding whitespace and produces "a", while the claim's description
(collapsing every whitespace run to an underscore) yields "_a_". -/
theorem c6_counterexample :
    safeFilename (str " a ") = str "a" ∧
    safeFilenameClaim (str " a ") = str "_a_" ∧
    safeFilename (str " a ") ≠ safeFilenameClaim (str " a ") := by
  refine ⟨by decide, by decide, by decide⟩

/-- Claim C6 (amended): the derived safe filename equals the amended
description — character removal, `&` → "and", whitespace-word join by
underscores with outer whitespace trimmed, 100-character truncation, and the
`untitled_recipe` fallback. -/
theorem c6_safe_filename (t : Str) : safeFilename t = safeFilenameAmended t := by
  unfold safeFilename safeFilenameAmended
  simp only []
  rw [collapse_strip_words '_' (pyReplaceChar '&' (str "and")
    (t.filter (fun c => !badFileChars.contains c)))]
  rfl

theorem parseRecipe_unfold (raw : RawFields) :
    parseRecipe raw =
      parseStep raw 10 (parseStep raw 9 (parseStep raw 8 (parseStep raw 7 (parseStep raw 6
        (parseStep raw 5 (parseStep raw 4 (parseStep raw 3 (parseStep raw 2
          (parseStep raw 1 (parseStep raw 0 {})))))))))) := rfl

theorem parseStep_keep_title (raw : RawFields) (r : Recipe) :
    ∀ i, i ≠ 0 → (parseStep raw i r).title = r.title := by
  obtain ⟨tt, ct, pt, ckt, st, src, ing, insh, nh, uh, im⟩ := raw
  intro i hi
  match i with
  | 0 => exact absurd rfl hi
  | 1 => cases ct <;> rfl
  | 2 => cases pt <;> rfl
  | 3 => cases ckt <;> rfl
  | 4 => cases st <;> rfl
  | 5 => rcases src with _ | ⟨h1, _ | a⟩ <;> rfl
  | 6 => rfl
  | 7 => cases insh <;> rfl
  | 8 => cases nh <;> rfl
  | 9 => cases uh <;> rfl
  | 10 => cases im <;> rfl
  | (j + 11) => rfl

theorem parseStep_keep_categories (raw : RawFields) (r : Recipe) :
    ∀ i, i ≠ 1 → (parseStep raw i r).categories = r.categories := by
  obtain ⟨tt, ct, pt, ckt, st, src, ing, insh, nh, uh, im⟩ := raw
  intro i hi
  match i with
  | 0 => cases tt <;> rfl
  | 1 => exact absurd rfl hi
  | 2 => cases pt <;> rfl
  | 3 => cases ckt <;> rfl
  | 4 => cases st <;> rfl
  | 5 => rcases src with _ | ⟨h1, _ | a⟩ <;> rfl
  | 6 => rfl
  | 7 => cases insh <;> rfl
  | 8 => cases nh <;> rfl
  | 9 => cases uh <;> rfl
  | 10 => cases im <;> rfl
  | (j + 11) => rfl

theorem parseStep_keep_servings (raw : RawFields) (r : Recipe) :
    ∀ i, i ≠ 4 → (parseStep raw i r).servings = r.servings := by
  obtain ⟨tt, ct, pt, ckt, st, src, ing, insh, nh, uh, im⟩ := raw
  intro i hi
  match i with
  | 0 => cases tt <;> rfl
  | 1 => cases ct <;> rfl
  | 2 => cases pt <;> rfl
  | 3 => cases ckt <;> rfl
  | 4 => exact absurd rfl hi
  | 5 => rcases src with _ | ⟨h1, _ | a⟩ <;> rfl
  | 6 => rfl
  | 7 => cases insh <;> rfl
  | 8 => cases nh <;> rfl
  | 9 => cases uh <;> rfl
  | 10 => cases im <;> rfl
  | (j + 11) => rfl

theorem parseStep_keep_source_url (raw : RawFields) (r : Recipe) :
    ∀ i, i ≠ 5 → (parseStep raw i r).source_url = r.source_url := by
  obtain ⟨tt, ct, pt, ckt, st, src, ing, insh, nh, uh, im⟩ := raw
  intro i hi
  match i with
  | 0 => cases tt <;> rfl
  | 1 => cases ct <;> rfl
  | 2 => cases pt <;> rfl
  | 3 => cases ckt <;> rfl
  | 4 => cases st <;> rfl
  | 5 => exact absurd rfl hi
  | 6 => rfl
  | 7 => cases insh <;> rfl
  | 8 => cases nh <;> rfl
  | 9 => cases uh <;> rfl
  | 10 => cases im <;> rfl
  | (j + 11) => rfl

theorem parseStep_keep_source_name (raw : RawFields) (r : Recipe) :
    ∀ i, i ≠ 5 → (parseStep raw i r).source_name = r.source_name := by
  obtain ⟨tt, ct, pt, ckt, st, src, ing, insh, nh, uh, im⟩ := raw
  intro i hi
  match i with
  | 0 => cases tt <;> rfl
  | 1 => cases ct <;> rfl
  | 2 => cases pt <;> rfl
  | 3 => cases ckt <;> rfl
  | 4 => cases st <;> rfl
  | 5 => exact absurd rfl hi
  | 6 => rfl
  | 7 => cases insh <;> rfl
  | 8 => cases nh <;> rfl
  | 9 => cases uh <;> rfl
  | 10 => cases im <;> rfl
  | (j + 11) => rfl

theorem parseStep_keep_image_path (raw : RawFields) (r : Recipe) :
    ∀ i, i ≠ 10 → (parseStep raw i r).image_path = r.image_path := by
  obtain ⟨tt, ct, pt, ckt, st, src, ing, insh, nh, uh, im⟩ := raw
  intro i hi
  match i with
  | 0 => cases tt <;> rfl
  | 1 => cases ct <;> rfl
  | 2 => cases pt <;> rfl
  | 3 => cases ckt <;> rfl
  | 4 => cases st <;> rfl
  | 5 => rcases src with _ | ⟨h1, _ | a⟩ <;> rfl
  | 6 => rfl
  | 7 => cases insh <;> rfl
  | 8 => cases nh <;> rfl
  | 9 => cases uh <;> rfl
  | 10 => exact absurd rfl hi
  | (j + 11) => rfl

theorem parseRecipe_title (raw : RawFields) :
    (parseRecipe raw).title =
      (match raw.titleText with
        | some t => cleanTitle (pyStrip t)
        | none => []) := by
  rw [parseRecipe_unfold raw,
    parseStep_keep_title raw _ 10 (by decide), parseStep_keep_title raw _ 9 (by decide),
    parseStep_keep_title raw _ 8 (by decide), parseStep_keep_title raw _ 7 (by decide),
    parseStep_keep_title raw _ 6 (by decide), parseStep_keep_title raw _ 5 (by decide),
    parseStep_keep_title raw _ 4 (by decide), parseStep_keep_title raw _ 3 (by decide),
    parseStep_keep_title raw _ 2 (by decide), parseStep_keep_title raw _ 1 (by decide)]
  obtain ⟨tt, ct, pt, ckt, st, src, ing, insh, nh, uh, im⟩ := raw
  cases tt <;> rfl

theorem parseRecipe_categories (raw : RawFields) :
    (parseRecipe raw).categories =
      (match raw.categoriesText with
        | some ct =>
          (((splitCommas (pyStrip ct)).filter (fun c => !(pyStrip c).isEmpty)).map
            (fun c => cleanCategory (pyStrip c)))
        | none => []) := by
  rw [parseRecipe_unfold raw,
    parseStep_keep_categories raw _ 10 (by decide), parseStep_keep_categories raw _ 9 (by decide),
    parseStep_keep_categories raw _ 8 (by decide), parseStep_keep_categories raw _ 7 (by decide),
    parseStep_keep_categories raw _ 6 (by decide), parseStep_keep_categories raw _ 5 (by decide),
    parseStep_keep_categories raw _ 4 (by decide), parseStep_keep_categories raw _ 3 (by decide),
    parseStep_keep_categories raw _ 2 (by decide)]
  obtain ⟨tt, ct, pt, ckt, st, src, ing, insh, nh, uh, im⟩ := raw
  cases ct <;> cases tt <;> rfl

theorem parseStep4_servings (raw : RawFields) (r : Recipe) :
    (parseStep raw 4 r).servings =
      (match raw.servingsText with
        | some t => cleanServings (pyStrip t)
        | none => r.servings) := by
  obtain ⟨tt, ct, pt, ckt, st, src, ing, insh, nh, uh, im⟩ := raw
  cases st <;> rfl

theorem parseStep5_source_url (raw : RawFields) (r : Recipe) :
    (parseStep raw 5 r).source_url =
      (match raw.source with
        | some pa => pyStrip pa.1
        | none => r.source_url) := by
  obtain ⟨tt, ct, pt, ckt, st, src, ing, insh, nh, uh, im⟩ := raw
  rcases src with _ | ⟨h1, _ | a⟩ <;> rfl

theorem parseStep5_source_name (raw : RawFields) (r : Recipe) :
    (parseStep raw 5 r).source_name =
      (match raw.source with
        | some (_, some a) => cleanText (pyStrip a)
        | _ => r.source_name) := by
  obtain ⟨tt, ct, pt, ckt, st, src, ing, insh, nh, uh, im⟩ := raw
  rcases src with _ | ⟨h1, _ | a⟩ <;> rfl

theorem parseStep10_image_path (raw : RawFields) (r : Recipe) :
    (parseStep raw 10 r).image_path =
      (match raw.imgSrc with
        | some src => src
        | none => r.image_path) := by
  obtain ⟨tt, ct, pt, ckt, st, src, ing, insh, nh, uh, im⟩ := raw
  cases im <;> rfl

theorem parseRecipe_servings (raw : RawFields) :
    (parseRecipe raw).servings =
      (match raw.servingsText with
        | some t => cleanServings (pyStrip t)
        | none => []) := by
  rw [parseRecipe_unfold raw,
    parseStep_keep_servings raw _ 10 (by decide), parseStep_keep_servings raw _ 9 (by decide),
    parseStep_keep_servings raw _ 8 (by decide), parseStep_keep_servings raw _ 7 (by decide),
    parseStep_keep_servings raw _ 6 (by decide), parseStep_keep_servings raw _ 5 (by decide),
    parseStep4_servings raw,
    parseStep_keep_servings raw _ 3 (by decide), parseStep_keep_servings raw _ 2 (by decide),
    parseStep_keep_servings raw _ 1 (by decide), parseStep_keep_servings raw _ 0 (by decide)]

theorem parseRecipe_source_url (raw : RawFields) :
    (parseRecipe raw).source_url =
      (match raw.source with
        | some pa => pyStrip pa.1
        | none => []) := by
  rw [parseRecipe_unfold raw,
    parseStep_keep_source_url raw _ 10 (by decide), parseStep_keep_source_url raw _ 9 (by decide),
    parseStep_keep_source_url raw _ 8 (by decide), parseStep_keep_source_url raw _ 7 (by decide),
    parseStep_keep_source_url raw _ 6 (by decide),
    parseStep5_source_url raw,
    parseStep_keep_source_url raw _ 4 (by decide), parseStep_keep_source_url raw _ 3 (by decide),
    parseStep_keep_source_url raw _ 2 (by decide), parseStep_keep_source_url raw _ 1 (by decide),
    parseStep_keep_source_url raw _ 0 (by decide)]

theorem parseRecipe_source_name (raw : RawFields) :
    (parseRecipe raw).source_name =
      (match raw.source with
        | some (_, some a) => cleanText (pyStrip a)
        | _ => []) := by
  rw [parseRecipe_unfold raw,
    parseStep_keep_source_name raw _ 10 (by decide), parseStep_keep_source_name raw _ 9 (by decide),
    parseStep_keep_source_name raw _ 8 (by decide), parseStep_keep_source_name raw _ 7 (by decide),
    parseStep_keep_source_name raw _ 6 (by decide),
    parseStep5_source_name raw,
    parseStep_keep_source_name raw _ 4 (by decide), parseStep_keep_source_name raw _ 3 (by decide),
    parseStep_keep_source_name raw _ 2 (by decide), parseStep_keep_source_name raw _ 1 (by decide),
    parseStep_keep_source_name raw _ 0 (by decide)]

theorem parseRecipe_image_path (raw : RawFields) :
    (parseRecipe raw).image_path =
      (match raw.imgSrc with
        | some src => src
        | none => []) := by
  rw [parseRecipe_unfold raw, parseStep10_image_path raw,
    parseStep_keep_image_path raw _ 9 (by decide), parseStep_keep_image_path raw _ 8 (by decide),
    parseStep_keep_image_path raw _ 7 (by decide), parseStep_keep_image_path raw _ 6 (by decide),
    parseStep_keep_image_path raw _ 5 (by decide), parseStep_keep_image_path raw _ 4 (by decide),
    parseStep_keep_image_path raw _ 3 (by decide), parseStep_keep_image_path raw _ 2 (by decide),
    parseStep_keep_image_path raw _ 1 (by decide), parseStep_keep_image_path raw _ 0 (by decide)]

theorem noWsRun_tail {x : Char} {rest : Str} (h : noWsRun (x :: rest) = true) :
    noWsRun rest = true := by
  cases rest with
  | nil => rfl
  | cons y t =>
    have h2 : (!(isPyWs x && isPyWs y) && noWsRun (y :: t)) = true := h
    have h3 : (!(isPyWs x && isPyWs y)) = true ∧ noWsRun (y :: t) = true := by
      simpa using h2
    exact h3.2

theorem noWsRun_append_right {a b : Str} (h : noWsRun (a ++ b) = true) :
    noWsRun b = true := by
  induction a with
  | nil => exact h
  | cons x a' ih => exact ih (noWsRun_tail h)

theorem noWsRun_append_left {a b : Str} (h : noWsRun (a ++ b) = true) :
    noWsRun a = true := by
  induction a with
  | nil => rfl
  | cons x a' ih =>
    cases a' with
    | nil => rfl
    | cons y a'' =>
      have h1 : (!(isPyWs x && isPyWs y) && noWsRun (y :: (a'' ++ b))) = true := h
      obtain ⟨h2, h3⟩ : (!(isPyWs x && isPyWs y)) = true ∧
          noWsRun (y :: (a'' ++ b)) = true := by simpa using h1
      have h4 : noWsRun (y :: a'') = true := ih h3
      show (!(isPyWs x && isPyWs y) && noWsRun (y :: a'')) = true
      rw [h2, h4]
      rfl

theorem collapseGo_sp_head :
    ∀ (s : Str) (hd : Char) (tl : Str),
      collapseGo ' ' true s = hd :: tl → isPyWs hd = false := by
  intro s
  induction s with
  | nil => intro hd tl h; cases h
  | cons c t ih =>
    intro hd tl h
    by_cases hc : isPyWs c = true
    · rw [show collapseGo ' ' true (c :: t) = collapseGo ' ' true t from by
        simp [collapseGo, hc]] at h
      exact ih hd tl h
    · rw [show collapseGo ' ' true (c :: t) = c :: collapseGo ' ' false t from by
        simp [collapseGo, hc]] at h
      cases h
      simpa using hc

theorem noWsRun_collapseGo : ∀ (s : Str) (b : Bool),
    noWsRun (collapseGo ' ' b s) = true := by
  intro s
  induction s with
  | nil => intro b; rfl
  | cons c t ih =>
    intro b
    by_cases hc : isPyWs c = true
    · cases b with
      | true =>
        rw [show collapseGo ' ' true (c :: t) = collapseGo ' ' true t from by
          simp [collapseGo, hc]]
        exact ih true
      | false =>
        rw [show collapseGo ' ' false (c :: t) = ' ' :: collapseGo ' ' true t from by
          simp [collapseGo, hc]]
        cases hgo : collapseGo ' ' true t with
        | nil => rfl
        | cons hd tl =>
          have hhd : isPyWs hd = false := collapseGo_sp_head t hd tl hgo
          show (!(isPyWs ' ' && isPyWs hd) && noWsRun (hd :: tl)) = true
          rw [hhd]
          have := ih true
          rw [hgo] at this
          rw [this]
          rfl
    · rw [show collapseGo ' ' b (c :: t) = c :: collapseGo ' ' false t from by
        simp [collapseGo, hc]]
      cases hgo : collapseGo ' ' false t with
      | nil => rfl
      | cons hd tl =>
        show (!(isPyWs c && isPyWs hd) && noWsRun (hd :: tl)) = true
        have := ih false
        rw [hgo] at this
        rw [this]
        simp [show isPyWs c = false from by simpa using hc]

theorem noWsRun_drop {s : Str} (h : noWsRun s = true) (n : Nat) :
    noWsRun (s.drop n) = true :=
  noWsRun_append_right (a := s.take n) (by rw [List.take_append_drop]; exact h)

theorem noWsRun_dropWhile {s : Str} (h : noWsRun s = true) (p : Char → Bool) :
    noWsRun (s.dropWhile p) = true :=
  noWsRun_append_right (a := s.takeWhile p) (by rw [List.takeWhile_append_dropWhile]; exact h)

theorem noWsRun_strip {s : Str} (h : noWsRun s = true) : noWsRun (pyStrip s) = true := by
  have h1 : noWsRun (pyStripLeft s) = true := by
    show noWsRun (s.dropWhile isPyWs) = true
    exact noWsRun_dropWhile h isPyWs
  unfold pyStrip pyStripRight
  set u := pyStripLeft s with hu
  have h2 : u = (u.reverse.dropWhile isPyWs).reverse ++ (u.reverse.takeWhile isPyWs).reverse := by
    conv_lhs => rw [← List.reverse_reverse u]
    rw [← List.reverse_append, List.takeWhile_append_dropWhile]
  exact noWsRun_append_left (by rw [← h2]; exact h1)

theorem noWsRun_cleanText (s : Str) : noWsRun (cleanText s) = true := by
  unfold cleanText
  by_cases hs : s = []
  · rw [if_pos hs]; rfl
  · rw [if_neg hs]
    exact noWsRun_strip (noWsRun_collapseGo _ false)

theorem noWsRun_cleanTitle (t : Str) : noWsRun (cleanTitle t) = true := by
  unfold cleanTitle
  by_cases hs : cleanText t = []
  · simp only [hs, if_pos]
    decide
  · rw [if_neg hs]
    exact noWsRun_strip (noWsRun_collapseGo _ false)

theorem noWsRun_cleanServings (s : Str) : noWsRun (cleanServings s) = true := by
  unfold cleanServings
  by_cases h1 : (str "yield:").isPrefixOf (toLowerStr (cleanText s)) = true
  · rw [if_pos h1]
    exact noWsRun_dropWhile (noWsRun_drop (noWsRun_cleanText s) 6) _
  · rw [if_neg h1]
    by_cases h2 : (str "serves:").isPrefixOf (toLowerStr (cleanText s)) = true
    · rw [if_pos h2]
      exact noWsRun_dropWhile (noWsRun_drop (noWsRun_cleanText s) 7) _
    · rw [if_neg h2]
      exact noWsRun_cleanText s

theorem pyTitleGo_cons (b : Bool) (c : Char) (t : Str) :
    pyTitleGo b (c :: t) = titleChar b c :: pyTitleGo (isAsciiAlpha c) t := by
  by_cases h : isAsciiAlpha c = true
  · simp [pyTitleGo, titleChar, h]
  · simp [pyTitleGo, titleChar, h]

theorem isPyWs_pyLowerChar (c : Char) : isPyWs (pyLowerChar c) = isPyWs c := by
  unfold pyLowerChar
  split <;> rfl

theorem isPyWs_pyUpperChar (c : Char) : isPyWs (pyUpperChar c) = isPyWs c := by
  unfold pyUpperChar
  split <;> rfl

theorem isPyWs_titleChar (b : Bool) (c : Char) : isPyWs (titleChar b c) = isPyWs c := by
  unfold titleChar
  by_cases h : isAsciiAlpha c = true
  · rw [if_pos h]
    cases b with
    | true => rw [if_pos rfl]; exact isPyWs_pyLowerChar c
    | false => simp [isPyWs_pyUpperChar c]
  · rw [if_neg h]

theorem noWsRun_pyTitleGo : ∀ (s : Str) (b : Bool),
    noWsRun (pyTitleGo b s) = noWsRun s := by
  intro s
  induction s with
  | nil => intro b; rfl
  | cons c t ih =>
    intro b
    rw [pyTitleGo_cons]
    cases t with
    | nil => rfl
    | cons d t' =>
      rw [pyTitleGo_cons]
      show (!(isPyWs (titleChar b c) && isPyWs (titleChar (isAsciiAlpha c) d)) &&
          noWsRun (titleChar (isAsciiAlpha c) d :: pyTitleGo (isAsciiAlpha d) t')) = _
      rw [show (titleChar (isAsciiAlpha c) d :: pyTitleGo (isAsciiAlpha d) t') =
          pyTitleGo (isAsciiAlpha c) (d :: t') from (pyTitleGo_cons _ d t').symm]
      rw [ih (isAsciiAlpha c), isPyWs_titleChar, isPyWs_titleChar]
      rfl

theorem noWsRun_pyTitle (s : Str) (h : noWsRun s = true) : noWsRun (pyTitle s) = true := by
  unfold pyTitle
  rw [noWsRun_pyTitleGo s false]
  exact h

theorem categoryMapping_values_noWsRun :
    ∀ kv ∈ categoryMapping, noWsRun kv.2 = true := by decide

theorem noWsRun_cleanCategory (c : Str) : noWsRun (cleanCategory c) = true := by
  simp only [cleanCategory]
  cases hfind : categoryMapping.find? (fun kv => isSubstr kv.1 (toLowerStr (cleanText c))) with
  | none => exact noWsRun_pyTitle _ (noWsRun_cleanText c)
  | some kv =>
    exact categoryMapping_values_noWsRun kv (List.mem_of_find?_eq_some hfind)

theorem noWsRun_all_categories (raw : RawFields) :
    ((parseRecipe raw).categories.all noWsRun) = true := by
  rw [parseRecipe_categories raw]
  cases raw.categoriesText with
  | none => rfl
  | some ct =>
    rw [List.all_eq_true]
    intro x hx
    obtain ⟨y, _, rfl⟩ := List.mem_map.mp hx
    exact noWsRun_cleanCategory (pyStrip y)

/-- Claim C3 counterexample: the stored `source_url` is the raw href (merely
end-stripped) and still contains a double space, while `_clean_text` would
have collapsed it — so not every stored attribute is whitespace-collapsed. -/
theorem c3_counterexample :
    (parseRecipe c3raw).source_url = str "http://x.com/a  b" ∧
    cleanText (str "http://x.com/a  b") = str "http://x.com/a b" ∧
    noWsRun ((parseRecipe c3raw).source_url) = false := by
  refine ⟨by decide, by decide, by decide⟩

theorem findRecipes_eq_filterMap (fs : List ParseFile) :
    findRecipes fs =
      fs.filterMap (fun f =>
        (parsedRecipe f).bind (fun r => if r.title ≠ [] then some r else none)) := by
  induction fs with
  | nil => rfl
  | cons f fs ih =>
    cases hpf : parsedRecipe f with
    | none => simp [findRecipes, List.filterMap_cons, hpf, ih]
    | some r =>
      by_cases ht : r.title = []
      · simp [findRecipes, List.filterMap_cons, hpf, ht, ih]
      · simp [findRecipes, List.filterMap_cons, hpf, ht, ih]

theorem convertRecipes_eq_filter_map (wok : Recipe → Bool) (rs : List Recipe) :
    convertRecipes wok rs =
      (rs.filter wok).map
        (fun r => (safeFilename r.title ++ str ".html", toCleanHtml r)) := by
  induction rs with
  | nil => rfl
  | cons r rs ih =>
    by_cases hw : wok r = true
    · simp [convertRecipes, List.filter_cons, hw, ih]
    · simp [convertRecipes, List.filter_cons, hw, ih]

/-- Claim C7 (amended): a missing source directory exits 1 before any
processing, and a failed output-directory creation or summary-file write —
neither is guarded by a `try`/`except` — also aborts the run with exit
status 1 (in the summary case after the per-record documents were written);
only when all three succeed does the run exit 0.  Per-item failures are
contained: a construction failure or a missing title drops only that file
(a mid-parse exception keeps the partial record when its title was already
parsed — see the counterexample), and a failed per-record write drops only
that record's document; every remaining item is still processed. -/
theorem c7_amended_error_containment (inp : RunInput) :
    (mainRun inp =
      if inp.sourceExists then
        if inp.mkdirOk then
          if inp.tocWriteOk then
            (0,
             ((findRecipes inp.files).filter inp.writeOk).map
               (fun r => (safeFilename r.title ++ str ".html", toCleanHtml r)),
             some (tocHtml (findRecipes inp.files)))
          else
            (1,
             ((findRecipes inp.files).filter inp.writeOk).map
               (fun r => (safeFilename r.title ++ str ".html", toCleanHtml r)),
             none)
        else (1, [], none)
      else (1, [], none)) ∧
    ((mainRun inp).1 = 0 ↔
      inp.sourceExists && inp.mkdirOk && inp.tocWriteOk = true) ∧
    findRecipes inp.files =
      inp.files.filterMap (fun f =>
        (parsedRecipe f).bind (fun r => if r.title ≠ [] then some r else none)) := by
  have hmain : mainRun inp =
      if inp.sourceExists then
        if inp.mkdirOk then
          if inp.tocWriteOk then
            (0,
             ((findRecipes inp.files).filter inp.writeOk).map
               (fun r => (safeFilename r.title ++ str ".html", toCleanHtml r)),
             some (tocHtml (findRecipes inp.files)))
          else
            (1,
             ((findRecipes inp.files).filter inp.writeOk).map
               (fun r => (safeFilename r.title ++ str ".html", toCleanHtml r)),
             none)
        else (1, [], none)
      else (1, [], none) := by
    unfold mainRun
    by_cases hs : inp.sourceExists = true
    · rw [if_pos hs, if_pos hs]
      by_cases hm : inp.mkdirOk = true
      · rw [if_pos hm, if_pos hm]
        simp only []
        by_cases ht : inp.tocWriteOk = true
        · rw [if_pos ht, if_pos ht, convertRecipes_eq_filter_map]
        · rw [if_neg ht, if_neg ht, convertRecipes_eq_filter_map]
      · rw [if_neg hm, if_neg hm]
    · rw [if_neg hs, if_neg hs]
  refine ⟨hmain, ?_, findRecipes_eq_filterMap inp.files⟩
  rw [hmain]
  by_cases hs : inp.sourceExists = true
  · by_cases hm : inp.mkdirOk = true
    · by_cases ht : inp.tocWriteOk = true
      · simp [hs, hm, ht]
      · simp [hs, hm, ht]
    · simp [hs, hm]
  · simp [hs]

/-- Claim C8: the pipeline (record selection, per-record rendering, summary
rendering) is a pure function of the run input, so two runs over equal
inputs produce identical outputs, byte for byte. -/
theorem c8_pipeline_deterministic (i1 i2 : RunInput) (h : i1 = i2) :
    mainRun i1 = mainRun i2 := by rw [h]

theorem c8_pipeline_deterministic_witness : mainRun c8run = mainRun c8run :=
  c8_pipeline_deterministic c8run c8run rfl

/-- Claim C10: in the summary document the record title is HTML-escaped (the
raw "A<B" never appears; its escaped form does), while the condensed metadata
line is interpolated verbatim — the prep time "1<2" appears raw, with an
unescaped `<`. -/
theorem c10_summary_meta_unescaped :
    isSubstr (str "A&lt;B") (tocHtml [c10rec]) = true ∧
    isSubstr (str "Prep: 1<2") (tocHtml [c10rec]) = true ∧
    isSubstr (str "A<B") (tocHtml [c10rec]) = false := by
  refine ⟨by decide, by decide, by decide⟩

theorem bool_eq_false {b : Bool} (h : ¬ b = true) : b = false := by
  cases b
  · rfl
  · exact absurd rfl h

theorem nil_isPrefixOf (l : Str) : ([] : Str).isPrefixOf l = true := by
  cases l <;> rfl

theorem isPrefixOf_self : ∀ l : Str, l.isPrefixOf l = true := by
  intro l
  induction l with
  | nil => rfl
  | cons c t ih => simp [List.isPrefixOf, ih]

theorem isPrefixOf_append_left {u v : Str} (w : Str) (h : u.isPrefixOf v = true) :
    u.isPrefixOf (v ++ w) = true := by
  induction u generalizing v with
  | nil => exact nil_isPrefixOf _
  | cons a u' ih =>
    cases v with
    | nil => cases h
    | cons b v' =>
      rw [show (a :: u').isPrefixOf (b :: v') = (a == b && u'.isPrefixOf v') from rfl,
        Bool.and_eq_true] at h
      rw [List.cons_append,
        show (a :: u').isPrefixOf (b :: (v' ++ w)) =
          (a == b && u'.isPrefixOf (v' ++ w)) from rfl,
        Bool.and_eq_true]
      exact ⟨h.1, ih h.2⟩

theorem isPrefixOf_length_le {p : Str} :
    ∀ {l : Str}, p.isPrefixOf l = true → p.length ≤ l.length := by
  induction p with
  | nil => intro l _; simp
  | cons q p' ih =>
    intro l h
    cases l with
    | nil => cases h
    | cons c l' =>
      rw [show (q :: p').isPrefixOf (c :: l') = (q == c && p'.isPrefixOf l') from rfl,
        Bool.and_eq_true] at h
      have := ih h.2
      simp only [List.length_cons]
      omega

theorem isPrefixOf_append_of_le {p : Str} :
    ∀ {u : Str} (v : Str), p.length ≤ u.length →
      p.isPrefixOf (u ++ v) = p.isPrefixOf u := by
  induction p with
  | nil => intro u v _; rw [nil_isPrefixOf, nil_isPrefixOf]
  | cons q p' ih =>
    intro u v hle
    cases u with
    | nil => simp at hle
    | cons c u' =>
      rw [List.cons_append,
        show (q :: p').isPrefixOf (c :: (u' ++ v)) =
          (q == c && p'.isPrefixOf (u' ++ v)) from rfl,
        show (q :: p').isPrefixOf (c :: u') = (q == c && p'.isPrefixOf u') from rfl,
        ih (u := u') v (by simpa using hle)]

theorem isPrefixOf_take_eq {p : Str} :
    ∀ {u : Str} (v : Str), p.isPrefixOf (u ++ v) = true → u.length < p.length →
      p.take u.length = u := by
  induction p with
  | nil => intro u v _ hlt; simp at hlt
  | cons q p' ih =>
    intro u v hpre hlt
    cases u with
    | nil => rfl
    | cons c u' =>
      rw [List.cons_append,
        show (q :: p').isPrefixOf (c :: (u' ++ v)) =
          (q == c && p'.isPrefixOf (u' ++ v)) from rfl,
        Bool.and_eq_true] at hpre
      have h4 : q = c := by simpa using hpre.1
      show q :: p'.take u'.length = c :: u'
      rw [h4, ih v hpre.2 (by simpa using hlt)]

theorem isSuffixOf_self (l : Str) : l.isSuffixOf l = true := by
  simp only [List.isSuffixOf]
  exact isPrefixOf_self l.reverse

theorem isSuffixOf_cons_of {x A' : Str} (c : Char) (h : x.isSuffixOf A' = true) :
    x.isSuffixOf (c :: A') = true := by
  simp only [List.isSuffixOf] at h ⊢
  rw [List.reverse_cons]
  exact isPrefixOf_append_left [c] h

theorem tailFreeOK_cons {p A' : Str} {c : Char} (h : tailFreeOK p (c :: A') = true) :
    tailFreeOK p A' = true := by
  simp only [tailFreeOK, List.all_eq_true] at h ⊢
  intro k hk
  have h0 := h k hk
  rw [Bool.or_eq_true] at h0 ⊢
  rcases h0 with h1 | h1
  · exact Or.inl h1
  · refine Or.inr ?_
    rw [Bool.not_eq_true'] at h1 ⊢
    by_cases h2 : (p.take k).isSuffixOf A' = true
    · rw [isSuffixOf_cons_of c h2] at h1
      cases h1
    · exact bool_eq_false h2

theorem countSubstr_append_of_tailFree {p : Str} :
    ∀ (A t : Str), tailFreeOK p A = true →
      countSubstr p (A ++ t) = countSubstr p A + countSubstr p t := by
  intro A
  induction A with
  | nil => intro t _; simp [countSubstr]
  | cons c A' ih =>
    intro t hA
    have hA' : tailFreeOK p A' = true := tailFreeOK_cons hA
    show (if p.isPrefixOf (c :: (A' ++ t)) then 1 else 0) + countSubstr p (A' ++ t) =
      ((if p.isPrefixOf (c :: A') then 1 else 0) + countSubstr p A') + countSubstr p t
    rw [ih t hA']
    have hhit : p.isPrefixOf (c :: (A' ++ t)) = p.isPrefixOf (c :: A') := by
      by_cases hlen : p.length ≤ (c :: A').length
      · have := isPrefixOf_append_of_le (p := p) (u := c :: A') t hlen
        simpa using this
      · have hlt : (c :: A').length < p.length := by omega
        have h2 : p.isPrefixOf (c :: A') = false := by
          by_cases h3 : p.isPrefixOf (c :: A') = true
          · exact absurd (isPrefixOf_length_le h3) (by omega)
          · exact bool_eq_false h3
        rw [h2]
        by_cases h3 : p.isPrefixOf (c :: (A' ++ t)) = true
        · exfalso
          have h5 : p.isPrefixOf ((c :: A') ++ t) = true := by
            rw [List.cons_append]; exact h3
          have h4 : p.take (c :: A').length = c :: A' :=
            isPrefixOf_take_eq t h5 hlt
          have h6 : (p.take (c :: A').length).isSuffixOf (c :: A') = true := by
            rw [h4]; exact isSuffixOf_self _
          have h7 := (List.all_eq_true.mp hA) (c :: A').length
            (by simp only [List.mem_range]; omega)
          rw [Bool.or_eq_true] at h7
          rcases h7 with h8 | h8
          · simp at h8
          · rw [Bool.not_eq_true'] at h8
            rw [h6] at h8
            cases h8
        · exact bool_eq_false h3
    rw [hhit]
    omega

theorem countSubstr_lt_head_skip {p' : Str} :
    ∀ (s t : Str), noLt s = true →
      countSubstr ('<' :: p') (s ++ t) = countSubstr ('<' :: p') t := by
  intro s
  induction s with
  | nil => intro t _; rfl
  | cons c s' ih =>
    intro t hs
    have hc : (c == '<') = false := by
      have h1 : (!(c == '<')) = true := by
        have := List.all_eq_true.mp hs c (by simp)
        exact this
      simpa using h1
    have hs' : noLt s' = true := by
      simp only [noLt, List.all_cons, Bool.and_eq_true] at hs
      exact hs.2
    show (if ('<' :: p').isPrefixOf (c :: (s' ++ t)) then 1 else 0) +
      countSubstr ('<' :: p') (s' ++ t) = countSubstr ('<' :: p') t
    rw [show ('<' :: p').isPrefixOf (c :: (s' ++ t)) =
        ('<' == c && p'.isPrefixOf (s' ++ t)) from rfl]
    have hcc : ('<' == c) = false := by
      cases h2 : decide ('<' = c) with
      | true => simp at h2; rw [h2] at hc; simp at hc
      | false => simp at h2; simpa using h2
    rw [hcc]
    simpa using ih t hs'

theorem isPrefixOf_nl_sep :
    ∀ (p : Str), p.all (fun c => !(c == '\n')) = true →
      ∀ (a b : Str), p.isPrefixOf (a ++ '\n' :: b) = p.isPrefixOf a := by
  intro p
  induction p with
  | nil => intro _ a b; rw [nil_isPrefixOf, nil_isPrefixOf]
  | cons q p' ih =>
    intro hnl a b
    have hq : (q == '\n') = false := by
      simpa using List.all_eq_true.mp hnl q (by simp)
    have hnl' : p'.all (fun c => !(c == '\n')) = true := by
      simp only [List.all_cons, Bool.and_eq_true] at hnl
      exact hnl.2
    cases a with
    | nil =>
      show (q == '\n' && p'.isPrefixOf b) = (q :: p').isPrefixOf []
      rw [hq]
      rfl
    | cons c a' =>
      rw [List.cons_append,
        show (q :: p').isPrefixOf (c :: (a' ++ '\n' :: b)) =
          (q == c && p'.isPrefixOf (a' ++ '\n' :: b)) from rfl,
        show (q :: p').isPrefixOf (c :: a') = (q == c && p'.isPrefixOf a') from rfl,
        ih hnl' a' b]

theorem countSubstr_newline_sep {q : Char} {p' : Str}
    (hnl : (q :: p').all (fun c => !(c == '\n')) = true) :
    ∀ (a b : Str),
      countSubstr (q :: p') (a ++ '\n' :: b) = countSubstr (q :: p') a + countSubstr (q :: p') b := by
  intro a
  induction a with
  | nil =>
    intro b
    show (if (q :: p').isPrefixOf ('\n' :: b) then 1 else 0) + countSubstr (q :: p') b =
      countSubstr (q :: p') [] + countSubstr (q :: p') b
    have h1 : (q :: p').isPrefixOf ('\n' :: b) = (q :: p').isPrefixOf [] := by
      have := isPrefixOf_nl_sep (q :: p') hnl [] b
      simpa using this
    rw [h1]
    rfl
  | cons c a' ih =>
    intro b
    show (if (q :: p').isPrefixOf (c :: (a' ++ '\n' :: b)) then 1 else 0) +
        countSubstr (q :: p') (a' ++ '\n' :: b) =
      ((if (q :: p').isPrefixOf (c :: a') then 1 else 0) + countSubstr (q :: p') a') +
        countSubstr (q :: p') b
    rw [show (q :: p').isPrefixOf (c :: (a' ++ '\n' :: b)) =
        (q :: p').isPrefixOf (c :: a') from by
      have := isPrefixOf_nl_sep (q :: p') hnl (c :: a') b
      simpa using this]
    rw [ih b]
    omega

theorem countSubstr_joinLines {q : Char} {p' : Str}
    (hnl : (q :: p').all (fun c => !(c == '\n')) = true) :
    ∀ (parts : List Str),
      countSubstr (q :: p') (pyJoin ['\n'] parts) =
        (parts.map (countSubstr (q :: p'))).sum := by
  intro parts
  induction parts with
  | nil => rfl
  | cons x xs ih =>
    cases xs with
    | nil => simp [pyJoin]
    | cons y ys =>
      show countSubstr (q :: p') (x ++ ['\n'] ++ pyJoin ['\n'] (y :: ys)) = _
      rw [List.append_assoc,
        show (['\n'] ++ pyJoin ['\n'] (y :: ys)) = '\n' :: pyJoin ['\n'] (y :: ys) from rfl,
        countSubstr_newline_sep hnl, ih]
      simp

theorem countSubstr_lit_mid_lit {p' : Str} {lit1 mid lit2 : Str}
    (h1 : tailFreeOK ('<' :: p') lit1 = true) (h2 : noLt mid = true) :
    countSubstr ('<' :: p') (lit1 ++ mid ++ lit2) =
      countSubstr ('<' :: p') lit1 + countSubstr ('<' :: p') lit2 := by
  rw [List.append_assoc, countSubstr_append_of_tailFree _ _ h1,
    countSubstr_lt_head_skip mid lit2 h2]

theorem noLt_append {a b : Str} (ha : noLt a = true) (hb : noLt b = true) :
    noLt (a ++ b) = true := by
  simp only [noLt, List.all_append, Bool.and_eq_true]
  exact ⟨ha, hb⟩

theorem noLt_pyJoin {sep : Str} (hsep : noLt sep = true) :
    ∀ {xs : List Str}, (∀ x ∈ xs, noLt x = true) → noLt (pyJoin sep xs) = true := by
  intro xs
  induction xs with
  | nil => intro _; rfl
  | cons x ys ih =>
    intro hall
    cases ys with
    | nil => exact hall x (by simp)
    | cons y ys' =>
      show noLt (x ++ sep ++ pyJoin sep (y :: ys')) = true
      exact noLt_append (noLt_append (hall x (by simp)) hsep)
        (ih (fun z hz => hall z (by simp [hz])))

theorem noLt_of_of_all {xs : List Str} (h : xs.all noLt = true) :
    ∀ x ∈ xs, noLt x = true := by
  intro x hx
  exact List.all_eq_true.mp h x hx

theorem mem_insertSorted {x y : Recipe} :
    ∀ {l : List Recipe}, x ∈ insertSorted y l → x = y ∨ x ∈ l := by
  intro l
  induction l with
  | nil =>
    intro h
    rw [show insertSorted y [] = [y] from rfl] at h
    exact Or.inl (by simpa using h)
  | cons z zs ih =>
    intro h
    by_cases hle : titleKeyLe y z = true
    · rw [show insertSorted y (z :: zs) = y :: z :: zs from by
        simp [insertSorted, hle]] at h
      rcases List.mem_cons.mp h with rfl | h
      · exact Or.inl rfl
      · exact Or.inr h
    · rw [show insertSorted y (z :: zs) = z :: insertSorted y zs from by
        simp [insertSorted, hle]] at h
      rcases List.mem_cons.mp h with rfl | h
      · exact Or.inr (by simp)
      · rcases ih h with h1 | h1
        · exact Or.inl h1
        · exact Or.inr (by simp [h1])

theorem mem_sortedRecipes {x : Recipe} :
    ∀ {rs : List Recipe}, x ∈ sortedRecipes rs → x ∈ rs := by
  intro rs
  induction rs with
  | nil => intro h; simp [sortedRecipes] at h
  | cons r rs ih =>
    intro h
    rcases mem_insertSorted (show x ∈ insertSorted r (sortedRecipes rs) from h) with h1 | h1
    · simp [h1]
    · simp [ih h1]

theorem recipesLtFree_sorted {rs : List Recipe} (h : recipesLtFree rs = true) :
    recipesLtFree (sortedRecipes rs) = true := by
  simp only [recipesLtFree, List.all_eq_true] at h ⊢
  intro r hr
  exact h r (mem_sortedRecipes hr)

theorem pyUpperChar_ne_lt {c : Char} (hc : ¬ c = '<') : ¬ pyUpperChar c = '<' := by
  unfold pyUpperChar
  split
  all_goals first | decide | exact hc

theorem noLt_firstLetter {r : Recipe} (h : noLt r.title = true) :
    noLt (firstLetterStr r) = true := by
  unfold firstLetterStr
  cases ht : r.title with
  | nil => decide
  | cons c t =>
    rw [ht] at h
    have hc : (!(c == '<')) = true := List.all_eq_true.mp h c (by simp)
    have hc2 : ¬ c = '<' := by simpa using hc
    show ([pyUpperChar c].all (fun x => !(x == '<'))) = true
    simp only [List.all_cons, List.all_nil, Bool.and_true]
    simpa using pyUpperChar_ne_lt hc2

theorem digitCh_ne_lt (m : Nat) : ¬ digitCh m = '<' := by
  unfold digitCh
  split
  · decide
  · split
    · decide
    · split
      · decide
      · split
        · decide
        · split
          · decide
          · split
            · decide
            · split
              · decide
              · split
                · decide
                · split
                  · decide
                  · decide

theorem noLt_natToCharsF : ∀ (fuel n : Nat), noLt (natToCharsF fuel n) = true := by
  intro fuel
  induction fuel with
  | zero => intro n; rfl
  | succ fuel ih =>
    intro n
    show noLt (if n < 10 then [digitCh n]
      else natToCharsF fuel (n / 10) ++ [digitCh (n % 10)]) = true
    by_cases h : n < 10
    · rw [if_pos h]
      show ([digitCh n].all (fun x => !(x == '<'))) = true
      simp only [List.all_cons, List.all_nil, Bool.and_true]
      simpa using digitCh_ne_lt n
    · rw [if_neg h]
      refine noLt_append (ih (n / 10)) ?_
      show ([digitCh (n % 10)].all (fun x => !(x == '<'))) = true
      simp only [List.all_cons, List.all_nil, Bool.and_true]
      simpa using digitCh_ne_lt (n % 10)

theorem noLt_natToChars (n : Nat) : noLt (natToChars n) = true :=
  noLt_natToCharsF (n + 1) n

theorem tocLoop_cons (cur : Str) (r : Recipe) (rs : List Recipe) :
    tocLoop cur (r :: rs) =
      (if firstLetterStr r ≠ cur then
        (if cur ≠ [] then [str "</div>"] else []) ++
          [str "<h2>" ++ firstLetterStr r ++ str "</h2>"]
       else []) ++
      tocEntryParts r ++
      tocLoop (if firstLetterStr r ≠ cur then firstLetterStr r else cur) rs := rfl

theorem tocMetaParts_noLt {r : Recipe} (hc : r.categories.all noLt = true)
    (hp : noLt r.prep_time = true) (hk : noLt r.cook_time = true) :
    noLt (pyJoin (str " • ") (tocMetaParts r)) = true := by
  refine noLt_pyJoin (by decide) ?_
  intro x hx
  unfold tocMetaParts at hx
  rcases List.mem_append.mp hx with hx | hx
  · rcases List.mem_append.mp hx with hx | hx
    · obtain ⟨_, hx⟩ := mem_of_ite_nil hx
      rcases List.mem_cons.mp hx with rfl | hx
      · exact noLt_append (by decide) (noLt_pyJoin (by decide) (noLt_of_of_all hc))
      · cases hx
    · obtain ⟨_, hx⟩ := mem_of_ite_nil hx
      rcases List.mem_cons.mp hx with rfl | hx
      · exact noLt_append (by decide) hp
      · cases hx
  · obtain ⟨_, hx⟩ := mem_of_ite_nil hx
    rcases List.mem_cons.mp hx with rfl | hx
    · exact noLt_append (by decide) hk
    · cases hx

theorem tocEntryParts_counts (r : Recipe) (hf : recipeLtFree r = true) :
    ((tocEntryParts r).map (countSubstr ('<' :: str "/div>"))).sum =
      ((tocEntryParts r).map (countSubstr ('<' :: str "div"))).sum := by
  have hf' := hf
  simp only [recipeLtFree, Bool.and_eq_true] at hf'
  obtain ⟨⟨⟨ht, hc⟩, hp⟩, hk⟩ := hf'
  have hmeta := tocMetaParts_noLt hc hp hk
  have etC : countSubstr ('<' :: str "/div>")
      (str "<div class=\"recipe-title\">" ++ escapeHtml r.title ++ str "</div>") = 1 := by
    rw [countSubstr_lit_mid_lit (by decide) (noLt_escapeHtml r.title)]
    decide
  have etO : countSubstr ('<' :: str "div")
      (str "<div class=\"recipe-title\">" ++ escapeHtml r.title ++ str "</div>") = 1 := by
    rw [countSubstr_lit_mid_lit (by decide) (noLt_escapeHtml r.title)]
    decide
  have emC : countSubstr ('<' :: str "/div>")
      (str "<div class=\"recipe-meta\">" ++ pyJoin (str " • ") (tocMetaParts r) ++
        str "</div>") = 1 := by
    rw [countSubstr_lit_mid_lit (by decide) hmeta]
    decide
  have emO : countSubstr ('<' :: str "div")
      (str "<div class=\"recipe-meta\">" ++ pyJoin (str " • ") (tocMetaParts r) ++
        str "</div>") = 1 := by
    rw [countSubstr_lit_mid_lit (by decide) hmeta]
    decide
  unfold tocEntryParts
  by_cases hm : tocMetaParts r ≠ []
  · rw [if_pos hm]
    simp only [List.map_append, List.sum_append, List.map_cons, List.map_nil,
      List.sum_cons, List.sum_nil]
    rw [etC, etO, emC, emO]
    decide
  · rw [if_neg hm]
    simp only [List.map_append, List.sum_append, List.map_cons, List.map_nil,
      List.sum_cons, List.sum_nil]
    rw [etC, etO]
    decide

theorem tocLoop_counts :
    ∀ (rs : List Recipe) (cur : Str), recipesLtFree rs = true →
      ((tocLoop cur rs).map (countSubstr ('<' :: str "/div>"))).sum =
        ((tocLoop cur rs).map (countSubstr ('<' :: str "div"))).sum +
          tocTransitions cur rs := by
  intro rs
  induction rs with
  | nil => intro cur _; rfl
  | cons r rs ih =>
    intro cur hfree
    have hfree' := hfree
    simp only [recipesLtFree, List.all_cons, Bool.and_eq_true] at hfree'
    obtain ⟨hr, hrs⟩ := hfree'
    have htitle : noLt r.title = true := by
      have hr' := hr
      simp only [recipeLtFree, Bool.and_eq_true] at hr'
      exact hr'.1.1.1
    have hent := tocEntryParts_counts r hr
    have hh2C : countSubstr ('<' :: str "/div>")
        (str "<h2>" ++ firstLetterStr r ++ str "</h2>") = 0 := by
      rw [countSubstr_lit_mid_lit (by decide) (noLt_firstLetter htitle)]
      decide
    have hh2O : countSubstr ('<' :: str "div")
        (str "<h2>" ++ firstLetterStr r ++ str "</h2>") = 0 := by
      rw [countSubstr_lit_mid_lit (by decide) (noLt_firstLetter htitle)]
      decide
    rw [tocLoop_cons]
    show _ = _ + tocTransitions cur (r :: rs)
    rw [show tocTransitions cur (r :: rs) =
        (if firstLetterStr r ≠ cur then
          (if cur ≠ [] then 1 else 0) + tocTransitions (firstLetterStr r) rs
         else tocTransitions cur rs) from rfl]
    by_cases hfl : firstLetterStr r ≠ cur
    · simp only [if_pos hfl]
      by_cases hcur : cur ≠ []
      · simp only [if_pos hcur]
        simp only [List.map_append, List.sum_append, List.map_cons, List.map_nil,
          List.sum_cons, List.sum_nil]
        rw [hh2C, hh2O, hent, ih _ hrs]
        have e1 : countSubstr ('<' :: str "/div>") (str "</div>") = 1 := by decide
        have e2 : countSubstr ('<' :: str "div") (str "</div>") = 0 := by decide
        rw [e1, e2]
        omega
      · simp only [if_neg hcur]
        simp only [List.map_append, List.sum_append, List.map_cons, List.map_nil,
          List.sum_cons, List.sum_nil]
        rw [hh2C, hh2O, hent, ih _ hrs]
        omega
    · simp only [if_neg hfl]
      simp only [List.map_append, List.sum_append, List.map_cons, List.map_nil,
        List.sum_cons, List.sum_nil]
      rw [hent, ih _ hrs]
      omega

theorem firstLetterStr_ne_nil (r : Recipe) : firstLetterStr r ≠ [] := by
  unfold firstLetterStr
  cases r.title <;> simp [str]

theorem tocTransitions_eq_groupsGo :
    ∀ (rs : List Recipe) (cur : Str), cur ≠ [] →
      tocTransitions cur rs = groupsGo cur rs := by
  intro rs
  induction rs with
  | nil => intro cur _; rfl
  | cons r rs ih =>
    intro cur hcur
    show (if firstLetterStr r ≠ cur then
        (if cur ≠ [] then 1 else 0) + tocTransitions (firstLetterStr r) rs
      else tocTransitions cur rs) =
      (if firstLetterStr r ≠ cur then 1 + groupsGo (firstLetterStr r) rs
       else groupsGo cur rs)
    by_cases hfl : firstLetterStr r ≠ cur
    · rw [if_pos hfl, if_pos hfl, if_pos hcur, ih _ (firstLetterStr_ne_nil r)]
    · rw [if_neg hfl, if_neg hfl, ih _ hcur]

theorem tocTransitions_nil_eq (r : Recipe) (rs : List Recipe) :
    tocTransitions [] (r :: rs) + 1 = groupsGo [] (r :: rs) := by
  have hfl : firstLetterStr r ≠ [] := firstLetterStr_ne_nil r
  show (if firstLetterStr r ≠ [] then
      (if ([] : Str) ≠ [] then 1 else 0) + tocTransitions (firstLetterStr r) rs
    else tocTransitions [] rs) + 1 =
    (if firstLetterStr r ≠ [] then 1 + groupsGo (firstLetterStr r) rs
     else groupsGo [] rs)
  rw [if_pos hfl, if_pos hfl, if_neg (show ¬([] : Str) ≠ [] from fun h => h rfl),
    tocTransitions_eq_groupsGo rs _ hfl]
  omega

theorem tocParts_eq (rs : List Recipe) :
    tocParts rs =
      tocHeadParts ++
      [str "<div class=\"stats\">",
       str "<p><strong>Total Recipes:</strong> " ++
         natToChars (sortedRecipes rs).length ++ str "</p>",
       str "<p><strong>Categories:</strong> " ++
         natToChars (((sortedRecipes rs).flatMap (fun r => r.categories)).dedup).length ++
         str "</p>",
       str "</div>",
       str "<div class=\"recipe-list\">"] ++
      tocLoop [] (sortedRecipes rs) ++
      [str "</div>", str "</body></html>"] := rfl

/-- C9 (amended): when every record's title, categories, prep and cook fields
are free of raw `<` (satisfied by escaped/typical cleaned fields, but not
guaranteed by the converter since the meta line is interpolated unescaped),
and the sorted titles span at least two letter groups, the summary document
contains exactly `numLetterGroups − 1` more `</div>` occurrences than `<div`
occurrences: each letter-group transition emits a closing div with no matching
opening div. -/
theorem c9_amended_div_imbalance (rs : List Recipe)
    (hfree : recipesLtFree rs = true) (hg : 2 ≤ numLetterGroups rs) :
    countSubstr ('<' :: str "/div>") (tocHtml rs) =
      countSubstr ('<' :: str "div") (tocHtml rs) + (numLetterGroups rs - 1) := by
  obtain ⟨r0, rest, hsort⟩ : ∃ r0 rest, sortedRecipes rs = r0 :: rest := by
    cases hs : sortedRecipes rs with
    | nil =>
      exfalso
      have h0 : numLetterGroups rs = 0 := by
        unfold numLetterGroups
        rw [hs]
        rfl
      omega
    | cons a l => exact ⟨a, l, rfl⟩
  have hloop := tocLoop_counts (sortedRecipes rs) [] (recipesLtFree_sorted hfree)
  have htr : tocTransitions [] (sortedRecipes rs) + 1 = numLetterGroups rs := by
    unfold numLetterGroups
    rw [hsort]
    rw [← hsort]
    rw [hsort]
    exact tocTransitions_nil_eq r0 rest
  unfold tocHtml
  rw [show (str "\n") = ['\n'] from rfl, countSubstr_joinLines (by decide),
    countSubstr_joinLines (by decide), tocParts_eq]
  have hheadC : (tocHeadParts.map (countSubstr ('<' :: str "/div>"))).sum = 0 := by decide
  have hheadO : (tocHeadParts.map (countSubstr ('<' :: str "div"))).sum = 0 := by decide
  have etotC : countSubstr ('<' :: str "/div>")
      (str "<p><strong>Total Recipes:</strong> " ++
        natToChars (sortedRecipes rs).length ++ str "</p>") = 0 := by
    rw [countSubstr_lit_mid_lit (by decide) (noLt_natToChars _)]
    decide
  have etotO : countSubstr ('<' :: str "div")
      (str "<p><strong>Total Recipes:</strong> " ++
        natToChars (sortedRecipes rs).length ++ str "</p>") = 0 := by
    rw [countSubstr_lit_mid_lit (by decide) (noLt_natToChars _)]
    decide
  have ecatC : countSubstr ('<' :: str "/div>")
      (str "<p><strong>Categories:</strong> " ++
        natToChars (((sortedRecipes rs).flatMap (fun r => r.categories)).dedup).length ++
        str "</p>") = 0 := by
    rw [countSubstr_lit_mid_lit (by decide) (noLt_natToChars _)]
    decide
  have ecatO : countSubstr ('<' :: str "div")
      (str "<p><strong>Categories:</strong> " ++
        natToChars (((sortedRecipes rs).flatMap (fun r => r.categories)).dedup).length ++
        str "</p>") = 0 := by
    rw [countSubstr_lit_mid_lit (by decide) (noLt_natToChars _)]
    decide
  simp only [List.map_append, List.sum_append, List.map_cons, List.map_nil,
    List.sum_cons, List.sum_nil]
  rw [hheadC, hheadO, etotC, etotO, ecatC, ecatO, hloop]
  have s1C : countSubstr ('<' :: str "/div>") (str "<div class=\"stats\">") = 0 := by decide
  have s1O : countSubstr ('<' :: str "div") (str "<div class=\"stats\">") = 1 := by decide
  have s4C : countSubstr ('<' :: str "/div>") (str "</div>") = 1 := by decide
  have s4O : countSubstr ('<' :: str "div") (str "</div>") = 0 := by decide
  have s5C : countSubstr ('<' :: str "/div>") (str "<div class=\"recipe-list\">") = 0 := by
    decide
  have s5O : countSubstr ('<' :: str "div") (str "<div class=\"recipe-list\">") = 1 := by
    decide
  have s7C : countSubstr ('<' :: str "/div>") (str "</body></html>") = 0 := by decide
  have s7O : countSubstr ('<' :: str "div") (str "</body></html>") = 0 := by decide
  rw [s1C, s1O, s4C, s4O, s5C, s5O, s7C, s7O]
  omega

/-- C9 counterexample: the claim fails as stated for runs whose records carry
a raw `</div>` in a field the meta line interpolates unescaped — here the
excess of closing tags is `numLetterGroups`, not `numLetterGroups − 1`. -/
theorem c9_counterexample :
    2 ≤ numLetterGroups c9bad ∧
    countSubstr ('<' :: str "/div>") (tocHtml c9bad) ≠
      countSubstr ('<' :: str "div") (tocHtml c9bad) + (numLetterGroups c9bad - 1) := by
  constructor
  · decide
  · decide

theorem c9_amended_div_imbalance_witness :
    recipesLtFree c9ok = true ∧ 2 ≤ numLetterGroups c9ok ∧
    countSubstr ('<' :: str "/div>") (tocHtml c9ok) =
      countSubstr ('<' :: str "div") (tocHtml c9ok) + (numLetterGroups c9ok - 1) :=
  ⟨by decide, by decide, c9_amended_div_imbalance c9ok (by decide) (by decide)⟩

theorem isDigit_not_ws {c : Char} (h : c.isDigit = true) : isPyWs c = false := by
  by_contra hws
  rw [Bool.not_eq_false] at hws
  simp only [isPyWs, Bool.or_eq_true, beq_iff_eq] at hws
  rcases hws with ((((((rfl | rfl) | rfl) | rfl) | rfl) | rfl) | rfl) <;>
    exact absurd h (by decide)

theorem noWsRun_of_all_nonws {s : Str} (h : s.all (fun c => !isPyWs c) = true) :
    noWsRun s = true := by
  induction s with
  | nil => rfl
  | cons c t ih =>
    rw [List.all_cons, Bool.and_eq_true] at h
    cases t with
    | nil => rfl
    | cons d t' =>
      show (!(isPyWs c && isPyWs d) && noWsRun (d :: t')) = true
      rw [ih h.2, show isPyWs c = false from by simpa using h.1]
      rfl

theorem getLast?_cons_cons (x z : Char) (t : Str) :
    (x :: z :: t).getLast? = (z :: t).getLast? := rfl

theorem getLast?_mem : ∀ {l : Str} {x : Char}, l.getLast? = some x → x ∈ l := by
  intro l
  induction l with
  | nil => intro x hx; cases hx
  | cons c t ih =>
    intro x hx
    cases t with
    | nil =>
      have : c = x := by simpa using hx
      simp [this]
    | cons d t' =>
      rw [getLast?_cons_cons] at hx
      simp [ih hx]

theorem getLast?_append_right {a b : Str} (hb : b ≠ []) :
    (a ++ b).getLast? = b.getLast? := by
  induction a with
  | nil => rfl
  | cons x a' ih =>
    cases hab : a' ++ b with
    | nil => exact absurd (List.append_eq_nil.mp hab).2 hb
    | cons y t =>
      show (x :: (a' ++ b)).getLast? = b.getLast?
      rw [hab, getLast?_cons_cons, ← hab, ih]

theorem noWsRun_append_of : ∀ (a b : Str), noWsRun a = true → noWsRun b = true →
    (∀ x y, a.getLast? = some x → b.head? = some y → (isPyWs x && isPyWs y) = false) →
    noWsRun (a ++ b) = true := by
  intro a
  induction a with
  | nil => intro b _ hb _; exact hb
  | cons x a' ih =>
    intro b ha hb hok
    cases a' with
    | nil =>
      cases b with
      | nil => rfl
      | cons y b' =>
        show (!(isPyWs x && isPyWs y) && noWsRun (y :: b')) = true
        rw [hok x y rfl rfl, hb]
        rfl
    | cons z a'' =>
      have hpair : (!(isPyWs x && isPyWs z)) = true ∧ noWsRun (z :: a'') = true := by
        simpa using (show (!(isPyWs x && isPyWs z) && noWsRun (z :: a'')) = true from ha)
      have hrec : noWsRun ((z :: a'') ++ b) = true :=
        ih b hpair.2 hb (fun p q hp hq => hok p q (by
          rw [getLast?_cons_cons x z a'']; exact hp) hq)
      show (!(isPyWs x && isPyWs z) && noWsRun ((z :: a'') ++ b)) = true
      rw [hrec, hpair.1]
      rfl

theorem noWsRun_takeWhile {s : Str} (h : noWsRun s = true) (p : Char → Bool) :
    noWsRun (s.takeWhile p) = true :=
  noWsRun_append_left (b := s.dropWhile p)
    (by rw [List.takeWhile_append_dropWhile]; exact h)

theorem pyStripRight_prefix (u : Str) : ∃ w, u = pyStripRight u ++ w := by
  refine ⟨(u.reverse.takeWhile isPyWs).reverse, ?_⟩
  unfold pyStripRight
  conv_lhs => rw [← List.reverse_reverse u]
  rw [← List.reverse_append, List.takeWhile_append_dropWhile]

theorem pyStrip_head?_nonws {s : Str} {x : Char} (h : (pyStrip s).head? = some x) :
    isPyWs x = false := by
  obtain ⟨w, hw⟩ := pyStripRight_prefix (pyStripLeft s)
  have hps : pyStrip s = pyStripRight (pyStripLeft s) := rfl
  cases hp : pyStrip s with
  | nil => rw [hp] at h; cases h
  | cons c t =>
    rw [hp] at h
    have hcx : c = x := by simpa using h
    subst hcx
    have hleft : pyStripLeft s = c :: (t ++ w) := by
      rw [hw, ← hps, hp]
      simp
    have := dropWhile_head_not (p := isPyWs) s c (t ++ w) hleft
    exact this

theorem head?_reverse_eq_getLast? : ∀ (l : Str), l.reverse.getLast? = l.head? := by
  intro l
  cases l with
  | nil => rfl
  | cons c t =>
    rw [List.reverse_cons, getLast?_append_right (by simp)]
    rfl

theorem pyStrip_getLast?_nonws {s : Str} {x : Char} (h : (pyStrip s).getLast? = some x) :
    isPyWs x = false := by
  have hps : pyStrip s = ((pyStripLeft s).reverse.dropWhile isPyWs).reverse := rfl
  rw [hps, head?_reverse_eq_getLast?] at h
  cases hd : (pyStripLeft s).reverse.dropWhile isPyWs with
  | nil => rw [hd] at h; cases h
  | cons c t =>
    rw [hd] at h
    have hcx : c = x := by simpa using h
    subst hcx
    exact dropWhile_head_not (p := isPyWs) _ c t hd

theorem RepOK_lit (l : Str) (hne : l ≠ []) (hws : l.all (fun c => !isPyWs c) = true) :
    RepOK l := by
  refine ⟨hne, noWsRun_of_all_nonws hws, ?_, ?_⟩
  · intro x hx
    cases l with
    | nil => cases hx
    | cons c t =>
      have hcx : c = x := by simpa using hx
      subst hcx
      simpa using List.all_eq_true.mp hws c (by simp)
  · intro x hx
    simpa using List.all_eq_true.mp hws x (getLast?_mem hx)

theorem RepOK_digits_lit (ds lit : Str) (hds : ds ≠ [])
    (hall : ds.all Char.isDigit = true) (hlitne : lit ≠ [])
    (hlit : noWsRun lit = true)
    (hlast : ∀ x, lit.getLast? = some x → isPyWs x = false) :
    RepOK (ds ++ lit) := by
  have hdsws : ds.all (fun c => !isPyWs c) = true :=
    List.all_eq_true.mpr (fun c hc => by
      simpa using isDigit_not_ws (List.all_eq_true.mp hall c hc))
  refine ⟨by simp [hds], ?_, ?_, ?_⟩
  · refine noWsRun_append_of ds lit (noWsRun_of_all_nonws hdsws) hlit ?_
    intro x y hx _
    rw [show isPyWs x = false from by
      simpa using List.all_eq_true.mp hdsws x (getLast?_mem hx)]
    rfl
  · intro x hx
    cases ds with
    | nil => exact absurd rfl hds
    | cons c t =>
      have hcx : c = x := by simpa using hx
      subst hcx
      simpa using List.all_eq_true.mp hdsws c (by simp)
  · intro x hx
    rw [getLast?_append_right hlitne] at hx
    exact hlast x hx

theorem minutes_getLast_nonws :
    ∀ x, (str " minutes").getLast? = some x → isPyWs x = false := by
  intro x hx
  rw [show (str " minutes").getLast? = some 's' from by decide] at hx
  have hsx : 's' = x := Option.some.inj hx
  subst hsx
  decide

theorem hours_getLast_nonws :
    ∀ x, (str " hours").getLast? = some x → isPyWs x = false := by
  intro x hx
  rw [show (str " hours").getLast? = some 's' from by decide] at hx
  have hsx : 's' = x := Option.some.inj hx
  subst hsx
  decide

theorem subScanF_nil (M : Str → Option (Nat × Str)) :
    ∀ fuel, subScanF M fuel [] = [] := by
  intro fuel
  cases fuel <;> rfl

theorem subScanF_head_nonws (M : Str → Option (Nat × Str))
    (hrep : ∀ s n rep, M s = some (n, rep) → RepOK rep) (fuel : Nat) (d : Char) (t : Str)
    (hd : isPyWs d = false) :
    subScanF M fuel (d :: t) = [] ∨
      ∃ h0 t0, subScanF M fuel (d :: t) = h0 :: t0 ∧ isPyWs h0 = false := by
  cases fuel with
  | zero => exact Or.inr ⟨d, t, rfl, hd⟩
  | succ fuel =>
    simp only [subScanF]
    cases hM : M (d :: t) with
    | some nr =>
      obtain ⟨n, rep⟩ := nr
      obtain ⟨hne, _, hhead, _⟩ := hrep _ _ _ hM
      cases hr : rep with
      | nil => exact absurd hr hne
      | cons h0 t0 =>
        exact Or.inr ⟨h0, t0 ++ subScanF M fuel ((d :: t).drop (max n 1)), by simp,
          hhead h0 (by rw [hr]; rfl)⟩
    | none => exact Or.inr ⟨d, subScanF M fuel t, rfl, hd⟩

theorem noWsRun_subScanF (M : Str → Option (Nat × Str))
    (hrep : ∀ s n rep, M s = some (n, rep) → RepOK rep) :
    ∀ (fuel : Nat) (s : Str), noWsRun s = true → noWsRun (subScanF M fuel s) = true := by
  intro fuel
  induction fuel with
  | zero => intro s hs; exact hs
  | succ fuel ih =>
    intro s hs
    cases s with
    | nil => rfl
    | cons c t =>
      simp only [subScanF]
      cases hM : M (c :: t) with
      | some nr =>
        obtain ⟨n, rep⟩ := nr
        obtain ⟨hne, hr, hhead, hlast⟩ := hrep _ _ _ hM
        refine noWsRun_append_of _ _ hr (ih _ (noWsRun_drop hs _)) ?_
        intro x y hx _
        rw [hlast x hx]
        rfl
      | none =>
        cases t with
        | nil =>
          rw [subScanF_nil]
          rfl
        | cons d t' =>
          have hpair : (!(isPyWs c && isPyWs d)) = true ∧ noWsRun (d :: t') = true := by
            simpa using (show (!(isPyWs c && isPyWs d) && noWsRun (d :: t')) = true from hs)
          have hout := ih (d :: t') hpair.2
          by_cases hc : isPyWs c = true
          · have hd : isPyWs d = false := by simpa [hc] using hpair.1
            rcases subScanF_head_nonws M hrep fuel d t' hd with hnil | ⟨h0, t0, he, hh0⟩
            · rw [hnil]
              rfl
            · rw [he]
              rw [he] at hout
              show (!(isPyWs c && isPyWs h0) && noWsRun (h0 :: t0)) = true
              rw [hout, hh0]
              simp
          · cases hsub : subScanF M fuel (d :: t') with
            | nil => rfl
            | cons h0 t0 =>
              rw [hsub] at hout
              show (!(isPyWs c && isPyWs h0) && noWsRun (h0 :: t0)) = true
              rw [hout, show isPyWs c = false from by simpa using hc]
              simp

theorem matchNumWordOptS_rep (w lit : Str) {s : Str} {n : Nat} {rep : Str}
    (h : matchNumWordOptS w (fun ds => ds ++ lit) s = some (n, rep)) :
    ∃ ds, rep = ds ++ lit ∧ ds ≠ [] ∧ ds.all Char.isDigit = true := by
  unfold matchNumWordOptS at h
  simp only [] at h
  by_cases hds : (s.takeWhile Char.isDigit).isEmpty = true
  · rw [if_pos hds] at h
    exact Option.noConfusion h
  · rw [if_neg hds] at h
    refine ⟨s.takeWhile Char.isDigit, ?_,
      fun he => hds (by simp [he]),
      List.all_eq_true.mpr (fun c hc => List.mem_takeWhile_imp hc)⟩
    repeat' split at h
    all_goals first
      | exact Option.noConfusion h
      | exact (congrArg Prod.snd (Option.some.inj h)).symm

theorem matchNumWordFix_rep (w lit : Str) {s : Str} {n : Nat} {rep : Str}
    (h : matchNumWordFix w (fun ds => ds ++ lit) s = some (n, rep)) :
    ∃ ds, rep = ds ++ lit ∧ ds ≠ [] ∧ ds.all Char.isDigit = true := by
  unfold matchNumWordFix at h
  simp only [] at h
  by_cases hds : (s.takeWhile Char.isDigit).isEmpty = true
  · rw [if_pos hds] at h
    exact Option.noConfusion h
  · rw [if_neg hds] at h
    refine ⟨s.takeWhile Char.isDigit, ?_,
      fun he => hds (by simp [he]),
      List.all_eq_true.mpr (fun c hc => List.mem_takeWhile_imp hc)⟩
    repeat' split at h
    all_goals first
      | exact Option.noConfusion h
      | exact (congrArg Prod.snd (Option.some.inj h)).symm

theorem RepOK_hm (d1 d2 : Str) (h1 : d1 ≠ []) (h2 : d2 ≠ [])
    (ha1 : d1.all Char.isDigit = true) (ha2 : d2.all Char.isDigit = true) :
    RepOK (d1 ++ str " hours " ++ d2 ++ str " minutes") := by
  have hd1ws : d1.all (fun c => !isPyWs c) = true :=
    List.all_eq_true.mpr (fun c hc => by
      simpa using isDigit_not_ws (List.all_eq_true.mp ha1 c hc))
  have hd2ws : d2.all (fun c => !isPyWs c) = true :=
    List.all_eq_true.mpr (fun c hc => by
      simpa using isDigit_not_ws (List.all_eq_true.mp ha2 c hc))
  have hA1 : noWsRun (d1 ++ str " hours ") = true := by
    refine noWsRun_append_of _ _ (noWsRun_of_all_nonws hd1ws) (by decide) ?_
    intro x y hx _
    rw [show isPyWs x = false from by
      simpa using List.all_eq_true.mp hd1ws x (getLast?_mem hx)]
    rfl
  have hA2 : noWsRun (d1 ++ str " hours " ++ d2) = true := by
    refine noWsRun_append_of _ _ hA1 (noWsRun_of_all_nonws hd2ws) ?_
    intro x y _ hy
    rw [show isPyWs y = false from by
      simpa using List.all_eq_true.mp hd2ws y (by
        cases d2 with
        | nil => cases hy
        | cons c t =>
          have hcy : c = y := by simpa using hy
          subst hcy
          simp)]
    simp
  refine ⟨by simp only [ne_eq, List.append_eq_nil]; intro hq; exact absurd hq.2 (by decide),
    ?_, ?_, ?_⟩
  · refine noWsRun_append_of _ _ hA2 (by decide) ?_
    intro x y hx _
    rw [getLast?_append_right h2] at hx
    rw [show isPyWs x = false from by
      simpa using List.all_eq_true.mp hd2ws x (getLast?_mem hx)]
    rfl
  · intro x hx
    cases hd : d1 with
    | nil => exact absurd hd h1
    | cons c t =>
      rw [hd] at hx
      have hcx : c = x := by simpa using hx
      subst hcx
      simpa using List.all_eq_true.mp hd1ws c (by rw [hd]; simp)
  · intro x hx
    rw [getLast?_append_right (by decide)] at hx
    exact minutes_getLast_nonws x hx

theorem matchHM_RepOK {s : Str} {n : Nat} {rep : Str}
    (h : matchHM s = some (n, rep)) : RepOK rep := by
  unfold matchHM at h
  simp only [] at h
  by_cases hd1 : (s.takeWhile Char.isDigit).isEmpty = true
  · rw [if_pos hd1] at h
    exact Option.noConfusion h
  · rw [if_neg hd1] at h
    have ha1 : (s.takeWhile Char.isDigit).all Char.isDigit = true :=
      List.all_eq_true.mpr (fun c hc => List.mem_takeWhile_imp hc)
    have hne1 : s.takeWhile Char.isDigit ≠ [] := fun he => hd1 (by simp [he])
    split at h
    · rename_i c t3 heq
      split at h
      · by_cases hd2 : (((t3.drop (t3.takeWhile isPyWs).length).takeWhile
            Char.isDigit)).isEmpty = true
        · rw [if_pos hd2] at h
          exact Option.noConfusion h
        · rw [if_neg hd2] at h
          have ha2 : ((t3.drop (t3.takeWhile isPyWs).length).takeWhile
              Char.isDigit).all Char.isDigit = true :=
            List.all_eq_true.mpr (fun cc hc => List.mem_takeWhile_imp hc)
          have hne2 : (t3.drop (t3.takeWhile isPyWs).length).takeWhile
              Char.isDigit ≠ [] := fun he => hd2 (by simp [he])
          split at h
          · rename_i m t7 heq2
            split at h
            · have hrep : rep = s.takeWhile Char.isDigit ++ str " hours " ++
                  (t3.drop (t3.takeWhile isPyWs).length).takeWhile Char.isDigit ++
                  str " minutes" := (congrArg Prod.snd (Option.some.inj h)).symm
              rw [hrep]
              exact RepOK_hm _ _ hne1 hne2 ha1 ha2
            · exact Option.noConfusion h
          · exact Option.noConfusion h
      · exact Option.noConfusion h
    · exact Option.noConfusion h

theorem noWsRun_subScan (M : Str → Option (Nat × Str))
    (hrep : ∀ s n rep, M s = some (n, rep) → RepOK rep) (s : Str)
    (hs : noWsRun s = true) : noWsRun (subScan M s) = true :=
  noWsRun_subScanF M hrep s.length s hs

theorem noWsRun_cleanTime (t0 : Str) : noWsRun (cleanTime t0) = true := by
  unfold cleanTime
  simp only []
  by_cases ht : cleanText t0 = []
  · rw [if_pos ht]
    rfl
  · rw [if_neg ht]
    refine noWsRun_subScan _ ?_ _ (noWsRun_subScan _ ?_ _ (noWsRun_subScan _ ?_ _
      (noWsRun_subScan _ ?_ _ (noWsRun_subScan _ ?_ _ (noWsRun_cleanText t0)))))
    · intro s n rep h
      obtain ⟨ds, rfl, hne, hall⟩ := matchNumWordFix_rep _ _ h
      exact RepOK_digits_lit ds _ hne hall (by decide) (by decide) hours_getLast_nonws
    · intro s n rep h
      obtain ⟨ds, rfl, hne, hall⟩ := matchNumWordFix_rep _ _ h
      exact RepOK_digits_lit ds _ hne hall (by decide) (by decide) minutes_getLast_nonws
    · intro s n rep h
      exact matchHM_RepOK h
    · intro s n rep h
      obtain ⟨ds, rfl, hne, hall⟩ := matchNumWordOptS_rep _ _ h
      exact RepOK_digits_lit ds _ hne hall (by decide) (by decide) hours_getLast_nonws
    · intro s n rep h
      obtain ⟨ds, rfl, hne, hall⟩ := matchNumWordOptS_rep _ _ h
      exact RepOK_digits_lit ds _ hne hall (by decide) (by decide) minutes_getLast_nonws

theorem pyReplaceChar_head_nonws (c : Char) (rep : Str)
    (hhead : ∀ x, rep.head? = some x → isPyWs x = false) (hne : rep ≠ [])
    (d : Char) (t : Str) (hd : isPyWs d = false) :
    pyReplaceChar c rep (d :: t) = [] ∨
      ∃ h0 t0, pyReplaceChar c rep (d :: t) = h0 :: t0 ∧ isPyWs h0 = false := by
  have heq : pyReplaceChar c rep (d :: t) =
      (if d = c then rep else [d]) ++ pyReplaceChar c rep t := rfl
  by_cases hdc : d = c
  · rw [heq, if_pos hdc]
    cases hr : rep with
    | nil => exact absurd hr hne
    | cons h0 t0 =>
      refine Or.inr ⟨h0, t0 ++ pyReplaceChar c rep t, ?_, hhead h0 (by rw [hr]; rfl)⟩
      rw [hr]
      rfl
  · rw [heq, if_neg hdc]
    exact Or.inr ⟨d, pyReplaceChar c rep t, rfl, hd⟩

theorem noWsRun_pyReplaceChar (c : Char) (rep : Str) (hne : rep ≠ [])
    (hall : rep.all (fun x => !isPyWs x) = true) :
    ∀ (s : Str), noWsRun s = true → noWsRun (pyReplaceChar c rep s) = true := by
  have hOK : RepOK rep := RepOK_lit rep hne hall
  obtain ⟨_, hr, hhead, hlast⟩ := hOK
  intro s
  induction s with
  | nil => intro _; rfl
  | cons d t ih =>
    intro hs
    show noWsRun ((if d = c then rep else [d]) ++ pyReplaceChar c rep t) = true
    by_cases hdc : d = c
    · rw [if_pos hdc]
      refine noWsRun_append_of _ _ hr (ih (noWsRun_tail hs)) ?_
      intro x y hx _
      rw [hlast x hx]
      rfl
    · rw [if_neg hdc]
      show noWsRun (d :: pyReplaceChar c rep t) = true
      cases t with
      | nil => rfl
      | cons e t' =>
        have hpair : (!(isPyWs d && isPyWs e)) = true ∧ noWsRun (e :: t') = true := by
          simpa using (show (!(isPyWs d && isPyWs e) && noWsRun (e :: t')) = true from hs)
        have hout := ih hpair.2
        by_cases hdw : isPyWs d = true
        · have hew : isPyWs e = false := by simpa [hdw] using hpair.1
          rcases pyReplaceChar_head_nonws c rep hhead hne e t' hew with hnil | ⟨h0, t0, he, hh0⟩
          · rw [hnil]
            rfl
          · rw [he]
            rw [he] at hout
            show (!(isPyWs d && isPyWs h0) && noWsRun (h0 :: t0)) = true
            rw [hout, hh0]
            simp
        · cases hsub : pyReplaceChar c rep (e :: t') with
          | nil => rfl
          | cons h0 t0 =>
            rw [hsub] at hout
            show (!(isPyWs d && isPyWs h0) && noWsRun (h0 :: t0)) = true
            rw [hout, show isPyWs d = false from by simpa using hdw]
            simp

theorem subScanBF_nil (M : Option Char → Str → Option (Nat × Str)) :
    ∀ fuel prev, subScanBF M fuel prev [] = [] := by
  intro fuel prev
  cases fuel <;> rfl

theorem subScanBF_head_nonws (M : Option Char → Str → Option (Nat × Str))
    (hrep : ∀ prev s n rep, M prev s = some (n, rep) → RepOK rep)
    (fuel : Nat) (prev : Option Char) (d : Char) (t : Str) (hd : isPyWs d = false) :
    subScanBF M fuel prev (d :: t) = [] ∨
      ∃ h0 t0, subScanBF M fuel prev (d :: t) = h0 :: t0 ∧ isPyWs h0 = false := by
  cases fuel with
  | zero => exact Or.inr ⟨d, t, rfl, hd⟩
  | succ fuel =>
    simp only [subScanBF]
    cases hM : M prev (d :: t) with
    | some nr =>
      obtain ⟨n, rep⟩ := nr
      obtain ⟨hne, _, hhead, _⟩ := hrep _ _ _ _ hM
      cases hr : rep with
      | nil => exact absurd hr hne
      | cons h0 t0 =>
        exact Or.inr ⟨h0, t0 ++ subScanBF M fuel (((d :: t).take (max n 1)).getLast?)
          ((d :: t).drop (max n 1)), by simp, hhead h0 (by rw [hr]; rfl)⟩
    | none => exact Or.inr ⟨d, subScanBF M fuel (some d) t, rfl, hd⟩

theorem noWsRun_subScanBF (M : Option Char → Str → Option (Nat × Str))
    (hrep : ∀ prev s n rep, M prev s = some (n, rep) → RepOK rep) :
    ∀ (fuel : Nat) (prev : Option Char) (s : Str), noWsRun s = true →
      noWsRun (subScanBF M fuel prev s) = true := by
  intro fuel
  induction fuel with
  | zero => intro prev s hs; exact hs
  | succ fuel ih =>
    intro prev s hs
    cases s with
    | nil => rfl
    | cons c t =>
      simp only [subScanBF]
      cases hM : M prev (c :: t) with
      | some nr =>
        obtain ⟨n, rep⟩ := nr
        obtain ⟨hne, hr, hhead, hlast⟩ := hrep _ _ _ _ hM
        refine noWsRun_append_of _ _ hr (ih _ _ (noWsRun_drop hs _)) ?_
        intro x y hx _
        rw [hlast x hx]
        rfl
      | none =>
        cases t with
        | nil =>
          rw [subScanBF_nil]
          rfl
        | cons d t' =>
          have hpair : (!(isPyWs c && isPyWs d)) = true ∧ noWsRun (d :: t') = true := by
            simpa using (show (!(isPyWs c && isPyWs d) && noWsRun (d :: t')) = true from hs)
          have hout := ih (some c) (d :: t') hpair.2
          by_cases hc : isPyWs c = true
          · have hd : isPyWs d = false := by simpa [hc] using hpair.1
            rcases subScanBF_head_nonws M hrep fuel (some c) d t' hd with
              hnil | ⟨h0, t0, he, hh0⟩
            · rw [hnil]
              rfl
            · rw [he]
              rw [he] at hout
              show (!(isPyWs c && isPyWs h0) && noWsRun (h0 :: t0)) = true
              rw [hout, hh0]
              simp
          · cases hsub : subScanBF M fuel (some c) (d :: t') with
            | nil => rfl
            | cons h0 t0 =>
              rw [hsub] at hout
              show (!(isPyWs c && isPyWs h0) && noWsRun (h0 :: t0)) = true
              rw [hout, show isPyWs c = false from by simpa using hc]
              simp

theorem matchWordB_rep (w : Str) (optS : Bool) (rep : Str) {prev : Option Char} {s : Str}
    {n : Nat} {rep' : Str} (h : matchWordB w optS rep prev s = some (n, rep')) :
    rep' = rep := by
  unfold matchWordB at h
  simp only [] at h
  repeat' split at h
  all_goals first
    | exact Option.noConfusion h
    | exact (congrArg Prod.snd (Option.some.inj h)).symm

theorem foldl_preserve {α β : Type} (P : α → Prop) (f : α → β → α) :
    ∀ (l : List β) (a : α), P a → (∀ b ∈ l, ∀ x, P x → P (f x b)) → P (l.foldl f a) := by
  intro l
  induction l with
  | nil => intro a ha _; exact ha
  | cons b l ih =>
    intro a ha hstep
    exact ih (f a b) (hstep b (by simp) a ha) (fun b' hb' => hstep b' (by simp [hb']))

theorem fractionPairs_rep_ok :
    ∀ kv ∈ fractionPairs, kv.2 ≠ [] ∧ kv.2.all (fun x => !isPyWs x) = true := by
  decide

theorem abbrevPatterns_rep_ok :
    ∀ kv ∈ abbrevPatterns, kv.2.2 ≠ [] ∧ kv.2.2.all (fun x => !isPyWs x) = true := by
  decide

theorem noWsRun_cleanIngredient (i0 : Str) : noWsRun (cleanIngredient i0) = true := by
  unfold cleanIngredient
  simp only []
  by_cases hi : cleanText i0 = []
  · rw [if_pos hi]
    rfl
  · rw [if_neg hi]
    refine foldl_preserve (fun s => noWsRun s = true) _ abbrevPatterns _ ?_ ?_
    · refine foldl_preserve (fun s => noWsRun s = true) _ fractionPairs _
        (noWsRun_cleanText i0) ?_
      intro kv hkv x hx
      exact noWsRun_pyReplaceChar kv.1 kv.2 (fractionPairs_rep_ok kv hkv).1
        (fractionPairs_rep_ok kv hkv).2 x hx
    · intro kv hkv x hx
      refine noWsRun_subScanBF _ ?_ _ _ _ hx
      intro prev s n rep h
      rw [matchWordB_rep kv.1 kv.2.1 kv.2.2 h]
      exact RepOK_lit kv.2.2 (abbrevPatterns_rep_ok kv hkv).1 (abbrevPatterns_rep_ok kv hkv).2

theorem noWsRun_stripNumDot {s : Str} (h : noWsRun s = true) :
    noWsRun (stripNumDot s) = true := by
  unfold stripNumDot
  simp only []
  split
  · exact noWsRun_dropWhile (noWsRun_drop h _) _
  · exact h

theorem stepCleanup_cons (st : Str) (rest : List Str) :
    stepCleanup (st :: rest) =
      (if pyStrip st = [] then stepCleanup rest
       else
         (if stripNumDot (pyStrip st) ≠ [] ∧
             ¬((stripNumDot (pyStrip st)).getLast? = some '.' ∨
               (stripNumDot (pyStrip st)).getLast? = some '!' ∨
               (stripNumDot (pyStrip st)).getLast? = some '?')
          then stripNumDot (pyStrip st) ++ ['.'] else stripNumDot (pyStrip st)) ::
         stepCleanup rest) := rfl

theorem stepCleanup_noWsRun :
    ∀ (steps : List Str), (∀ s ∈ steps, noWsRun s = true) →
      ∀ x ∈ stepCleanup steps, noWsRun x = true := by
  intro steps
  induction steps with
  | nil => intro _ x hx; cases hx
  | cons st rest ih =>
    intro hall x hx
    rw [stepCleanup_cons] at hx
    by_cases hs : pyStrip st = []
    · rw [if_pos hs] at hx
      exact ih (fun s hsm => hall s (by simp [hsm])) x hx
    · rw [if_neg hs] at hx
      rcases List.mem_cons.mp hx with rfl | hx
      · have hns : noWsRun (stripNumDot (pyStrip st)) = true :=
          noWsRun_stripNumDot (noWsRun_strip (hall st (by simp)))
        split
        · refine noWsRun_append_of _ _ hns (by decide) ?_
          intro x y _ hy
          have hy2 : '.' = y := Option.some.inj hy
          subst hy2
          rw [show isPyWs '.' = false from by decide]
          simp
        · exact hns
      · exact ih (fun s hsm => hall s (by simp [hsm])) x hx

theorem sentSplitGo_cons (fuel : Nat) (prev : Option Char) (acc : Str) (c : Char) (t : Str) :
    sentSplitGo (fuel + 1) prev acc (c :: t) =
      (if isPyWs c ∧ (prev = some '.' ∨ prev = some '!' ∨ prev = some '?') then
        match t.dropWhile isPyWs with
        | r :: rest =>
          if isAsciiUpper r then acc.reverse :: sentSplitGo fuel none [] (r :: rest)
          else sentSplitGo fuel (some c) (c :: acc) t
        | [] => sentSplitGo fuel (some c) (c :: acc) t
       else sentSplitGo fuel (some c) (c :: acc) t) := rfl

theorem sentSplitGo_noWsRun :
    ∀ (fuel : Nat) (prev : Option Char) (acc s : Str),
      noWsRun (acc.reverse ++ s) = true →
      ∀ x ∈ sentSplitGo fuel prev acc s, noWsRun x = true := by
  intro fuel
  induction fuel with
  | zero =>
    intro prev acc s hinv x hx
    have hx2 : x = acc.reverse ++ s := by simpa [sentSplitGo] using hx
    subst hx2
    exact hinv
  | succ fuel ih =>
    intro prev acc s hinv x hx
    cases s with
    | nil =>
      have hx2 : x = acc.reverse := by simpa [sentSplitGo] using hx
      subst hx2
      have h2 := hinv
      rw [List.append_nil] at h2
      exact h2
    | cons c t =>
      rw [sentSplitGo_cons] at hx
      have hrec_inv : noWsRun ((c :: acc).reverse ++ t) = true := by
        rw [List.reverse_cons, List.append_assoc]
        exact hinv
      by_cases hcnd : isPyWs c ∧ (prev = some '.' ∨ prev = some '!' ∨ prev = some '?')
      · rw [if_pos hcnd] at hx
        split at hx
        · rename_i r rest hdrop
          by_cases hr : isAsciiUpper r = true
          · rw [if_pos hr] at hx
            rcases List.mem_cons.mp hx with rfl | hx
            · exact noWsRun_append_left hinv
            · refine ih none [] (r :: rest) ?_ x hx
              simp only [List.reverse_nil, List.nil_append]
              rw [← hdrop]
              exact noWsRun_dropWhile (noWsRun_tail (noWsRun_append_right hinv)) isPyWs
          · rw [if_neg hr] at hx
            exact ih (some c) (c :: acc) t hrec_inv x hx
        · exact ih (some c) (c :: acc) t hrec_inv x hx
      · rw [if_neg hcnd] at hx
        exact ih (some c) (c :: acc) t hrec_inv x hx

theorem splitSentences_noWsRun {s : Str} (hs : noWsRun s = true) :
    ∀ x ∈ splitSentences s, noWsRun x = true := by
  intro x hx
  refine sentSplitGo_noWsRun (s.length + 1) none [] s ?_ x hx
  simpa using hs

theorem mergeStepsGo_cons (current sen : Str) (rest : List Str) :
    mergeStepsGo current (sen :: rest) =
      (if pyStrip sen = [] then mergeStepsGo current rest
       else if startsWithAction (pyStrip sen) ∧ current ≠ [] then
         pyStrip current :: mergeStepsGo (pyStrip sen) rest
       else if current ≠ [] then mergeStepsGo (current ++ ' ' :: pyStrip sen) rest
       else mergeStepsGo (pyStrip sen) rest) := rfl

theorem mergeStepsGo_noWsRun :
    ∀ (sens : List Str) (current : Str),
      (∀ s ∈ sens, noWsRun s = true) →
      noWsRun current = true →
      (∀ x, current.getLast? = some x → isPyWs x = false) →
      ∀ x ∈ mergeStepsGo current sens, noWsRun x = true := by
  intro sens
  induction sens with
  | nil =>
    intro current _ hcur _ x hx
    by_cases hc : current ≠ []
    · rw [show mergeStepsGo current [] = [pyStrip current] from by
        simp [mergeStepsGo, hc]] at hx
      rcases List.mem_cons.mp hx with rfl | hx
      · exact noWsRun_strip hcur
      · cases hx
    · rw [show mergeStepsGo current [] = [] from by simp [mergeStepsGo, hc]] at hx
      cases hx
  | cons sen rest ih =>
    intro current hsens hcur hlastcur x hx
    rw [mergeStepsGo_cons] at hx
    have hsen : noWsRun (pyStrip sen) = true := noWsRun_strip (hsens sen (by simp))
    have hrest : ∀ s ∈ rest, noWsRun s = true := fun s hsm => hsens s (by simp [hsm])
    by_cases h1 : pyStrip sen = []
    · rw [if_pos h1] at hx
      exact ih current hrest hcur hlastcur x hx
    · rw [if_neg h1] at hx
      by_cases h2 : startsWithAction (pyStrip sen) ∧ current ≠ []
      · rw [if_pos h2] at hx
        rcases List.mem_cons.mp hx with rfl | hx
        · exact noWsRun_strip hcur
        · exact ih (pyStrip sen) hrest hsen (fun y hy => pyStrip_getLast?_nonws hy) x hx
      · rw [if_neg h2] at hx
        by_cases h3 : current ≠ []
        · rw [if_pos h3] at hx
          have hmid : noWsRun (' ' :: pyStrip sen) = true := by
            cases hps : pyStrip sen with
            | nil => rfl
            | cons p0 pt =>
              show (!(isPyWs ' ' && isPyWs p0) && noWsRun (p0 :: pt)) = true
              rw [show isPyWs p0 = false from pyStrip_head?_nonws (by rw [hps]; rfl)]
              rw [← hps, hsen]
              simp
          have hnewcur : noWsRun (current ++ ' ' :: pyStrip sen) = true := by
            refine noWsRun_append_of _ _ hcur hmid ?_
            intro p q hp hq
            rw [hlastcur p hp]
            rfl
          have hnewlast : ∀ y, (current ++ ' ' :: pyStrip sen).getLast? = some y →
              isPyWs y = false := by
            intro y hy
            rw [getLast?_append_right (by simp)] at hy
            cases hps : pyStrip sen with
            | nil => exact absurd hps h1
            | cons p0 pt =>
              rw [hps, getLast?_cons_cons] at hy
              exact pyStrip_getLast?_nonws (by rw [hps]; exact hy)
          exact ih (current ++ ' ' :: pyStrip sen) hrest hnewcur hnewlast x hx
        · rw [if_neg h3] at hx
          exact ih (pyStrip sen) hrest hsen (fun y hy => pyStrip_getLast?_nonws hy) x hx

theorem noWsRun_cleanInstructions (h : Str) :
    ∀ x ∈ cleanInstructions h, noWsRun x = true := by
  intro x hx
  unfold cleanInstructions at hx
  by_cases hh : h = []
  · rw [if_pos hh] at hx
    cases hx
  · rw [if_neg hh] at hx
    simp only [] at hx
    refine stepCleanup_noWsRun _ ?_ x hx
    intro s hsm
    split at hsm
    · obtain ⟨hsm2, _⟩ := List.mem_filter.mp hsm
      obtain ⟨y, _, rfl⟩ := List.mem_map.mp hsm2
      exact noWsRun_cleanText (getText y)
    · refine mergeStepsGo_noWsRun _ [] ?_ rfl ?_ s hsm
      · exact fun z hz => splitSentences_noWsRun (noWsRun_cleanText (getText h)) z hz
      · intro y hy
        cases hy

theorem noWsRun_cleanNotes (h : Str) : ∀ x ∈ cleanNotes h, noWsRun x = true := by
  intro x hx
  unfold cleanNotes at hx
  by_cases hh : h = []
  · rw [if_pos hh] at hx
    cases hx
  · rw [if_neg hh] at hx
    simp only [] at hx
    by_cases hp : extractPTexts h ≠ []
    · rw [if_pos hp] at hx
      obtain ⟨hx2, _⟩ := List.mem_filter.mp hx
      obtain ⟨y, _, rfl⟩ := List.mem_map.mp hx2
      exact noWsRun_cleanText y
    · rw [if_neg hp] at hx
      by_cases ht : cleanText (getText h) ≠ []
      · rw [if_pos ht] at hx
        obtain ⟨hx2, _⟩ := List.mem_filter.mp hx
        obtain ⟨y, _, rfl⟩ := List.mem_map.mp hx2
        exact noWsRun_cleanText y
      · rw [if_neg ht] at hx
        cases hx

theorem noWsRun_colonJoin (s : Str) (hs : noWsRun s = true) :
    noWsRun (pyTitle (pyStrip (splitFirstColon s).1) ++ str ": " ++
      pyStrip (splitFirstColon s).2) = true := by
  have h1 : noWsRun (splitFirstColon s).1 = true := by
    show noWsRun (s.takeWhile (fun c => !(c == ':'))) = true
    exact noWsRun_takeWhile hs _
  have h2 : noWsRun (splitFirstColon s).2 = true := by
    show noWsRun (s.drop ((s.takeWhile (fun c => !(c == ':'))).length + 1)) = true
    exact noWsRun_drop hs _
  have hA : noWsRun (pyTitle (pyStrip (splitFirstColon s).1)) = true :=
    noWsRun_pyTitle _ (noWsRun_strip h1)
  have hS1 : noWsRun (pyTitle (pyStrip (splitFirstColon s).1) ++ str ": ") = true := by
    refine noWsRun_append_of _ _ hA (by decide) ?_
    intro x y _ hy
    have hy2 : ':' = y := Option.some.inj hy
    subst hy2
    rw [show isPyWs ':' = false from by decide]
    simp
  refine noWsRun_append_of _ _ hS1 (noWsRun_strip h2) ?_
  intro x y _ hy
  rw [pyStrip_head?_nonws hy]
  simp

theorem noWsRun_cleanNutrition (h : Str) : ∀ x ∈ cleanNutrition h, noWsRun x = true := by
  intro x hx
  unfold cleanNutrition at hx
  by_cases hh : h = []
  · rw [if_pos hh] at hx
    cases hx
  · rw [if_neg hh] at hx
    simp only [] at hx
    by_cases ht : cleanText (getText h) = []
    · rw [if_pos ht] at hx
      cases hx
    · rw [if_neg ht] at hx
      generalize (if (splitBrTags h).length = 1 then
          splitOnScan
            (fun s => match s with
              | c :: _ => if c = ',' ∨ c = ';' ∨ c = '\n' then some 1 else none
              | [] => none)
            ((cleanText (getText h)).length + 1) [] (cleanText (getText h))
        else splitBrTags h) = items at hx
      induction items with
      | nil => cases hx
      | cons it rest ih =>
        rw [List.foldr_cons] at hx
        split at hx
        · split at hx
          · rcases List.mem_cons.mp hx with rfl | hx
            · exact noWsRun_colonJoin _ (noWsRun_cleanText _)
            · exact ih hx
          · exact ih hx
        · split at hx
          · rcases List.mem_cons.mp hx with rfl | hx
            · exact noWsRun_colonJoin _ (noWsRun_cleanText _)
            · exact ih hx
          · exact ih hx

theorem parseStep_keep_prep_time (raw : RawFields) (r : Recipe) :
    ∀ i, i ≠ 2 → (parseStep raw i r).prep_time = r.prep_time := by
  obtain ⟨tt, ct, pt, ckt, st, src, ing, insh, nh, uh, im⟩ := raw
  intro i hi
  match i with
  | 0 => cases tt <;> rfl
  | 1 => cases ct <;> rfl
  | 2 => exact absurd rfl hi
  | 3 => cases ckt <;> rfl
  | 4 => cases st <;> rfl
  | 5 => rcases src with _ | ⟨h1, _ | a⟩ <;> rfl
  | 6 => rfl
  | 7 => cases insh <;> rfl
  | 8 => cases nh <;> rfl
  | 9 => cases uh <;> rfl
  | 10 => cases im <;> rfl
  | (j + 11) => rfl

theorem parseStep_keep_cook_time (raw : RawFields) (r : Recipe) :
    ∀ i, i ≠ 3 → (parseStep raw i r).cook_time = r.cook_time := by
  obtain ⟨tt, ct, pt, ckt, st, src, ing, insh, nh, uh, im⟩ := raw
  intro i hi
  match i with
  | 0 => cases tt <;> rfl
  | 1 => cases ct <;> rfl
  | 2 => cases pt <;> rfl
  | 3 => exact absurd rfl hi
  | 4 => cases st <;> rfl
  | 5 => rcases src with _ | ⟨h1, _ | a⟩ <;> rfl
  | 6 => rfl
  | 7 => cases insh <;> rfl
  | 8 => cases nh <;> rfl
  | 9 => cases uh <;> rfl
  | 10 => cases im <;> rfl
  | (j + 11) => rfl

theorem parseStep_keep_ingredients (raw : RawFields) (r : Recipe) :
    ∀ i, i ≠ 6 → (parseStep raw i r).ingredients = r.ingredients := by
  obtain ⟨tt, ct, pt, ckt, st, src, ing, insh, nh, uh, im⟩ := raw
  intro i hi
  match i with
  | 0 => cases tt <;> rfl
  | 1 => cases ct <;> rfl
  | 2 => cases pt <;> rfl
  | 3 => cases ckt <;> rfl
  | 4 => cases st <;> rfl
  | 5 => rcases src with _ | ⟨h1, _ | a⟩ <;> rfl
  | 6 => exact absurd rfl hi
  | 7 => cases insh <;> rfl
  | 8 => cases nh <;> rfl
  | 9 => cases uh <;> rfl
  | 10 => cases im <;> rfl
  | (j + 11) => rfl

theorem parseStep_keep_instructions (raw : RawFields) (r : Recipe) :
    ∀ i, i ≠ 7 → (parseStep raw i r).instructions = r.instructions := by
  obtain ⟨tt, ct, pt, ckt, st, src, ing, insh, nh, uh, im⟩ := raw
  intro i hi
  match i with
  | 0 => cases tt <;> rfl
  | 1 => cases ct <;> rfl
  | 2 => cases pt <;> rfl
  | 3 => cases ckt <;> rfl
  | 4 => cases st <;> rfl
  | 5 => rcases src with _ | ⟨h1, _ | a⟩ <;> rfl
  | 6 => rfl
  | 7 => exact absurd rfl hi
  | 8 => cases nh <;> rfl
  | 9 => cases uh <;> rfl
  | 10 => cases im <;> rfl
  | (j + 11) => rfl

theorem parseStep_keep_notes (raw : RawFields) (r : Recipe) :
    ∀ i, i ≠ 8 → (parseStep raw i r).notes = r.notes := by
  obtain ⟨tt, ct, pt, ckt, st, src, ing, insh, nh, uh, im⟩ := raw
  intro i hi
  match i with
  | 0 => cases tt <;> rfl
  | 1 => cases ct <;> rfl
  | 2 => cases pt <;> rfl
  | 3 => cases ckt <;> rfl
  | 4 => cases st <;> rfl
  | 5 => rcases src with _ | ⟨h1, _ | a⟩ <;> rfl
  | 6 => rfl
  | 7 => cases insh <;> rfl
  | 8 => exact absurd rfl hi
  | 9 => cases uh <;> rfl
  | 10 => cases im <;> rfl
  | (j + 11) => rfl

theorem parseStep_keep_nutrition (raw : RawFields) (r : Recipe) :
    ∀ i, i ≠ 9 → (parseStep raw i r).nutrition = r.nutrition := by
  obtain ⟨tt, ct, pt, ckt, st, src, ing, insh, nh, uh, im⟩ := raw
  intro i hi
  match i with
  | 0 => cases tt <;> rfl
  | 1 => cases ct <;> rfl
  | 2 => cases pt <;> rfl
  | 3 => cases ckt <;> rfl
  | 4 => cases st <;> rfl
  | 5 => rcases src with _ | ⟨h1, _ | a⟩ <;> rfl
  | 6 => rfl
  | 7 => cases insh <;> rfl
  | 8 => cases nh <;> rfl
  | 9 => exact absurd rfl hi
  | 10 => cases im <;> rfl
  | (j + 11) => rfl

theorem parseStep2_prep_time (raw : RawFields) (r : Recipe) :
    (parseStep raw 2 r).prep_time =
      (match raw.prepText with
        | some t => cleanTime (pyStrip t)
        | none => r.prep_time) := by
  obtain ⟨tt, ct, pt, ckt, st, src, ing, insh, nh, uh, im⟩ := raw
  cases pt <;> rfl

theorem parseStep3_cook_time (raw : RawFields) (r : Recipe) :
    (parseStep raw 3 r).cook_time =
      (match raw.cookText with
        | some t => cleanTime (pyStrip t)
        | none => r.cook_time) := by
  obtain ⟨tt, ct, pt, ckt, st, src, ing, insh, nh, uh, im⟩ := raw
  cases ckt <;> rfl

theorem parseStep6_ingredients (raw : RawFields) (r : Recipe) :
    (parseStep raw 6 r).ingredients =
      ((raw.ingredientTexts.map (fun e => cleanIngredient (pyStrip e))).filter
        (fun s => !s.isEmpty)) := by
  obtain ⟨tt, ct, pt, ckt, st, src, ing, insh, nh, uh, im⟩ := raw
  rfl

theorem parseStep7_instructions (raw : RawFields) (r : Recipe) :
    (parseStep raw 7 r).instructions =
      (match raw.instructionsHtml with
        | some ih => cleanInstructions ih
        | none => r.instructions) := by
  obtain ⟨tt, ct, pt, ckt, st, src, ing, insh, nh, uh, im⟩ := raw
  cases insh <;> rfl

theorem parseStep8_notes (raw : RawFields) (r : Recipe) :
    (parseStep raw 8 r).notes =
      (match raw.notesHtml with
        | some nh => cleanNotes nh
        | none => r.notes) := by
  obtain ⟨tt, ct, pt, ckt, st, src, ing, insh, nh, uh, im⟩ := raw
  cases nh <;> rfl

theorem parseStep9_nutrition (raw : RawFields) (r : Recipe) :
    (parseStep raw 9 r).nutrition =
      (match raw.nutritionHtml with
        | some nh => cleanNutrition nh
        | none => r.nutrition) := by
  obtain ⟨tt, ct, pt, ckt, st, src, ing, insh, nh, uh, im⟩ := raw
  cases uh <;> rfl

theorem parseRecipe_prep_time (raw : RawFields) :
    (parseRecipe raw).prep_time =
      (match raw.prepText with
        | some t => cleanTime (pyStrip t)
        | none => []) := by
  rw [parseRecipe_unfold raw,
    parseStep_keep_prep_time raw _ 10 (by decide), parseStep_keep_prep_time raw _ 9 (by decide),
    parseStep_keep_prep_time raw _ 8 (by decide), parseStep_keep_prep_time raw _ 7 (by decide),
    parseStep_keep_prep_time raw _ 6 (by decide), parseStep_keep_prep_time raw _ 5 (by decide),
    parseStep_keep_prep_time raw _ 4 (by decide), parseStep_keep_prep_time raw _ 3 (by decide),
    parseStep2_prep_time raw,
    parseStep_keep_prep_time raw _ 1 (by decide), parseStep_keep_prep_time raw _ 0 (by decide)]

theorem parseRecipe_cook_time (raw : RawFields) :
    (parseRecipe raw).cook_time =
      (match raw.cookText with
        | some t => cleanTime (pyStrip t)
        | none => []) := by
  rw [parseRecipe_unfold raw,
    parseStep_keep_cook_time raw _ 10 (by decide), parseStep_keep_cook_time raw _ 9 (by decide),
    parseStep_keep_cook_time raw _ 8 (by decide), parseStep_keep_cook_time raw _ 7 (by decide),
    parseStep_keep_cook_time raw _ 6 (by decide), parseStep_keep_cook_time raw _ 5 (by decide),
    parseStep_keep_cook_time raw _ 4 (by decide),
    parseStep3_cook_time raw,
    parseStep_keep_cook_time raw _ 2 (by decide),
    parseStep_keep_cook_time raw _ 1 (by decide), parseStep_keep_cook_time raw _ 0 (by decide)]

theorem parseRecipe_ingredients (raw : RawFields) :
    (parseRecipe raw).ingredients =
      ((raw.ingredientTexts.map (fun e => cleanIngredient (pyStrip e))).filter
        (fun s => !s.isEmpty)) := by
  rw [parseRecipe_unfold raw,
    parseStep_keep_ingredients raw _ 10 (by decide),
    parseStep_keep_ingredients raw _ 9 (by decide),
    parseStep_keep_ingredients raw _ 8 (by decide),
    parseStep_keep_ingredients raw _ 7 (by decide),
    parseStep6_ingredients raw]

theorem parseRecipe_instructions (raw : RawFields) :
    (parseRecipe raw).instructions =
      (match raw.instructionsHtml with
        | some ih => cleanInstructions ih
        | none => []) := by
  rw [parseRecipe_unfold raw,
    parseStep_keep_instructions raw _ 10 (by decide),
    parseStep_keep_instructions raw _ 9 (by decide),
    parseStep_keep_instructions raw _ 8 (by decide),
    parseStep7_instructions raw,
    parseStep_keep_instructions raw _ 6 (by decide),
    parseStep_keep_instructions raw _ 5 (by decide),
    parseStep_keep_instructions raw _ 4 (by decide),
    parseStep_keep_instructions raw _ 3 (by decide),
    parseStep_keep_instructions raw _ 2 (by decide),
    parseStep_keep_instructions raw _ 1 (by decide),
    parseStep_keep_instructions raw _ 0 (by decide)]

theorem parseRecipe_notes (raw : RawFields) :
    (parseRecipe raw).notes =
      (match raw.notesHtml with
        | some nh => cleanNotes nh
        | none => []) := by
  rw [parseRecipe_unfold raw,
    parseStep_keep_notes raw _ 10 (by decide),
    parseStep_keep_notes raw _ 9 (by decide),
    parseStep8_notes raw,
    parseStep_keep_notes raw _ 7 (by decide),
    parseStep_keep_notes raw _ 6 (by decide),
    parseStep_keep_notes raw _ 5 (by decide),
    parseStep_keep_notes raw _ 4 (by decide),
    parseStep_keep_notes raw _ 3 (by decide),
    parseStep_keep_notes raw _ 2 (by decide),
    parseStep_keep_notes raw _ 1 (by decide),
    parseStep_keep_notes raw _ 0 (by decide)]

theorem parseRecipe_nutrition (raw : RawFields) :
    (parseRecipe raw).nutrition =
      (match raw.nutritionHtml with
        | some nh => cleanNutrition nh
        | none => []) := by
  rw [parseRecipe_unfold raw,
    parseStep_keep_nutrition raw _ 10 (by decide),
    parseStep9_nutrition raw,
    parseStep_keep_nutrition raw _ 8 (by decide),
    parseStep_keep_nutrition raw _ 7 (by decide),
    parseStep_keep_nutrition raw _ 6 (by decide),
    parseStep_keep_nutrition raw _ 5 (by decide),
    parseStep_keep_nutrition raw _ 4 (by decide),
    parseStep_keep_nutrition raw _ 3 (by decide),
    parseStep_keep_nutrition raw _ 2 (by decide),
    parseStep_keep_nutrition raw _ 1 (by decide),
    parseStep_keep_nutrition raw _ 0 (by decide)]

/-- Claim C3 (amended): every attribute cleaned through `_clean_text` —
title, each category, prep time, cook time, servings, source name, each
ingredient, each instruction step, each note, each nutrition item — is
stored whitespace-collapsed (no two adjacent whitespace characters survive
the `\s+` collapse that `_clean_text` and the field post-processing apply),
but `source_url` stores the raw href only stripped of surrounding whitespace
and `image_path` stores the raw `src` attribute verbatim — those two retain
unprocessed input text. -/
theorem c3_amended_attribute_cleaning (raw : RawFields) :
    noWsRun (parseRecipe raw).title = true ∧
    ((parseRecipe raw).categories.all noWsRun) = true ∧
    noWsRun (parseRecipe raw).prep_time = true ∧
    noWsRun (parseRecipe raw).cook_time = true ∧
    noWsRun (parseRecipe raw).servings = true ∧
    noWsRun (parseRecipe raw).source_name = true ∧
    ((parseRecipe raw).ingredients.all noWsRun) = true ∧
    ((parseRecipe raw).instructions.all noWsRun) = true ∧
    ((parseRecipe raw).notes.all noWsRun) = true ∧
    ((parseRecipe raw).nutrition.all noWsRun) = true ∧
    (parseRecipe raw).source_url =
      (match raw.source with
        | some pa => pyStrip pa.1
        | none => []) ∧
    (parseRecipe raw).image_path =
      (match raw.imgSrc with
        | some src => src
        | none => []) := by
  refine ⟨?_, noWsRun_all_categories raw, ?_, ?_, ?_, ?_, ?_, ?_, ?_, ?_,
    parseRecipe_source_url raw, parseRecipe_image_path raw⟩
  · rw [parseRecipe_title raw]
    cases raw.titleText with
    | none => rfl
    | some t => exact noWsRun_cleanTitle (pyStrip t)
  · rw [parseRecipe_prep_time raw]
    cases raw.prepText with
    | none => rfl
    | some t => exact noWsRun_cleanTime (pyStrip t)
  · rw [parseRecipe_cook_time raw]
    cases raw.cookText with
    | none => rfl
    | some t => exact noWsRun_cleanTime (pyStrip t)
  · rw [parseRecipe_servings raw]
    cases raw.servingsText with
    | none => rfl
    | some t => exact noWsRun_cleanServings (pyStrip t)
  · rw [parseRecipe_source_name raw]
    rcases raw.source with _ | ⟨h1, _ | a⟩
    · rfl
    · rfl
    · exact noWsRun_cleanText (pyStrip a)
  · rw [parseRecipe_ingredients raw]
    rw [List.all_eq_true]
    intro x hx
    obtain ⟨hx2, _⟩ := List.mem_filter.mp hx
    obtain ⟨y, _, rfl⟩ := List.mem_map.mp hx2
    exact noWsRun_cleanIngredient (pyStrip y)
  · rw [parseRecipe_instructions raw]
    cases raw.instructionsHtml with
    | none => rfl
    | some ih =>
      rw [List.all_eq_true]
      intro x hx
      exact noWsRun_cleanInstructions ih x hx
  · rw [parseRecipe_notes raw]
    cases raw.notesHtml with
    | none => rfl
    | some nh =>
      rw [List.all_eq_true]
      intro x hx
      exact noWsRun_cleanNotes nh x hx
  · rw [parseRecipe_nutrition raw]
    cases raw.nutritionHtml with
    | none => rfl
    | some nh =>
      rw [List.all_eq_true]
      intro x hx
      exact noWsRun_cleanNutrition nh x hx
